import Mathlib

/-!
# mactop: the sampling-line parsing engine and the update throttler

A shallow embedding of `parser/metrics.go` and `event_throttler/event_throttler.go`.

* Go strings are lists of characters (valid Unicode text).
* Go `int` is the 64-bit signed integer of the arm64 target: values are `Int`, additions wrap
  with `wrapInt`, conversions that cannot be represented saturate as the arm64 instructions do.
* Go `float64` is `F64`: every finite binary64 number is an integer multiple of `2^(-1074)`, so a
  finite value is stored as a sign and that integer; results of operations are rounded to the
  nearest representable value, ties to even, exactly as IEEE 754 prescribes.
* The library functions used by the parser (`regexp`, `strings`, `strconv`, `sort`) are embedded
  after their Go implementation, restricted to the operations the parser calls.
-/

namespace Mactop

/-! ## Go `int` (64 bits) -/

/-- Largest value of Go `int` on a 64-bit target. -/
def maxInt : Int := 9223372036854775807

/-- Smallest value of Go `int` on a 64-bit target. -/
def minInt : Int := -9223372036854775808

/-- Two's complement wrap-around of a mathematical integer into the 64-bit range. -/
def wrapInt (x : Int) : Int := (x + 9223372036854775808) % 18446744073709551616 - 9223372036854775808

/-- Saturation of a mathematical integer into the 64-bit range. -/
def clampInt (x : Int) : Int := if x < minInt then minInt else if maxInt < x then maxInt else x

/-- Go `a + b` on `int`. -/
def addInt (a b : Int) : Int := wrapInt (a + b)

/-- Go `a / b` on `int`: the quotient truncated toward zero. Go panics when `b` is zero; the
parser only divides by the constants 2 and 4 and by a counter it has just incremented from a
non-negative value. -/
def divInt (a b : Int) : Int := wrapInt (Int.tdiv a b)

/-! ## Go `float64` -/

/-- A binary64 value. `fin neg n` denotes `(-1)^neg * n * 2^(-1074)`; `fin true 0` is `-0`. -/
inductive F64 where
  | fin (neg : Bool) (n : Nat)
  | inf (neg : Bool)
  | nan
  deriving DecidableEq

/-- Worker of `ilog2`: counts the halvings of `n` down to 1; the first argument bounds them. -/
def log2Aux : Nat → Nat → Nat → Nat
  | 0, _, acc => acc
  | f + 1, n, acc => if n < 2 then acc else log2Aux f (n / 2) (acc + 1)

/-- Position of the highest set bit of `n` (0 for `n = 0`). -/
def ilog2 (n : Nat) : Nat := log2Aux n n 0

namespace F64

/-- Number of units `2^(-1074)` in 1.0. -/
def one : Nat := 2 ^ 1074

/-- Positive zero. -/
def zero : F64 := fin false 0

/-- Round the non-negative rational `a / b`, counted in units of `2^(-1074)`, to the nearest
binary64 value, ties to even; `s` is the exponent of the unit in the last place (0 in the
subnormal range), and a rounded magnitude of `2^1024` or more is an infinity. -/
def roundUnits (neg : Bool) (a b : Nat) : F64 :=
  let s := ilog2 (a / b) - 52
  let d := b * 2 ^ s
  let q := a / d
  let r := a % d
  let m := if 2 * r < d then q else if d < 2 * r then q + 1 else if q % 2 = 0 then q else q + 1
  let n := m * 2 ^ s
  if 2 ^ 2098 ≤ n then inf neg else fin neg n

/-- Go `float64(k)` for a natural number `k`. -/
def ofNat (k : Nat) : F64 := roundUnits false (k * one) 1

/-- Go `float64(i)` for an `int`. -/
def ofInt (i : Int) : F64 := roundUnits (decide (i < 0)) (i.natAbs * one) 1

/-- Go `x + y`. -/
def add : F64 → F64 → F64
  | fin nx x, fin ny y =>
      if nx = ny then roundUnits nx (x + y) 1
      else if x = y then zero
      else if y < x then roundUnits nx (x - y) 1
      else roundUnits ny (y - x) 1
  | fin _ _, inf n => inf n
  | inf n, fin _ _ => inf n
  | inf a, inf b => if a = b then inf a else nan
  | _, _ => nan

/-- Go `x / y`. -/
def div : F64 → F64 → F64
  | fin nx x, fin ny y =>
      if y = 0 then (if x = 0 then nan else inf (xor nx ny))
      else if x = 0 then fin (xor nx ny) 0
      else roundUnits (xor nx ny) (x * one) y
  | fin nx _, inf ny => fin (xor nx ny) 0
  | inf nx, fin ny _ => inf (xor nx ny)
  | _, _ => nan

/-- Position of a value on the number line, in units of `2^(-1074)`; none for NaN. Both zeros
have position 0 and the infinities lie beyond every finite binary64 value. -/
def key : F64 → Option Int
  | fin neg n => some (if neg then -(n : Int) else (n : Int))
  | inf neg => some (if neg then -(2 ^ 2098 : Int) else (2 ^ 2098 : Int))
  | nan => none

/-- Go `x < y`: false as soon as one side is NaN. -/
def lt (x y : F64) : Bool :=
  match key x, key y with
  | some a, some b => decide (a < b)
  | _, _ => false

/-- Go `x > y`. -/
def gt (x y : F64) : Bool := lt y x

/-- Go `x >= y`: false as soon as one side is NaN. -/
def ge (x y : F64) : Bool :=
  match key x, key y with
  | some a, some b => decide (b ≤ a)
  | _, _ => false

/-- Go `x != y`: true as soon as one side is NaN, false for two zeros of either sign. -/
def ne (x y : F64) : Bool :=
  match key x, key y with
  | some a, some b => decide (a ≠ b)
  | _, _ => true

/-- Go `int(x)`: truncation toward zero. Out of range the Go specification leaves the result to
the implementation; this is the arm64 conversion, which saturates and sends NaN to 0. -/
def toInt : F64 → Int
  | fin neg n => clampInt (if neg then -((n / one : Nat) : Int) else ((n / one : Nat) : Int))
  | inf neg => if neg then minInt else maxInt
  | nan => 0

/-- Whether the value is a NaN. -/
def isNaN : F64 → Bool
  | nan => true
  | _ => false

end F64

/-! ## Package `strings` -/

namespace strings

/-- Go `unicode.IsSpace`. -/
def isSpace (c : Char) : Bool :=
  let n := c.toNat
  (9 ≤ n && n ≤ 13) || n = 32 || n = 0x85 || n = 0xA0 || n = 0x1680 || (0x2000 ≤ n && n ≤ 0x200A)
    || n = 0x2028 || n = 0x2029 || n = 0x202F || n = 0x205F || n = 0x3000

/-- Go `strings.Split(s, "\n")`: the pieces of `s` between line feeds. -/
def SplitLines : List Char → List (List Char)
  | [] => [[]]
  | c :: cs =>
      if c = '\n' then [] :: SplitLines cs
      else match SplitLines cs with
        | l :: ls => (c :: l) :: ls
        | [] => [[c]]

/-- Go `strings.HasPrefix`. -/
def HasPrefix (s pre : List Char) : Bool := pre.isPrefixOf s

/-- Go `strings.Contains`. -/
def Contains : List Char → List Char → Bool
  | [], sub => sub.isEmpty
  | c :: cs, sub => sub.isPrefixOf (c :: cs) || Contains cs sub

/-- Worker of `Fields`: `cur` is the field being read, reversed. -/
def fieldsAux : List Char → List Char → List (List Char)
  | cur, [] => if cur.isEmpty then [] else [cur.reverse]
  | cur, c :: cs =>
      if isSpace c then (if cur.isEmpty then fieldsAux [] cs else cur.reverse :: fieldsAux [] cs)
      else fieldsAux (c :: cur) cs

/-- Go `strings.Fields`: the maximal runs of non-space characters. -/
def Fields (s : List Char) : List (List Char) := fieldsAux [] s

/-- Go `strings.TrimSuffix`. -/
def TrimSuffix (s suf : List Char) : List Char :=
  if suf.isSuffixOf s then s.take (s.length - suf.length) else s

/-- Go `strings.TrimPrefix`. -/
def TrimPrefix (s pre : List Char) : List Char :=
  if pre.isPrefixOf s then s.drop pre.length else s

end strings

/-! ## Package `strconv` -/

namespace strconv

/-- How a conversion ended: `ok` is a nil error, `malformed` is `ErrSyntax`, `outOfRange` is
`ErrRange`. -/
inductive ErrKind where
  | ok
  | malformed
  | outOfRange
  deriving DecidableEq

/-- Whether the character is one of `0` .. `9`. -/
def isDigit (c : Char) : Bool := 48 ≤ c.toNat && c.toNat ≤ 57

/-- Value of a decimal digit character. -/
def digitVal (c : Char) : Nat := c.toNat - 48

/-- Whether the character is one of `a` .. `f` or `A` .. `F`. -/
def isHexLetter (c : Char) : Bool :=
  (97 ≤ c.toNat && c.toNat ≤ 102) || (65 ≤ c.toNat && c.toNat ≤ 70)

/-- Value of a hexadecimal letter. -/
def hexLetterVal (c : Char) : Nat := if 97 ≤ c.toNat then c.toNat - 87 else c.toNat - 55

/-- Value of a string of decimal digits, most significant first, continuing from `acc`. -/
def digitsVal (acc : Nat) : List Char → Nat
  | [] => acc
  | c :: cs => digitsVal (acc * 10 + digitVal c) cs

/-- The loop of `strconv.ParseUint(s, 10, 64)`: a character that is no digit is a syntax error,
and the scan stops with a range error as soon as the value passes `2^64 - 1`. -/
def parseUintAux : Nat → List Char → Nat × ErrKind
  | n, [] => (n, ErrKind.ok)
  | n, c :: cs =>
      if !isDigit c then (0, ErrKind.malformed)
      else if 1844674407370955162 ≤ n then (18446744073709551615, ErrKind.outOfRange)
      else if 18446744073709551615 < n * 10 + digitVal c then
        (18446744073709551615, ErrKind.outOfRange)
      else parseUintAux (n * 10 + digitVal c) cs

/-- Go `strconv.Atoi`: an optional sign and decimal digits. The value is 0 on a syntax error and
the nearest bound of `int` on a range error. -/
def Atoi (s : List Char) : Int × ErrKind :=
  let neg := s.head? = some '-'
  let body := if s.head? = some '+' ∨ s.head? = some '-' then s.tail else s
  if body.isEmpty then (0, ErrKind.malformed)
  else
    match parseUintAux 0 body with
    | (_, ErrKind.malformed) => (0, ErrKind.malformed)
    | (un, e) =>
        if !neg && 9223372036854775808 ≤ un then (maxInt, ErrKind.outOfRange)
        else if neg && 9223372036854775808 < un then (minInt, ErrKind.outOfRange)
        else (if neg then -(un : Int) else (un : Int), e)

/-- Go `commonPrefixLenIgnoreCase(s, pre)` for a lower-case `pre`. -/
def commonPrefixLenIgnoreCase : List Char → List Char → Nat
  | c :: cs, p :: ps =>
      let c1 := if 65 ≤ c.toNat ∧ c.toNat ≤ 90 then Char.ofNat (c.toNat + 32) else c
      if c1 = p then commonPrefixLenIgnoreCase cs ps + 1 else 0
  | _, _ => 0

/-- The infinity case of Go `special`: the value and the number of characters read after the
sign. -/
def specialInf (neg : Bool) (s : List Char) : Option (F64 × Nat) :=
  let n := commonPrefixLenIgnoreCase s "infinity".toList
  let n := if 3 < n ∧ n < 8 then 3 else n
  if n = 3 ∨ n = 8 then some (F64.inf neg, n) else none

/-- Go `special`: an optionally signed "inf" or "infinity", or "nan", in any case, at the start
of `s`; returns the value and the number of characters read. -/
def special (s : List Char) : Option (F64 × Nat) :=
  match s with
  | [] => none
  | c :: cs =>
      if c = '+' then (specialInf false cs).map (fun r => (r.1, r.2 + 1))
      else if c = '-' then (specialInf true cs).map (fun r => (r.1, r.2 + 1))
      else if c = 'i' ∨ c = 'I' then specialInf false s
      else if c = 'n' ∨ c = 'N' then
        (if commonPrefixLenIgnoreCase s "nan".toList = 3 then some (F64.nan, 3) else none)
      else none

/-- What the mantissa loop of `readFloat` has read: whether a dot, a digit and an underscore
were seen, the integer spelled by all digits read, and how many of them followed the dot. -/
structure Mant where
  sawdot : Bool
  sawdigits : Bool
  underscores : Bool
  mant : Nat
  frac : Nat

/-- The mantissa loop of `readFloat` in base 10 or 16: reads digits, underscores and at most one
dot; returns what was read and the unread rest. -/
def readMant (hex : Bool) : Mant → List Char → Mant × List Char
  | m, [] => (m, [])
  | m, c :: cs =>
      if c = '_' then readMant hex { m with underscores := true } cs
      else if c = '.' then
        (if m.sawdot then (m, c :: cs) else readMant hex { m with sawdot := true } cs)
      else if isDigit c then
        readMant hex { m with sawdigits := true,
                              mant := m.mant * (if hex then 16 else 10) + digitVal c,
                              frac := if m.sawdot then m.frac + 1 else m.frac } cs
      else if hex && isHexLetter c then
        readMant hex { m with sawdigits := true, mant := m.mant * 16 + hexLetterVal c,
                              frac := if m.sawdot then m.frac + 1 else m.frac } cs
      else (m, c :: cs)

/-- The digit loop of the exponent in `readFloat`: digits and underscores; the exponent stops
growing once it has reached 10000. Returns the exponent, whether an underscore was seen, and the
unread rest. -/
def readExp : Nat → Bool → List Char → Nat × Bool × List Char
  | e, u, [] => (e, u, [])
  | e, u, c :: cs =>
      if c = '_' then readExp e true cs
      else if isDigit c then readExp (if e < 10000 then e * 10 + digitVal c else e) u cs
      else (e, u, c :: cs)

/-- Worker of `underscoreOK`: `st` is 0 at the beginning, 1 after a digit or base prefix, 2 after
an underscore, 3 after any other character. -/
def underscoreOKAux (hex : Bool) : Nat → List Char → Bool
  | st, [] => st != 2
  | st, c :: cs =>
      if isDigit c || (hex && isHexLetter c) then underscoreOKAux hex 1 cs
      else if c = '_' then (if st != 1 then false else underscoreOKAux hex 2 cs)
      else if st = 2 then false
      else underscoreOKAux hex 3 cs

/-- Go `underscoreOK`: underscores only between digits, or between a base prefix and a digit. -/
def underscoreOK (s : List Char) : Bool :=
  let s := if s.head? = some '-' ∨ s.head? = some '+' then s.tail else s
  match s with
  | '0' :: c :: cs =>
      if c = 'b' ∨ c = 'B' ∨ c = 'o' ∨ c = 'O' ∨ c = 'x' ∨ c = 'X' then
        underscoreOKAux (c = 'x' ∨ c = 'X') 1 cs
      else underscoreOKAux false 0 s
  | _ => underscoreOKAux false 0 s

/-- The binary64 value nearest to `(-1)^neg * mant * base^(-frac) * B^e`, where `B` is 10 for a
decimal mantissa and 2 for a hexadecimal one. -/
def floatValue (neg hex : Bool) (mant frac : Nat) (e : Int) : F64 :=
  let x : Int := if hex then e - 4 * (frac : Int) else e - (frac : Int)
  let b : Nat := if hex then 2 else 10
  if 0 ≤ x then F64.roundUnits neg (mant * b ^ x.toNat * F64.one) 1
  else F64.roundUnits neg (mant * F64.one) (b ^ (-x).toNat)

/-- Whether the text after the sign starts with `0x` or `0X` and at least one more character:
the hexadecimal prefix test of `readFloat`. -/
def hasHexPrefix : List Char → Bool
  | '0' :: c :: _ :: _ => decide (c = 'x' ∨ c = 'X')
  | _ => false

/-- The part of `readFloat` after the mantissa loop, followed by the conversion: `s` is the
whole text, `m` what the mantissa loop read and `r` the rest it left. The rest must be empty or
an exponent that reaches the end of the text: anything else is a syntax error. -/
def finishNumber (neg hex : Bool) (s : List Char) (m : Mant) (r : List Char) : F64 × ErrKind :=
  if !m.sawdigits then (F64.zero, ErrKind.malformed)
  else
    match r with
    | [] =>
        if hex then (F64.zero, ErrKind.malformed)
        else if m.underscores && !underscoreOK s then (F64.zero, ErrKind.malformed)
        else
          (floatValue neg hex m.mant m.frac 0,
            if floatValue neg hex m.mant m.frac 0 = F64.inf neg then ErrKind.outOfRange
            else ErrKind.ok)
    | c :: r1 =>
        if !(if hex then decide (c = 'p' ∨ c = 'P') else decide (c = 'e' ∨ c = 'E')) then
          (F64.zero, ErrKind.malformed)
        else
          let eneg := r1.head? = some '-'
          let r2 := if r1.head? = some '+' ∨ r1.head? = some '-' then r1.tail else r1
          match r2 with
          | [] => (F64.zero, ErrKind.malformed)
          | d :: _ =>
              if !isDigit d then (F64.zero, ErrKind.malformed)
              else
                match readExp 0 false r2 with
                | (e, u, []) =>
                    if (m.underscores || u) && !underscoreOK s then (F64.zero, ErrKind.malformed)
                    else
                      let v := floatValue neg hex m.mant m.frac
                        (if eneg then -(e : Int) else (e : Int))
                      (v, if v = F64.inf neg then ErrKind.outOfRange else ErrKind.ok)
                | (_, _, _ :: _) => (F64.zero, ErrKind.malformed)

/-- Go `readFloat` followed by the conversion, for a text that is not a special value: an
optional sign, an optional hexadecimal prefix, the mantissa, an optional exponent. The whole
text must be read: an unread rest is a syntax error. -/
def parseNumber (s : List Char) : F64 × ErrKind :=
  let neg := s.head? = some '-'
  let s1 := if s.head? = some '+' ∨ s.head? = some '-' then s.tail else s
  let hex := hasHexPrefix s1
  let s2 := if hex then s1.drop 2 else s1
  let mr := readMant hex ⟨false, false, false, 0, 0⟩ s2
  finishNumber neg hex s mr.1 mr.2

/-- Go `strconv.ParseFloat(s, 64)`: the nearest binary64 value and the error. On a syntax error
the value is 0; on a range error it is the infinity of the sign. -/
def ParseFloat (s : List Char) : F64 × ErrKind :=
  match special s with
  | some (v, n) => if n = s.length then (v, ErrKind.ok) else (F64.zero, ErrKind.malformed)
  | none => parseNumber s

end strconv

/-! ## Package `regexp`

The patterns of the parser, as abstract syntax, and a backtracking matcher with the
leftmost-first preference of Go's `regexp` (the match a Perl-style backtracking search finds
first). Every repetition in the parser's patterns is over a single character class. -/

namespace regexp

/-- The character classes the patterns use. -/
inductive Cls where
  | space
  | nonspace
  | digit
  | word
  | any
  | digitDot
  deriving DecidableEq

/-- Membership in a class. Go's Perl classes are ASCII-only: `\s` is `[\t\n\f\r ]`, `\d` is
`[0-9]`, `\w` is `[0-9A-Za-z_]`; `.` is every character but the line feed. -/
def Cls.test : Cls → Char → Bool
  | .space, x => x = '\t' || x = '\n' || x.toNat = 12 || x = '\r' || x = ' '
  | .nonspace, x => !(x = '\t' || x = '\n' || x.toNat = 12 || x = '\r' || x = ' ')
  | .digit, x => 48 ≤ x.toNat && x.toNat ≤ 57
  | .word, x =>
      (48 ≤ x.toNat && x.toNat ≤ 57) || (65 ≤ x.toNat && x.toNat ≤ 90)
        || (97 ≤ x.toNat && x.toNat ≤ 122) || x = '_'
  | .any, x => x != '\n'
  | .digitDot, x => (48 ≤ x.toNat && x.toNat ≤ 57) || x = '.'

/-- Abstract syntax of the patterns: a literal text, one character of a class, concatenation,
alternation, greedy `c*`, lazy `c*?`, greedy `r?`, a numbered capture group, `^` and `$`
(with the multi-line flag). -/
inductive Re where
  | lit (w : List Char)
  | cls (c : Cls)
  | seq (a b : Re)
  | alt (a b : Re)
  | star (c : Cls)
  | lazyStar (c : Cls)
  | opt (r : Re)
  | group (i : Nat) (r : Re)
  | bol (multi : Bool)
  | eol (multi : Bool)

/-- Greedy `c+`. -/
def Re.plus (c : Cls) : Re := Re.seq (Re.cls c) (Re.star c)

/-- Concatenation of a list of patterns. -/
def Re.cat : List Re → Re
  | [] => Re.lit []
  | [r] => r
  | r :: rs => Re.seq r (Re.cat rs)

/-- The highest group number of a pattern. -/
def Re.numGroups : Re → Nat
  | .seq a b => max a.numGroups b.numGroups
  | .alt a b => max a.numGroups b.numGroups
  | .opt r => r.numGroups
  | .group i r => max i r.numGroups
  | _ => 0

/-- A position of the matcher: the character before it (none at the start of the text), the
unread text, and the groups captured so far, most recent first. -/
structure MState where
  prev : Option Char
  rest : List Char
  caps : List (Nat × List Char)

/-- The character before the position reached by reading `w`. -/
def lastOr (prev : Option Char) (w : List Char) : Option Char :=
  match w.getLast? with
  | some c => some c
  | none => prev

/-- Greedy repetition of a class: take one more character first, fall back to stopping. -/
def starGreedy (c : Cls) (caps : List (Nat × List Char)) (k : MState → Option MState) :
    Option Char → List Char → Option MState
  | prev, [] => k ⟨prev, [], caps⟩
  | prev, x :: xs =>
      if c.test x then
        match starGreedy c caps k (some x) xs with
        | some r => some r
        | none => k ⟨prev, x :: xs, caps⟩
      else k ⟨prev, x :: xs, caps⟩

/-- Lazy repetition of a class: stop first, fall back to taking one more character. -/
def starLazy (c : Cls) (caps : List (Nat × List Char)) (k : MState → Option MState) :
    Option Char → List Char → Option MState
  | prev, [] => k ⟨prev, [], caps⟩
  | prev, x :: xs =>
      match k ⟨prev, x :: xs, caps⟩ with
      | some r => some r
      | none => if c.test x then starLazy c caps k (some x) xs else none

/-- Backtracking match of a pattern at a position; `k` is the rest of the match and decides
whether the position reached is accepted. -/
def mt : Re → MState → (MState → Option MState) → Option MState
  | .lit w, s, k =>
      if w.isPrefixOf s.rest then k ⟨lastOr s.prev w, s.rest.drop w.length, s.caps⟩ else none
  | .cls c, s, k =>
      match s.rest with
      | x :: xs => if c.test x then k ⟨some x, xs, s.caps⟩ else none
      | [] => none
  | .seq a b, s, k => mt a s (fun s1 => mt b s1 k)
  | .alt a b, s, k =>
      match mt a s k with
      | some r => some r
      | none => mt b s k
  | .star c, s, k => starGreedy c s.caps k s.prev s.rest
  | .lazyStar c, s, k => starLazy c s.caps k s.prev s.rest
  | .opt r, s, k =>
      match mt r s k with
      | some x => some x
      | none => k s
  | .group i r, s, k =>
      mt r s (fun s1 =>
        k ⟨s1.prev, s1.rest, (i, s.rest.take (s.rest.length - s1.rest.length)) :: s1.caps⟩)
  | .bol multi, s, k =>
      if s.prev = none ∨ (multi = true ∧ s.prev = some '\n') then k s else none
  | .eol multi, s, k =>
      if s.rest = [] ∨ (multi = true ∧ s.rest.head? = some '\n') then k s else none

/-- Leftmost match: the first start position, from the left, at which the pattern matches.
Returns the matched text and the final position. -/
def searchFrom (re : Re) : Option Char → List Char → Option (List Char × MState)
  | prev, [] =>
      match mt re ⟨prev, [], []⟩ some with
      | some st => some ([], st)
      | none => none
  | prev, x :: xs =>
      match mt re ⟨prev, x :: xs, []⟩ some with
      | some st => some ((x :: xs).take ((x :: xs).length - st.rest.length), st)
      | none => searchFrom re (some x) xs

/-- Go `re.FindStringSubmatch(s)`: the matched text followed by the text of each group (empty
for a group that took no part in the match); the empty list stands for Go's nil, no match. -/
def FindStringSubmatch (re : Re) (s : List Char) : List (List Char) :=
  match searchFrom re none s with
  | none => []
  | some (whole, st) =>
      whole :: (List.range re.numGroups).map (fun i => (st.caps.lookup (i + 1)).getD [])

/-- The unread text does not start with a character of the class (it may be empty). -/
def stopsAt (c : Cls) (ys : List Char) : Prop := ∀ y ∈ ys.head?, c.test y = false

/-- The texts a pattern can match, the context of the match aside: `^` and `$` match the
empty text. -/
def Re.Lang : Re → List Char → Prop
  | .lit w, u => u = w
  | .cls c, u => ∃ x, u = [x] ∧ c.test x = true
  | .seq a b, u => ∃ v w, u = v ++ w ∧ a.Lang v ∧ b.Lang w
  | .alt a b, u => a.Lang u ∨ b.Lang u
  | .star c, u => ∀ x ∈ u, c.test x = true
  | .lazyStar c, u => ∀ x ∈ u, c.test x = true
  | .opt r, u => u = [] ∨ r.Lang u
  | .group _ r, u => r.Lang u
  | .bol _, u => u = []
  | .eol _, u => u = []

/-- The texts group `i` of a pattern can capture. -/
def Re.GroupLang : Re → Nat → List Char → Prop
  | .seq a b, i, u => a.GroupLang i u ∨ b.GroupLang i u
  | .alt a b, i, u => a.GroupLang i u ∨ b.GroupLang i u
  | .opt r, i, u => r.GroupLang i u
  | .group j r, i, u => (i = j ∧ r.Lang u) ∨ r.GroupLang i u
  | _, _, _ => False

/-- Whether the character `ch` occurs in every text the pattern matches, by a literal part of
the pattern that no alternative avoids. -/
def Re.needs (ch : Char) : Re → Bool
  | .lit w => decide (ch ∈ w)
  | .seq a b => a.needs ch || b.needs ch
  | .alt a b => a.needs ch && b.needs ch
  | .group _ r => r.needs ch
  | _ => false

end regexp

/-! ## Package `sort` -/

namespace sort

/-- Insert `x` into the already ordered elements `acc`, held last-first: `x` moves toward the
front of the slice while `less x y` holds for its left neighbour `y`. -/
def insertBack {α : Type} (less : α → α → Bool) (x : α) : List α → List α
  | [] => [x]
  | y :: ys => if less x y then y :: insertBack less x ys else x :: y :: ys

/-- Go `sort.Slice(xs, less)`. This is the insertion sort that `sort.Slice` runs on slices of at
most 12 elements; on longer slices Go switches to pattern-defeating quicksort, which returns a
permutation ordered by `less` as well but may place elements that compare equal in another
order. The theorems below use the order and the permutation only. -/
def Slice {α : Type} (less : α → α → Bool) (xs : List α) : List α :=
  (xs.foldl (fun acc x => insertBack less x acc) []).reverse

end sort

/-! ## `parser/metrics.go` -/

open regexp strings strconv

/-- The pattern `\d+\.\d+`. -/
def decimalRe : Re := Re.cat [Re.plus .digit, Re.lit ".".toList, Re.plus .digit]

/-- Go `dataRegex`: `(?m)^\s*(\S.*?)\s+(\d+)\s+(\d+\.\d+)\s+\d+\.\d+\s+`. -/
def dataRegex : Re :=
  Re.cat [Re.bol true, Re.star .space, Re.group 1 (Re.seq (Re.cls .nonspace) (Re.lazyStar .any)),
    Re.plus .space, Re.group 2 (Re.plus .digit), Re.plus .space, Re.group 3 decimalRe,
    Re.plus .space, decimalRe, Re.plus .space]

/-- Go `outRegex`: `out:\s*([\d.]+)\s*packets/s,\s*([\d.]+)\s*bytes/s`. -/
def outRegex : Re :=
  Re.cat [Re.lit "out:".toList, Re.star .space, Re.group 1 (Re.plus .digitDot), Re.star .space,
    Re.lit "packets/s,".toList, Re.star .space, Re.group 2 (Re.plus .digitDot), Re.star .space,
    Re.lit "bytes/s".toList]

/-- Go `inRegex`: `in:\s*([\d.]+)\s*packets/s,\s*([\d.]+)\s*bytes/s`. -/
def inRegex : Re :=
  Re.cat [Re.lit "in:".toList, Re.star .space, Re.group 1 (Re.plus .digitDot), Re.star .space,
    Re.lit "packets/s,".toList, Re.star .space, Re.group 2 (Re.plus .digitDot), Re.star .space,
    Re.lit "bytes/s".toList]

/-- Go `readRegex`: `read:\s*([\d.]+)\s*ops/s\s*([\d.]+)\s*KBytes/s`. -/
def readRegex : Re :=
  Re.cat [Re.lit "read:".toList, Re.star .space, Re.group 1 (Re.plus .digitDot), Re.star .space,
    Re.lit "ops/s".toList, Re.star .space, Re.group 2 (Re.plus .digitDot), Re.star .space,
    Re.lit "KBytes/s".toList]

/-- Go `writeRegex`: `write:\s*([\d.]+)\s*ops/s\s*([\d.]+)\s*KBytes/s`. -/
def writeRegex : Re :=
  Re.cat [Re.lit "write:".toList, Re.star .space, Re.group 1 (Re.plus .digitDot), Re.star .space,
    Re.lit "ops/s".toList, Re.star .space, Re.group 2 (Re.plus .digitDot), Re.star .space,
    Re.lit "KBytes/s".toList]

/-- Go `residencyRe`: `(\w+-Cluster)\s+HW active residency:\s+(\d+\.\d+)%`. -/
def residencyRe : Re :=
  Re.cat [Re.group 1 (Re.seq (Re.plus .word) (Re.lit "-Cluster".toList)), Re.plus .space,
    Re.lit "HW active residency:".toList, Re.plus .space, Re.group 2 decimalRe,
    Re.lit "%".toList]

/-- Go `frequencyRe`: `(\w+-Cluster)\s+HW active frequency:\s+(\d+)\s+MHz`. -/
def frequencyRe : Re :=
  Re.cat [Re.group 1 (Re.seq (Re.plus .word) (Re.lit "-Cluster".toList)), Re.plus .space,
    Re.lit "HW active frequency:".toList, Re.plus .space, Re.group 2 (Re.plus .digit),
    Re.plus .space, Re.lit "MHz".toList]

/-- Go `strconv.Itoa(i)` for a loop index `i`, which is never negative. -/
def Itoa (i : Nat) : List Char := (Nat.repr i).toList

/-- The pattern compiled in the first per-core loop:
`CPU ` + `strconv.Itoa(i)` + ` active residency:\s+(\d+\.\d+)%`. -/
def coreResidencyRe (i : Nat) : Re :=
  Re.cat [Re.lit ("CPU ".toList ++ Itoa i ++ " active residency:".toList), Re.plus .space,
    Re.group 1 decimalRe, Re.lit "%".toList]

/-- The pattern compiled in the second per-core loop:
`^CPU\s+` + `strconv.Itoa(i)` + `\s+frequency:\s+(\d+)\s+MHz$`. -/
def coreFrequencyRe (i : Nat) : Re :=
  Re.cat [Re.bol false, Re.lit "CPU".toList, Re.plus .space, Re.lit (Itoa i), Re.plus .space,
    Re.lit "frequency:".toList, Re.plus .space, Re.group 1 (Re.plus .digit), Re.plus .space,
    Re.lit "MHz".toList, Re.eol false]

/-- Go `CPUMetrics`. -/
structure CPUMetrics where
  EClusterActive : Int
  EClusterFreqMHz : Int
  PClusterActive : Int
  PClusterFreqMHz : Int
  ECores : List Int
  PCores : List Int
  ANEW : F64
  CPUW : F64
  GPUW : F64
  PackageW : F64
  E0ClusterActive : Int
  E0ClusterFreqMHz : Int
  E1ClusterActive : Int
  E1ClusterFreqMHz : Int
  P0ClusterActive : Int
  P0ClusterFreqMHz : Int
  P1ClusterActive : Int
  P1ClusterFreqMHz : Int
  P2ClusterActive : Int
  P2ClusterFreqMHz : Int
  P3ClusterActive : Int
  P3ClusterFreqMHz : Int
  deriving DecidableEq

/-- Go `NetDiskMetrics`. -/
structure NetDiskMetrics where
  OutPacketsPerSec : F64
  OutBytesPerSec : F64
  InPacketsPerSec : F64
  InBytesPerSec : F64
  ReadOpsPerSec : F64
  WriteOpsPerSec : F64
  ReadKBytesPerSec : F64
  WriteKBytesPerSec : F64
  deriving DecidableEq

/-- Go `ProcessMetrics`. -/
structure ProcessMetrics where
  ID : Int
  Name : List Char
  CPUUsage : F64
  deriving DecidableEq

/-- The zero value of `CPUMetrics`, with which `CollectMetrics` starts. -/
def CPUMetrics.zero : CPUMetrics :=
  ⟨0, 0, 0, 0, [], [], F64.zero, F64.zero, F64.zero, F64.zero, 0, 0, 0, 0, 0, 0, 0, 0, 0, 0, 0, 0⟩

/-- The zero value of `NetDiskMetrics`. -/
def NetDiskMetrics.zero : NetDiskMetrics :=
  ⟨F64.zero, F64.zero, F64.zero, F64.zero, F64.zero, F64.zero, F64.zero, F64.zero⟩

/-- The body of the loop over the lines in `parseProcessMetrics`, on the pair of the list being
built and the process ids seen in this call. -/
def processLine (acc : List ProcessMetrics × List Int) (line : List Char) :
    List ProcessMetrics × List Int :=
  let m := FindStringSubmatch dataRegex line
  if 3 < m.length then
    let processName := m.getD 1 []
    if processName = "mactop".toList ∨ processName = "main".toList
        ∨ processName = "powermetrics".toList then acc
    else
      let id := (Atoi (m.getD 2 [])).1
      if id ∈ acc.2 then acc
      else
        let cpuMsPerS := (ParseFloat (m.getD 3 [])).1
        (acc.1 ++ [⟨id, m.getD 1 [], cpuMsPerS⟩], id :: acc.2)
  else acc

/-- Go `parseProcessMetrics`. -/
def parseProcessMetrics (powermetricsOutput : List Char) (processMetrics : List ProcessMetrics) :
    List ProcessMetrics :=
  let lines := SplitLines powermetricsOutput
  let acc := lines.foldl processLine (processMetrics, [])
  sort.Slice (fun a b => F64.gt a.CPUUsage b.CPUUsage) acc.1

/-- Go `parseActivityMetrics`. -/
def parseActivityMetrics (powermetricsOutput : List Char) (netdiskMetrics : NetDiskMetrics) :
    NetDiskMetrics :=
  let outMatches := FindStringSubmatch outRegex powermetricsOutput
  let inMatches := FindStringSubmatch inRegex powermetricsOutput
  let n1 := if outMatches.length = 3 then
      { netdiskMetrics with
        OutPacketsPerSec := (ParseFloat (outMatches.getD 1 [])).1
        OutBytesPerSec := (ParseFloat (outMatches.getD 2 [])).1 }
    else netdiskMetrics
  let n2 := if inMatches.length = 3 then
      { n1 with
        InPacketsPerSec := (ParseFloat (inMatches.getD 1 [])).1
        InBytesPerSec := (ParseFloat (inMatches.getD 2 [])).1 }
    else n1
  let readMatches := FindStringSubmatch readRegex powermetricsOutput
  let writeMatches := FindStringSubmatch writeRegex powermetricsOutput
  let n3 := if readMatches.length = 3 then
      { n2 with
        ReadOpsPerSec := (ParseFloat (readMatches.getD 1 [])).1
        ReadKBytesPerSec := (ParseFloat (readMatches.getD 2 [])).1 }
    else n2
  if writeMatches.length = 3 then
    { n3 with
      WriteOpsPerSec := (ParseFloat (writeMatches.getD 1 [])).1
      WriteKBytesPerSec := (ParseFloat (writeMatches.getD 2 [])).1 }
  else n3

/-- The local variables of `parseCPUMetrics`. -/
structure Locals where
  cpuMetrics : CPUMetrics
  eCores : List Int
  pCores : List Int
  eClusterActiveSum : F64
  pClusterActiveSum : F64
  eClusterFreqSum : F64
  pClusterFreqSum : F64
  eClusterCount : Int
  pClusterCount : Int
  eClusterActiveTotal : Int
  pClusterActiveTotal : Int
  eClusterFreqTotal : Int
  pClusterFreqTotal : Int

/-- The local variables of `parseCPUMetrics` before its loops. -/
def Locals.init (cpuMetrics : CPUMetrics) : Locals :=
  ⟨cpuMetrics, [], [], F64.zero, F64.zero, F64.zero, F64.zero, 0, 0, 0, 0, 0, 0⟩

/-- Go `cpuMetrics.X, _ = strconv.ParseFloat(strings.TrimSuffix(field, "mW"), 64)` followed by
`cpuMetrics.X /= 1000`. -/
def milliwattsToWatts (field : List Char) : F64 :=
  F64.div (ParseFloat (TrimSuffix field "mW".toList)).1 (F64.ofNat 1000)

/-- The chain `if strings.Contains(line, "CPU ") && ... else if ...` that closes the loop body
in both branches of `parseCPUMetrics` (source lines 211-245 and 307-341, identical). -/
def coresAndPower (st : Locals) (line : List Char) : Locals :=
  if Contains line "CPU ".toList && Contains line "frequency".toList then
    let fields := Fields line
    if 3 ≤ fields.length then
      let core := (Atoi (TrimPrefix (fields.getD 1 []) "CPU".toList)).1
      if Contains line "E-Cluster".toList then { st with eCores := st.eCores ++ [core] }
      else if Contains line "P-Cluster".toList then { st with pCores := st.pCores ++ [core] }
      else st
    else st
  else if Contains line "ANE Power".toList then
    let fields := Fields line
    if 3 ≤ fields.length then
      { st with cpuMetrics := { st.cpuMetrics with ANEW := milliwattsToWatts (fields.getD 2 []) } }
    else st
  else if Contains line "CPU Power".toList then
    let fields := Fields line
    if 3 ≤ fields.length then
      { st with cpuMetrics := { st.cpuMetrics with CPUW := milliwattsToWatts (fields.getD 2 []) } }
    else st
  else if Contains line "GPU Power".toList then
    let fields := Fields line
    if 3 ≤ fields.length then
      { st with cpuMetrics := { st.cpuMetrics with GPUW := milliwattsToWatts (fields.getD 2 []) } }
    else st
  else if Contains line "Combined Power (CPU + GPU + ANE)".toList then
    let fields := Fields line
    if 8 ≤ fields.length then
      { st with cpuMetrics :=
          { st.cpuMetrics with PackageW := milliwattsToWatts (fields.getD 7 []) } }
    else st
  else st

/-- One round of the first per-core loop of the workaround branch (core index `i`); the pattern
is matched against the whole sampling unit. -/
def coreResidencyStep (powermetricsOutput : List Char) (st : Locals) (i : Nat) : Locals :=
  let m := FindStringSubmatch (coreResidencyRe i) powermetricsOutput
  if 1 < m.length then
    let activeResidency := (ParseFloat (m.getD 1 [])).1
    if i ≤ 3 then
      { st with eClusterActiveSum := F64.add st.eClusterActiveSum activeResidency
                eClusterCount := addInt st.eClusterCount 1 }
    else
      { st with pClusterActiveSum := F64.add st.pClusterActiveSum activeResidency
                pClusterCount := addInt st.pClusterCount 1 }
  else st

/-- One round of the second per-core loop of the workaround branch (core index `i`). -/
def coreFrequencyStep (powermetricsOutput : List Char) (st : Locals) (i : Nat) : Locals :=
  let m := FindStringSubmatch (coreFrequencyRe i) powermetricsOutput
  if 1 < m.length then
    let activeFreq := (ParseFloat (m.getD 1 [])).1
    if i ≤ 3 then
      { st with eClusterFreqSum := F64.add st.eClusterFreqSum activeFreq
                eClusterCount := addInt st.eClusterCount 1 }
    else
      { st with pClusterFreqSum := F64.add st.pClusterFreqSum activeFreq
                pClusterCount := addInt st.pClusterCount 1 }
  else st

/-- The four guarded assignments of the workaround branch (source lines 198-209). -/
def acceptMeans (st : Locals) : Locals :=
  let c0 := st.cpuMetrics
  let c1 := if 0 < st.eClusterCount && F64.gt st.eClusterActiveSum F64.zero
        && F64.lt st.eClusterActiveSum (F64.ofNat 100) && F64.ne st.eClusterActiveSum F64.zero then
      { c0 with EClusterActive :=
          F64.toInt (F64.div st.eClusterActiveSum (F64.ofInt st.eClusterCount)) }
    else c0
  let c2 := if 0 < st.pClusterCount && F64.gt st.pClusterActiveSum F64.zero
        && F64.lt st.pClusterActiveSum (F64.ofNat 100) && F64.ne st.pClusterActiveSum F64.zero then
      { c1 with PClusterActive :=
          F64.toInt (F64.div st.pClusterActiveSum (F64.ofInt st.pClusterCount)) }
    else c1
  let c3 := if 0 < st.eClusterCount && F64.gt st.eClusterFreqSum F64.zero
        && F64.ne st.eClusterFreqSum F64.zero then
      { c2 with EClusterFreqMHz :=
          F64.toInt (F64.div st.eClusterFreqSum (F64.ofInt st.eClusterCount)) }
    else c2
  let c4 := if 0 < st.pClusterCount && F64.gt st.pClusterFreqSum F64.zero
        && F64.ne st.pClusterFreqSum F64.zero then
      { c3 with PClusterFreqMHz :=
          F64.toInt (F64.div st.pClusterFreqSum (F64.ofInt st.pClusterCount)) }
    else c3
  { st with cpuMetrics := c4 }

/-- The body of the loop over the lines in the workaround branch of `parseCPUMetrics`. -/
def workaroundLine (modelName powermetricsOutput : List Char) (st : Locals) (line : List Char) :
    Locals :=
  let maxCores := if modelName = "Apple M2 Max".toList then 11 else 15
  let s1 := (List.range (maxCores + 1)).foldl (coreResidencyStep powermetricsOutput) st
  let s2 := (List.range (maxCores + 1)).foldl (coreFrequencyStep powermetricsOutput) s1
  coresAndPower (acceptMeans s2) line

/-- The `switch cluster` of the residency block: stores the usage in the field of the named
sub-cluster; other cluster names change nothing. -/
def setClusterActive (cluster : List Char) (v : Int) (c : CPUMetrics) : CPUMetrics :=
  if cluster = "E0-Cluster".toList then { c with E0ClusterActive := v }
  else if cluster = "E1-Cluster".toList then { c with E1ClusterActive := v }
  else if cluster = "P0-Cluster".toList then { c with P0ClusterActive := v }
  else if cluster = "P1-Cluster".toList then { c with P1ClusterActive := v }
  else if cluster = "P2-Cluster".toList then { c with P2ClusterActive := v }
  else if cluster = "P3-Cluster".toList then { c with P3ClusterActive := v }
  else c

/-- The `switch cluster` of the frequency block: stores the frequency in the field of the named
sub-cluster; other cluster names change nothing. -/
def setClusterFreq (cluster : List Char) (v : Int) (c : CPUMetrics) : CPUMetrics :=
  if cluster = "E0-Cluster".toList then { c with E0ClusterFreqMHz := v }
  else if cluster = "E1-Cluster".toList then { c with E1ClusterFreqMHz := v }
  else if cluster = "P0-Cluster".toList then { c with P0ClusterFreqMHz := v }
  else if cluster = "P1-Cluster".toList then { c with P1ClusterFreqMHz := v }
  else if cluster = "P2-Cluster".toList then { c with P2ClusterFreqMHz := v }
  else if cluster = "P3-Cluster".toList then { c with P3ClusterFreqMHz := v }
  else c

/-- The `if residencyMatches != nil` block of the standard branch. -/
def residencyStep (st : Locals) (line : List Char) : Locals :=
  let residencyMatches := FindStringSubmatch residencyRe line
  if residencyMatches ≠ [] then
    let cluster := residencyMatches.getD 1 []
    let percent := (ParseFloat (residencyMatches.getD 2 [])).1
    let c1 := setClusterActive cluster (F64.toInt percent) st.cpuMetrics
    if HasPrefix cluster "E".toList then
      { st with cpuMetrics := c1
                eClusterActiveTotal := addInt st.eClusterActiveTotal (F64.toInt percent)
                eClusterCount := addInt st.eClusterCount 1 }
    else if HasPrefix cluster "P".toList then
      let total := addInt st.pClusterActiveTotal (F64.toInt percent)
      let count := addInt st.pClusterCount 1
      { st with cpuMetrics := { c1 with PClusterActive := divInt total count }
                pClusterActiveTotal := total
                pClusterCount := count }
    else { st with cpuMetrics := c1 }
  else st

/-- The `if frequencyMatches != nil` block of the standard branch. -/
def frequencyStep (st : Locals) (line : List Char) : Locals :=
  let frequencyMatches := FindStringSubmatch frequencyRe line
  if frequencyMatches ≠ [] then
    let cluster := frequencyMatches.getD 1 []
    let freqMHz := (Atoi (frequencyMatches.getD 2 [])).1
    let c1 := setClusterFreq cluster freqMHz st.cpuMetrics
    if HasPrefix cluster "E".toList then
      { st with cpuMetrics :=
                  { c1 with EClusterFreqMHz := addInt st.eClusterFreqTotal freqMHz }
                eClusterFreqTotal := addInt st.eClusterFreqTotal freqMHz }
    else if HasPrefix cluster "P".toList then
      { st with cpuMetrics :=
                  { c1 with PClusterFreqMHz := addInt st.pClusterFreqTotal freqMHz }
                pClusterFreqTotal := addInt st.pClusterFreqTotal freqMHz }
    else { st with cpuMetrics := c1 }
  else st

/-- The body of the loop over the lines in the standard branch of `parseCPUMetrics`. Both
patterns are matched on the line before either block runs; the blocks do not change the line. -/
def standardLine (st : Locals) (line : List Char) : Locals :=
  coresAndPower (frequencyStep (residencyStep st line) line) line

/-- The statements after the loop of the standard branch (source lines 344-365). -/
def aggregate (st : Locals) : CPUMetrics :=
  let c0 := { st.cpuMetrics with ECores := st.eCores, PCores := st.pCores }
  let c1 := if c0.E1ClusterActive ≠ 0 then
      { c0 with EClusterActive := divInt (addInt c0.E0ClusterActive c0.E1ClusterActive) 2
                EClusterFreqMHz := max c0.E0ClusterFreqMHz c0.E1ClusterFreqMHz }
    else c0
  let c2 := if c1.P3ClusterActive ≠ 0 then
      let sum := addInt (addInt (addInt c1.P0ClusterActive c1.P1ClusterActive)
        c1.P2ClusterActive) c1.P3ClusterActive
      let top := max (max (max c1.P0ClusterFreqMHz c1.P1ClusterFreqMHz) c1.P2ClusterFreqMHz)
        c1.P3ClusterFreqMHz
      { c1 with PClusterActive := divInt sum 4, PClusterFreqMHz := top }
    else if c1.P1ClusterActive ≠ 0 then
      { c1 with PClusterActive := divInt (addInt c1.P0ClusterActive c1.P1ClusterActive) 2
                PClusterFreqMHz := max c1.P0ClusterFreqMHz c1.P1ClusterFreqMHz }
    else { c1 with PClusterActive := addInt c1.PClusterActive c1.P0ClusterActive }
  if 0 < st.eClusterCount then
    { c2 with EClusterActive := divInt st.eClusterActiveTotal st.eClusterCount }
  else c2

/-- Go `parseCPUMetrics`. -/
def parseCPUMetrics (powermetricsOutput : List Char) (cpuMetrics : CPUMetrics)
    (modelName : List Char) : CPUMetrics :=
  let lines := SplitLines powermetricsOutput
  if modelName = "Apple M3 Max".toList ∨ modelName = "Apple M2 Max".toList then
    let st := lines.foldl (workaroundLine modelName powermetricsOutput) (Locals.init cpuMetrics)
    { st.cpuMetrics with ECores := st.eCores, PCores := st.pCores }
  else
    aggregate (lines.foldl standardLine (Locals.init cpuMetrics))

/-! ## `event_throttler/event_throttler.go`

The throttler as a state machine with atomic steps: a call of `Notify`, the expiry of an armed
timer (the function given to `time.AfterFunc`), and the consumer receiving from `C`. The length
of the grace period only decides when the expiry step happens and is not part of the state. -/

/-- Go `EventThrottler`: whether `timer` is non-nil, how many one-shot timers are armed and have
not fired yet, and how many signals are buffered in the channel `C` (capacity 1). -/
structure EventThrottler where
  timer : Bool
  armed : Nat
  C : Nat
  deriving DecidableEq

/-- Go `NewEventThrottler`. -/
def NewEventThrottler : EventThrottler := ⟨false, 0, 0⟩

/-- Go `EventThrottler.Notify`. -/
def EventThrottler.Notify (e : EventThrottler) : EventThrottler :=
  if e.timer then e else { e with timer := true, armed := e.armed + 1 }

/-- The function armed by `Notify`, run when a timer fires: clears `timer` and sends on `C`
unless the buffer is full, in which case the `default` case of the `select` drops the signal. -/
def EventThrottler.expire (e : EventThrottler) : EventThrottler :=
  { timer := false, armed := e.armed - 1, C := if e.C < 1 then e.C + 1 else e.C }

/-- The consumer receives one signal from `C`. -/
def EventThrottler.consume (e : EventThrottler) : EventThrottler :=
  { e with C := e.C - 1 }

/-- The quad-performance sampling unit of the specification: P0..P3 at 20, 30, 40 and 50
percent, at 1000, 3000, 2000 and 1500 MHz. -/
def quadUnit : List Char :=
  ("P0-Cluster HW active residency:  20.00%\nP1-Cluster HW active residency:  30.00%\n"
    ++ "P2-Cluster HW active residency:  40.00%\nP3-Cluster HW active residency:  50.00%\n"
    ++ "P0-Cluster HW active frequency: 1000 MHz\nP1-Cluster HW active frequency: 3000 MHz\n"
    ++ "P2-Cluster HW active frequency: 2000 MHz\nP3-Cluster HW active frequency: 1500 MHz").toList

/-! ## Views used to state the theorems -/

/-- The values the usage rules of `parseCPUMetrics` read and write: the two summary usages, the
six sub-cluster usages, and the residency counters and totals of the standard branch. -/
structure UsageView where
  E : Int
  P : Int
  E0 : Int
  E1 : Int
  P0 : Int
  P1 : Int
  P2 : Int
  P3 : Int
  eCount : Int
  pCount : Int
  eTotal : Int
  pTotal : Int

/-- The usage view of the local variables. -/
def Locals.usage (st : Locals) : UsageView :=
  ⟨st.cpuMetrics.EClusterActive, st.cpuMetrics.PClusterActive, st.cpuMetrics.E0ClusterActive,
    st.cpuMetrics.E1ClusterActive, st.cpuMetrics.P0ClusterActive, st.cpuMetrics.P1ClusterActive,
    st.cpuMetrics.P2ClusterActive, st.cpuMetrics.P3ClusterActive, st.eClusterCount,
    st.pClusterCount, st.eClusterActiveTotal, st.pClusterActiveTotal⟩

/-- The residency a line contributes to the clusters whose name starts with `pre`: the
percentage of the line as `residencyStep` converts it, when `residencyRe` matches the line and
the cluster name has that prefix. -/
def lineResidency (pre : List Char) (line : List Char) : Option Int :=
  if FindStringSubmatch residencyRe line ≠ []
      ∧ HasPrefix ((FindStringSubmatch residencyRe line).getD 1 []) pre = true then
    some (F64.toInt (ParseFloat ((FindStringSubmatch residencyRe line).getD 2 [])).1)
  else none

/-- The residencies of the lines of a sampling unit for the clusters whose name starts with
`pre`, in the order of the lines. -/
def clusterResidencies (pre : List Char) (unit : List Char) : List Int :=
  (SplitLines unit).filterMap (lineResidency pre)

/-- A sampling unit with the single line of sub-cluster E1 at 50 percent. -/
def e1Unit : List Char := "E1-Cluster HW active residency:  50.00%".toList

/-- A previous snapshot in which only sub-cluster E0 has a usage, 10 percent. -/
def e0Prev : CPUMetrics := { CPUMetrics.zero with E0ClusterActive := 10 }

/-- The invariant of the standard loop behind the range of the usages, after at most `n` lines:
every usage lies in [0,100], and each residency total is at most 100 times its counter. -/
def UsageInv (n : Int) (u : UsageView) : Prop :=
  (0 ≤ u.E ∧ u.E ≤ 100) ∧ (0 ≤ u.P ∧ u.P ≤ 100)
    ∧ (0 ≤ u.E0 ∧ u.E0 ≤ 100) ∧ (0 ≤ u.E1 ∧ u.E1 ≤ 100)
    ∧ (0 ≤ u.P0 ∧ u.P0 ≤ 100) ∧ (0 ≤ u.P1 ∧ u.P1 ≤ 100)
    ∧ (0 ≤ u.P2 ∧ u.P2 ≤ 100) ∧ (0 ≤ u.P3 ∧ u.P3 ≤ 100)
    ∧ (0 ≤ u.eCount ∧ u.eCount ≤ n) ∧ (0 ≤ u.eTotal ∧ u.eTotal ≤ 100 * u.eCount)
    ∧ (0 ≤ u.pCount ∧ u.pCount ≤ n) ∧ (0 ≤ u.pTotal ∧ u.pTotal ≤ 100 * u.pCount)

/-- The residency percentage of a line, when `residencyRe` matches it, lies in [0,100]. -/
def residencyInRange (line : List Char) : Prop :=
  FindStringSubmatch residencyRe line ≠ [] →
    F64.ge (ParseFloat ((FindStringSubmatch residencyRe line).getD 2 [])).1 F64.zero = true
      ∧ F64.ge (F64.ofNat 100)
          (ParseFloat ((FindStringSubmatch residencyRe line).getD 2 [])).1 = true

instance (line : List Char) : Decidable (residencyInRange line) := by
  unfold residencyInRange
  infer_instance

/-- The eight usage fields of a snapshot lie in [0,100]. -/
def usagesInRange (c : CPUMetrics) : Prop :=
  (0 ≤ c.EClusterActive ∧ c.EClusterActive ≤ 100)
    ∧ (0 ≤ c.PClusterActive ∧ c.PClusterActive ≤ 100)
    ∧ (0 ≤ c.E0ClusterActive ∧ c.E0ClusterActive ≤ 100)
    ∧ (0 ≤ c.E1ClusterActive ∧ c.E1ClusterActive ≤ 100)
    ∧ (0 ≤ c.P0ClusterActive ∧ c.P0ClusterActive ≤ 100)
    ∧ (0 ≤ c.P1ClusterActive ∧ c.P1ClusterActive ≤ 100)
    ∧ (0 ≤ c.P2ClusterActive ∧ c.P2ClusterActive ≤ 100)
    ∧ (0 ≤ c.P3ClusterActive ∧ c.P3ClusterActive ≤ 100)

instance (c : CPUMetrics) : Decidable (usagesInRange c) := by
  unfold usagesInRange
  infer_instance

/-- A sampling unit with the single line of sub-cluster P0 at 60 percent. -/
def p0Unit : List Char := "P0-Cluster HW active residency:  60.00%".toList

/-- A sampling unit with one process line: name, process id, CPU ms/s and a further column. -/
def safariUnit : List Char := "Safari   123   4.5   6.7  ".toList

/-- A sampling unit with three process lines, in ascending order of CPU time. -/
def threeProcUnit : List Char :=
  "Safari   123   4.5   6.7  \nfoo 7 50.5 1.0 \nbar 9 77.0 1.0 ".toList

/-- The binary64 value nearest to the decimal number written with the integer digits `ip` and
the fraction digits `fp`. -/
def F64.ofDecimal (ip fp : List Char) : F64 :=
  floatValue false false (digitsVal 0 (ip ++ fp)) fp.length 0

/-- A power record of the sampling text: the label, a space, the reading and ` mW`. -/
def powerLine (label reading : List Char) : List Char :=
  label ++ ' ' :: (reading ++ " mW".toList)

/-- A character that can stand in a reading without ending the field or making the line look
like another record: no space character, and none of `-`, `%`, `q`, `A`, `C`, `G`. -/
def readingChar (c : Char) : Bool :=
  !isSpace c && c != '-' && c != '%' && c != 'q' && c != 'A' && c != 'C' && c != 'G'

/-- A previous network and disk snapshot with 7 outbound packets per second. -/
def busyNet : NetDiskMetrics :=
  { NetDiskMetrics.zero with OutPacketsPerSec := F64.fin false (7 * F64.one) }

/-- A previous CPU snapshot with a CPU power of 1 watt. -/
def busyCPU : CPUMetrics := { CPUMetrics.zero with CPUW := F64.fin false F64.one }

/-- The atomic steps of the throttler: a call of `Notify`, the expiry of an armed timer, and
the consumer receiving from `C`. -/
inductive ThrottlerStep where
  | notify
  | timerExpiry
  | receive
  deriving DecidableEq

/-- One step of the throttler. A timer fires only when one is armed and the consumer receives
only when `C` holds a signal: a step that is not enabled does not happen. -/
def EventThrottler.step (e : EventThrottler) : ThrottlerStep → EventThrottler
  | .notify => e.Notify
  | .timerExpiry => if 0 < e.armed then e.expire else e
  | .receive => if 0 < e.C then e.consume else e

/-- The state reached from `NewEventThrottler` by a sequence of steps. -/
def EventThrottler.run (steps : List ThrottlerStep) : EventThrottler :=
  steps.foldl EventThrottler.step NewEventThrottler

namespace regexp

/-- Whether the character `ch` can occur in a text the pattern matches: it is in a literal part
or in a class of the pattern. -/
def Re.mayHold (ch : Char) : Re → Bool
  | .lit w => decide (ch ∈ w)
  | .cls c => c.test ch
  | .seq a b => a.mayHold ch || b.mayHold ch
  | .alt a b => a.mayHold ch || b.mayHold ch
  | .star c => c.test ch
  | .lazyStar c => c.test ch
  | .opt r => r.mayHold ch
  | .group _ r => r.mayHold ch
  | .bol _ => false
  | .eol _ => false

/-- Whether the pattern ends with `$` without the multi-line flag. -/
def Re.endsAtEnd : Re → Bool
  | .seq _ b => b.endsAtEnd
  | .group _ r => r.endsAtEnd
  | .eol multi => !multi
  | _ => false

/-- Whether the pattern starts with `^` without the multi-line flag. -/
def Re.startsAtStart : Re → Bool
  | .seq a _ => a.startsAtStart
  | .group _ r => r.startsAtStart
  | .bol multi => !multi
  | _ => false

end regexp

/-- The core indices the workaround branch scans: 0..11 for the M2 Max, 0..15 otherwise. -/
def workaroundCores (modelName : List Char) : List Nat :=
  List.range ((if modelName = "Apple M2 Max".toList then 11 else 15) + 1)

/-- The residency the pattern of core `i` finds in the sampling unit, as the first per-core loop
converts it. -/
def coreResidency (unit : List Char) (i : Nat) : Option F64 :=
  if 1 < (FindStringSubmatch (coreResidencyRe i) unit).length then
    some (ParseFloat ((FindStringSubmatch (coreResidencyRe i) unit).getD 1 [])).1
  else none

/-- The residencies of the efficiency cores (indices 0..3) matched in the sampling unit, in the
order of the indices. -/
def efficiencyResidencies (modelName unit : List Char) : List F64 :=
  ((workaroundCores modelName).filter (fun i => decide (i ≤ 3))).filterMap (coreResidency unit)

/-- The residencies of the performance cores (indices above 3) matched in the sampling unit, in
the order of the indices. -/
def performanceResidencies (modelName unit : List Char) : List F64 :=
  ((workaroundCores modelName).filter (fun i => !decide (i ≤ 3))).filterMap (coreResidency unit)

/-- The running values of one cluster in the workaround branch: the sum of the residencies added
so far, their count, and the summary usage. -/
structure Running where
  sum : F64
  count : Int
  usage : Int
  deriving DecidableEq

/-- What one line of the sampling unit does to the running values of a cluster when `rs` are
the matched residencies of its cores: every residency is added to the sum and counted again, and
the usage becomes the truncated quotient `sum / count` when the sum is strictly between 0 and
100 (source lines 198-203); otherwise the usage stays. -/
def Running.line (rs : List F64) (r : Running) : Running :=
  let sum := rs.foldl F64.add r.sum
  let count := rs.foldl (fun c _ => addInt c 1) r.count
  { sum := sum
    count := count
    usage := if 0 < count && F64.gt sum F64.zero && F64.lt sum (F64.ofNat 100)
        && F64.ne sum F64.zero then F64.toInt (F64.div sum (F64.ofInt count)) else r.usage }

/-- The running values of the efficiency cluster among the local variables. -/
def Locals.runningE (st : Locals) : Running :=
  ⟨st.eClusterActiveSum, st.eClusterCount, st.cpuMetrics.EClusterActive⟩

/-- The running values of the performance cluster among the local variables. -/
def Locals.runningP (st : Locals) : Running :=
  ⟨st.pClusterActiveSum, st.pClusterCount, st.cpuMetrics.PClusterActive⟩

/-- The usage the workaround branch accepts on a single-line unit when `rs` are the matched
residencies of a cluster: the truncated mean of `rs` when their sum is strictly between 0 and
100, and the previous usage `old` otherwise. -/
def acceptedUsage (rs : List F64) (old : Int) : Int :=
  if F64.gt (rs.foldl F64.add F64.zero) F64.zero = true
      ∧ F64.lt (rs.foldl F64.add F64.zero) (F64.ofNat 100) = true then
    F64.toInt (F64.div (rs.foldl F64.add F64.zero) (F64.ofInt (rs.length : Int)))
  else old

/-- A previous snapshot whose summary efficiency usage is 7 percent. -/
def sevenPrev : CPUMetrics := { CPUMetrics.zero with EClusterActive := 7 }

/-- The sampling unit with the per-core lines of cores 0..3, each at 30 percent. -/
def fourCoresUnit : List Char :=
  ("CPU 0 active residency:  30.00%\nCPU 1 active residency:  30.00%\n"
    ++ "CPU 2 active residency:  30.00%\nCPU 3 active residency:  30.00%").toList

namespace regexp

/-- The loop of Go `allMatches`: successive leftmost matches, each search starting where the
previous match ended. `atPrevEnd` tells that the search starts at the end of the previous match:
an empty match found right there is skipped, and after an empty match at the start of the search
the search moves one character on. The first argument bounds the number of rounds. -/
def findAllAux (re : Re) : Nat → Option Char → List Char → Bool → List (List (List Char))
  | 0, _, _, _ => []
  | fuel + 1, prev, s, atPrevEnd =>
      match searchFrom re prev s with
      | none => []
      | some (whole, st) =>
          let m := whole :: (List.range re.numGroups).map
            (fun i => (st.caps.lookup (i + 1)).getD [])
          if st.rest.length = s.length then
            match s with
            | [] => if atPrevEnd then [] else [m]
            | x :: xs => (if atPrevEnd then [] else [m]) ++ findAllAux re fuel (some x) xs false
          else m :: findAllAux re fuel st.prev st.rest true

/-- Go `re.FindAllStringSubmatch(s, -1)`. Every round but the last moves at least one character
on, so `s.length + 2` rounds are never used up. -/
def FindAllStringSubmatch (re : Re) (s : List Char) : List (List (List Char)) :=
  findAllAux re (s.length + 2) none s false

end regexp

/-- Go `GPUMetrics`. -/
structure GPUMetrics where
  FreqMHz : Int
  Active : F64
  deriving DecidableEq

/-- The zero value of `GPUMetrics`. -/
def GPUMetrics.zero : GPUMetrics := ⟨0, F64.zero⟩

/-- Go `re`: `GPU\s*(HW)?\s*active\s*(residency|frequency):\s+(\d+\.\d+)%?`. -/
def re : Re :=
  Re.cat [Re.lit "GPU".toList, Re.star .space, Re.opt (Re.group 1 (Re.lit "HW".toList)),
    Re.star .space, Re.lit "active".toList, Re.star .space,
    Re.group 2 (Re.alt (Re.lit "residency".toList) (Re.lit "frequency".toList)),
    Re.lit ":".toList, Re.plus .space, Re.group 3 decimalRe, Re.opt (Re.lit "%".toList)]

/-- Go `freqRe`: `(\d+)\s*MHz:\s*(\d+)%`. -/
def freqRe : Re :=
  Re.cat [Re.group 1 (Re.plus .digit), Re.star .space, Re.lit "MHz:".toList, Re.star .space,
    Re.group 2 (Re.plus .digit), Re.lit "%".toList]

/-- The first block of the loop body of `parseGPUMetrics` (source lines 376-383): the match of
`re` on the line sets `Active` on a residency line and `FreqMHz` on a frequency line. -/
def activeBlock (gpuMetrics : GPUMetrics) (line : List Char) : GPUMetrics :=
  let m := FindStringSubmatch re line
  if 3 < m.length then
    if Contains (m.getD 2 []) "residency".toList then
      { gpuMetrics with Active := (ParseFloat (m.getD 3 [])).1 }
    else if Contains (m.getD 2 []) "frequency".toList then
      { gpuMetrics with FreqMHz := (Atoi (TrimSuffix (m.getD 3 []) "MHz".toList)).1 }
    else gpuMetrics
  else gpuMetrics

/-- The loop over the histogram entries (source lines 386-395): the first entry whose residency
is above 0 sets `FreqMHz` and ends the loop. -/
def histogramLoop : List (List (List Char)) → GPUMetrics → GPUMetrics
  | [], gpuMetrics => gpuMetrics
  | m :: ms, gpuMetrics =>
      if m.length = 3 then
        let freq := (Atoi (m.getD 1 [])).1
        let residency := (ParseFloat (m.getD 2 [])).1
        if F64.gt residency F64.zero then { gpuMetrics with FreqMHz := freq }
        else histogramLoop ms gpuMetrics
      else histogramLoop ms gpuMetrics

/-- The body of the loop over the lines in `parseGPUMetrics`. -/
def gpuLine (gpuMetrics : GPUMetrics) (line : List Char) : GPUMetrics :=
  if Contains line "GPU active".toList || Contains line "GPU HW active".toList then
    histogramLoop (FindAllStringSubmatch freqRe line) (activeBlock gpuMetrics line)
  else gpuMetrics

/-- Go `parseGPUMetrics`. -/
def parseGPUMetrics (powermetricsOutput : List Char) (gpuMetrics : GPUMetrics) : GPUMetrics :=
  (SplitLines powermetricsOutput).foldl gpuLine gpuMetrics

/-- An entry of the frequency histogram of a GPU line, `<freq> MHz: <percent>%`, and the text
that follows it up to the next entry or to the end of the line. The percent is written either
as an integer (`frac` is none) or with a decimal point followed by the digits `frac`. -/
structure HistEntry where
  freq : Nat
  percent : Nat
  frac : Option (List Char)
  gap : List Char

/-- The text of the percent of a histogram entry after its integer digits. -/
def HistEntry.fracText (e : HistEntry) : List Char :=
  match e.frac with
  | some fp => '.' :: fp
  | none => []

/-- The text of a histogram entry. -/
def HistEntry.text (e : HistEntry) : List Char :=
  (Nat.repr e.freq).toList ++ " MHz: ".toList ++ (Nat.repr e.percent).toList ++ e.fracText
    ++ "%".toList

/-- The text of a histogram: every entry followed by its gap. -/
def histText : List HistEntry → List Char
  | [] => []
  | e :: es => e.text ++ e.gap ++ histText es

/-- No match of `freqRe` starts inside `g` when `g` is followed by `r`. -/
def noEntryBefore (g r : List Char) : Prop :=
  ∀ a b : List Char, g = a ++ b → b ≠ [] → ∀ p : Option Char,
    regexp.mt freqRe ⟨p, b ++ r, []⟩ some = none

/-- A text in which no histogram entry can start, whatever follows it: at each position either
the text does not start with a digit, or it has no `M` up to its end and ends with a character
that is neither a digit nor a space of the pattern. -/
def entryFree (g : List Char) : Prop :=
  ∀ a b : List Char, g = a ++ b → b ≠ [] →
    (∀ c ∈ b.head?, isDigit c = false)
      ∨ ('M' ∉ b ∧ ∀ c ∈ b.getLast?, isDigit c = false ∧ Cls.test .space c = false)

/-- A previous GPU snapshot with the frequency 7 MHz. -/
def sevenMHz : GPUMetrics := ⟨7, F64.zero⟩

/-- A sampling unit in which the process id 123 first appears on a line of the tool itself and
then on a line of another process. -/
def selfUnit : List Char := "mactop 123 5.0 1.0 \nfoo 123 2.5 1.0 ".toList

/-- None of the patterns the standard branch of `parseCPUMetrics` looks for occurs in the line:
neither cluster pattern matches and none of the markers of the core and power records is
there. -/
def noCPUPattern (line : List Char) : Prop :=
  FindStringSubmatch residencyRe line = [] ∧ FindStringSubmatch frequencyRe line = []
    ∧ (Contains line "CPU ".toList && Contains line "frequency".toList) = false
    ∧ Contains line "ANE Power".toList = false ∧ Contains line "CPU Power".toList = false
    ∧ Contains line "GPU Power".toList = false
    ∧ Contains line "Combined Power (CPU + GPU + ANE)".toList = false

instance (line : List Char) : Decidable (noCPUPattern line) := by
  unfold noCPUPattern
  infer_instance

/-- A previous snapshot of a chip with one performance cluster: P0 and the summary performance
usage at 60 percent, and the efficiency core 0 in the list of efficiency cores. -/
def singlePPrev : CPUMetrics :=
  { CPUMetrics.zero with PClusterActive := 60, P0ClusterActive := 60, ECores := [0] }

/-- The snapshot the standard branch returns when no line of the unit shows a CPU pattern: the
sub-cluster and power fields of the previous snapshot, empty core lists, and the summary fields
the aggregation rules (source lines 344-365) compute from the previous values. -/
def afterMiss (prev : CPUMetrics) : CPUMetrics :=
  { prev with
          ECores := []
          PCores := []
          EClusterActive :=
            if prev.E1ClusterActive ≠ 0 then
              divInt (addInt prev.E0ClusterActive prev.E1ClusterActive) 2
            else prev.EClusterActive
          EClusterFreqMHz :=
            if prev.E1ClusterActive ≠ 0 then max prev.E0ClusterFreqMHz prev.E1ClusterFreqMHz
            else prev.EClusterFreqMHz
          PClusterActive :=
            if prev.P3ClusterActive ≠ 0 then
              divInt (addInt (addInt (addInt prev.P0ClusterActive prev.P1ClusterActive)
                prev.P2ClusterActive) prev.P3ClusterActive) 4
            else if prev.P1ClusterActive ≠ 0 then
              divInt (addInt prev.P0ClusterActive prev.P1ClusterActive) 2
            else addInt prev.PClusterActive prev.P0ClusterActive
          PClusterFreqMHz :=
            if prev.P3ClusterActive ≠ 0 then
              max (max (max prev.P0ClusterFreqMHz prev.P1ClusterFreqMHz) prev.P2ClusterFreqMHz)
                prev.P3ClusterFreqMHz
            else if prev.P1ClusterActive ≠ 0 then
              max prev.P0ClusterFreqMHz prev.P1ClusterFreqMHz
            else prev.PClusterFreqMHz }

/-- The records `parseProcessMetrics` extracts from a sampling unit, in the order of the lines:
what the loop appends, started from the empty list. -/
def newRecords (unit : List Char) : List ProcessMetrics :=
  ((SplitLines unit).foldl processLine ([], [])).1

/-- A previous process list with the single record of Safari. -/
def safariList : List ProcessMetrics :=
  [⟨123, "Safari".toList, F64.ofDecimal "4".toList "5".toList⟩]

/-- The four power records of the sampling text. -/
inductive PowerField where
  | ane
  | cpu
  | gpu
  | combined

/-- The text by which the chain of `parseCPUMetrics` recognises the record. -/
def PowerField.marker : PowerField → List Char
  | .ane => "ANE Power".toList
  | .cpu => "CPU Power".toList
  | .gpu => "GPU Power".toList
  | .combined => "Combined Power (CPU + GPU + ANE)".toList

/-- The label of the record in the sampling text: the marker and a colon. -/
def PowerField.label (f : PowerField) : List Char := f.marker ++ [':']

/-- The field of the snapshot the record sets. -/
def PowerField.get : PowerField → CPUMetrics → F64
  | .ane, c => c.ANEW
  | .cpu, c => c.CPUW
  | .gpu, c => c.GPUW
  | .combined, c => c.PackageW

/-! # Theorems -/

/-! ## The update throttler -/

theorem notify_of_timer (e : EventThrottler) (h : e.timer = true) : e.Notify = e := by
  simp [EventThrottler.Notify, h]

theorem notify_iterate_succ (n : Nat) :
    EventThrottler.Notify^[n + 1] NewEventThrottler = ⟨true, 1, 0⟩ := by
  induction n with
  | zero => rfl
  | succ k ih =>
      rw [Function.iterate_succ_apply', ih]
      rfl

/-- C10: from the idle state of `NewEventThrottler`, `n ≥ 1` calls of `Notify` with no expiry
in between leave exactly one timer armed and nothing in `C`; one more `Notify` changes nothing;
and the expiry of that timer puts exactly one signal in `C`, with no timer left to fire. -/
theorem throttler_burst_collapse (n : Nat) (h : 1 ≤ n) :
    EventThrottler.Notify^[n] NewEventThrottler = ⟨true, 1, 0⟩
      ∧ (EventThrottler.Notify^[n] NewEventThrottler).Notify
          = EventThrottler.Notify^[n] NewEventThrottler
      ∧ (EventThrottler.Notify^[n] NewEventThrottler).expire = ⟨false, 0, 1⟩ := by
  obtain ⟨k, rfl⟩ : ∃ k, n = k + 1 := ⟨n - 1, by omega⟩
  rw [notify_iterate_succ]
  exact ⟨rfl, rfl, rfl⟩

/-- Five calls of `Notify` in one grace period: one timer, one signal after its expiry. -/
theorem throttler_burst_collapse_witness :
    1 ≤ 5 ∧ EventThrottler.Notify^[5] NewEventThrottler = ⟨true, 1, 0⟩
      ∧ (EventThrottler.Notify^[5] NewEventThrottler).Notify
          = EventThrottler.Notify^[5] NewEventThrottler
      ∧ (EventThrottler.Notify^[5] NewEventThrottler).expire = ⟨false, 0, 1⟩ :=
  ⟨by decide, throttler_burst_collapse 5 (by decide)⟩

namespace regexp

theorem starGreedy_sound (c : Cls) (caps : List (Nat × List Char)) (k : MState → Option MState) :
    ∀ (rest : List Char) (prev : Option Char) (R : MState),
      starGreedy c caps k prev rest = some R →
      ∃ w rest1 prev1, rest = w ++ rest1 ∧ (∀ x ∈ w, c.test x = true)
        ∧ k ⟨prev1, rest1, caps⟩ = some R := by
  intro rest
  induction rest with
  | nil =>
      intro prev R h
      exact ⟨[], [], prev, rfl, by simp, by simpa [starGreedy] using h⟩
  | cons x xs ih =>
      intro prev R h
      rw [starGreedy] at h
      by_cases hx : c.test x = true
      · rw [if_pos hx] at h
        cases hi : starGreedy c caps k (some x) xs with
        | some r =>
            rw [hi] at h
            obtain ⟨w, r1, p1, e, hw, hk⟩ := ih _ _ hi
            simp only [Option.some.injEq] at h
            subst h
            refine ⟨x :: w, r1, p1, by simp [e], ?_, hk⟩
            intro y hy
            rcases List.mem_cons.mp hy with rfl | hy
            · exact hx
            · exact hw y hy
        | none =>
            rw [hi] at h
            exact ⟨[], x :: xs, prev, rfl, by simp, h⟩
      · rw [if_neg hx] at h
        exact ⟨[], x :: xs, prev, rfl, by simp, h⟩

theorem starLazy_sound (c : Cls) (caps : List (Nat × List Char)) (k : MState → Option MState) :
    ∀ (rest : List Char) (prev : Option Char) (R : MState),
      starLazy c caps k prev rest = some R →
      ∃ w rest1 prev1, rest = w ++ rest1 ∧ (∀ x ∈ w, c.test x = true)
        ∧ k ⟨prev1, rest1, caps⟩ = some R := by
  intro rest
  induction rest with
  | nil =>
      intro prev R h
      exact ⟨[], [], prev, rfl, by simp, by simpa [starLazy] using h⟩
  | cons x xs ih =>
      intro prev R h
      rw [starLazy] at h
      cases hk : k ⟨prev, x :: xs, caps⟩ with
      | some r =>
          rw [hk] at h
          simp only [Option.some.injEq] at h
          subst h
          exact ⟨[], x :: xs, prev, rfl, by simp, hk⟩
      | none =>
          rw [hk] at h
          by_cases hx : c.test x = true
          · simp only [hx, if_true] at h
            obtain ⟨w, r1, p1, e, hw, hk1⟩ := ih _ _ h
            refine ⟨x :: w, r1, p1, by simp [e], ?_, hk1⟩
            intro y hy
            rcases List.mem_cons.mp hy with rfl | hy
            · exact hx
            · exact hw y hy
          · simp [hx] at h

theorem take_length_sub_append (w r : List Char) :
    (w ++ r).take ((w ++ r).length - r.length) = w := by
  simp

/-- Soundness of the matcher: a successful match reads a text of the pattern's language, hands
the position after it to the continuation, and adds only captures of the pattern's groups. -/
theorem mt_sound (re : Re) : ∀ (s : MState) (k : MState → Option MState) (R : MState),
    mt re s k = some R →
    ∃ s1, k s1 = some R ∧ ∃ w, s.rest = w ++ s1.rest ∧ re.Lang w
      ∧ ∃ nc, s1.caps = nc ++ s.caps ∧ ∀ p ∈ nc, re.GroupLang p.1 p.2 := by
  induction re with
  | lit w =>
      intro s k R h
      simp only [mt] at h
      by_cases hp : w.isPrefixOf s.rest = true
      · rw [if_pos hp] at h
        have hpre : w ++ s.rest.drop w.length = s.rest :=
          List.prefix_iff_eq_append.mp (List.isPrefixOf_iff_prefix.mp hp)
        exact ⟨_, h, w, hpre.symm, rfl, [], rfl, by simp⟩
      · rw [if_neg hp] at h
        cases h
  | cls c =>
      intro s k R h
      simp only [mt] at h
      cases hr : s.rest with
      | nil => rw [hr] at h; cases h
      | cons x xs =>
          rw [hr] at h
          by_cases hx : c.test x = true
          · simp only [hx, if_true] at h
            exact ⟨_, h, [x], rfl, ⟨x, rfl, hx⟩, [], rfl, by simp⟩
          · simp [hx] at h
  | seq a b iha ihb =>
      intro s k R h
      simp only [mt] at h
      obtain ⟨s1, h1, wa, ea, la, nca, ca, ga⟩ := iha _ _ _ h
      obtain ⟨s2, h2, wb, eb, lb, ncb, cb, gb⟩ := ihb _ _ _ h1
      refine ⟨s2, h2, wa ++ wb, by rw [ea, eb, List.append_assoc], ⟨wa, wb, rfl, la, lb⟩,
        ncb ++ nca, by rw [cb, ca, List.append_assoc], ?_⟩
      intro p hp
      rcases List.mem_append.mp hp with hp | hp
      · exact Or.inr (gb p hp)
      · exact Or.inl (ga p hp)
  | alt a b iha ihb =>
      intro s k R h
      simp only [mt] at h
      cases ha : mt a s k with
      | some r =>
          rw [ha] at h
          simp only [Option.some.injEq] at h
          subst h
          obtain ⟨s1, h1, w, e, l, nc, c, g⟩ := iha _ _ _ ha
          exact ⟨s1, h1, w, e, Or.inl l, nc, c, fun p hp => Or.inl (g p hp)⟩
      | none =>
          rw [ha] at h
          obtain ⟨s1, h1, w, e, l, nc, c, g⟩ := ihb _ _ _ h
          exact ⟨s1, h1, w, e, Or.inr l, nc, c, fun p hp => Or.inr (g p hp)⟩
  | star c =>
      intro s k R h
      simp only [mt] at h
      obtain ⟨w, r1, p1, e, hw, hk⟩ := starGreedy_sound c s.caps k _ _ _ h
      exact ⟨_, hk, w, e, hw, [], rfl, by simp⟩
  | lazyStar c =>
      intro s k R h
      simp only [mt] at h
      obtain ⟨w, r1, p1, e, hw, hk⟩ := starLazy_sound c s.caps k _ _ _ h
      exact ⟨_, hk, w, e, hw, [], rfl, by simp⟩
  | opt r ih =>
      intro s k R h
      simp only [mt] at h
      cases hr : mt r s k with
      | some x =>
          rw [hr] at h
          simp only [Option.some.injEq] at h
          subst h
          obtain ⟨s1, h1, w, e, l, nc, c, g⟩ := ih _ _ _ hr
          exact ⟨s1, h1, w, e, Or.inr l, nc, c, g⟩
      | none =>
          rw [hr] at h
          exact ⟨s, h, [], rfl, Or.inl rfl, [], rfl, by simp⟩
  | group i r ih =>
      intro s k R h
      simp only [mt] at h
      obtain ⟨s1, h1, w, e, l, nc, c, g⟩ := ih _ _ _ h
      refine ⟨_, h1, w, e, l, (i, w) :: nc, ?_, ?_⟩
      · simp only [c, e, take_length_sub_append, List.cons_append]
      · intro p hp
        rcases List.mem_cons.mp hp with rfl | hp
        · exact Or.inl ⟨rfl, l⟩
        · exact Or.inr (g p hp)
  | bol m =>
      intro s k R h
      simp only [mt] at h
      split at h
      · exact ⟨s, h, [], rfl, rfl, [], rfl, by simp⟩
      · cases h
  | eol m =>
      intro s k R h
      simp only [mt] at h
      split at h
      · exact ⟨s, h, [], rfl, rfl, [], rfl, by simp⟩
      · cases h

end regexp

namespace regexp

theorem searchFrom_sound (re : Re) : ∀ (s : List Char) (prev : Option Char) (whole : List Char)
    (st : MState), searchFrom re prev s = some (whole, st) →
    ∃ pre, s = pre ++ (whole ++ st.rest) ∧ re.Lang whole
      ∧ ∀ p ∈ st.caps, re.GroupLang p.1 p.2 := by
  intro s
  induction s with
  | nil =>
      intro prev whole st h
      simp only [searchFrom] at h
      cases hm : mt re ⟨prev, [], []⟩ some with
      | none => rw [hm] at h; cases h
      | some r =>
          rw [hm] at h
          simp only [Option.some.injEq, Prod.mk.injEq] at h
          obtain ⟨rfl, rfl⟩ := h
          obtain ⟨s1, h1, w, e, l, nc, c, g⟩ := mt_sound re _ _ _ hm
          simp only [Option.some.injEq] at h1
          subst h1
          have hw : w = [] := by
            have := congrArg List.length e
            simp at this
            exact List.length_eq_zero.mp (by omega)
          subst hw
          have hr : s1.rest = [] := by simpa using e.symm
          refine ⟨[], by simp [hr], l, ?_⟩
          intro p hp
          rw [c] at hp
          simp only [List.append_nil] at hp
          exact g p hp
  | cons x xs ih =>
      intro prev whole st h
      simp only [searchFrom] at h
      cases hm : mt re ⟨prev, x :: xs, []⟩ some with
      | none =>
          rw [hm] at h
          obtain ⟨pre, e, l, g⟩ := ih _ _ _ h
          exact ⟨x :: pre, by simp [e], l, g⟩
      | some r =>
          rw [hm] at h
          simp only [Option.some.injEq, Prod.mk.injEq] at h
          obtain ⟨rfl, rfl⟩ := h
          obtain ⟨s1, h1, w, e, l, nc, c, g⟩ := mt_sound re _ _ _ hm
          simp only [Option.some.injEq] at h1
          subst h1
          simp only at e
          refine ⟨[], ?_, ?_, ?_⟩
          · rw [e, take_length_sub_append]; simp
          · rw [e, take_length_sub_append]; exact l
          · intro p hp
            rw [c] at hp
            simp only [List.append_nil] at hp
            exact g p hp

theorem lookup_mem {β : Type} (i : Nat) (l : List (Nat × β)) (v : β)
    (h : l.lookup i = some v) : (i, v) ∈ l := by
  induction l with
  | nil => simp at h
  | cons p ps ih =>
      obtain ⟨j, u⟩ := p
      by_cases hij : i = j
      · subst hij
        simp [List.lookup] at h
        simp [h]
      · have : (i == j) = false := by simpa using hij
        simp only [List.lookup, this] at h
        exact List.mem_cons_of_mem _ (ih h)

/-- A match yields one text per group besides the whole match. -/
theorem FindStringSubmatch_length (re : Re) (s : List Char)
    (h : FindStringSubmatch re s ≠ []) : (FindStringSubmatch re s).length = re.numGroups + 1 := by
  unfold FindStringSubmatch at *
  cases hs : searchFrom re none s with
  | none => simp [hs] at h
  | some r => obtain ⟨whole, st⟩ := r; simp

/-- Each group of a match is empty or a text its group can capture. -/
theorem FindStringSubmatch_group (re : Re) (s : List Char) (i : Nat) (h1 : 1 ≤ i) :
    (FindStringSubmatch re s).getD i [] = [] ∨
      re.GroupLang i ((FindStringSubmatch re s).getD i []) := by
  unfold FindStringSubmatch
  cases hs : searchFrom re none s with
  | none => left; simp
  | some r =>
      obtain ⟨whole, st⟩ := r
      obtain ⟨j, rfl⟩ : ∃ j, i = j + 1 := ⟨i - 1, by omega⟩
      obtain ⟨pre, e, l, g⟩ := searchFrom_sound re s none whole st hs
      simp only [List.getD_cons_succ]
      by_cases hj : j < re.numGroups
      · rw [List.getD_eq_getElem _ _ (by simpa using hj)]
        simp only [List.getElem_map, List.getElem_range]
        cases hl : st.caps.lookup (j + 1) with
        | none => left; simp
        | some v =>
            right
            simpa using g _ (lookup_mem _ _ _ hl)
      · left
        rw [List.getD_eq_default]
        simpa using hj

theorem Lang_needs (ch : Char) (re : Re) : ∀ (w : List Char), re.Lang w → re.needs ch = true →
    ch ∈ w := by
  induction re with
  | lit u => intro w hl hn; simp only [Re.Lang] at hl; subst hl; simpa [Re.needs] using hn
  | cls c => intro w _ hn; simp [Re.needs] at hn
  | seq a b iha ihb =>
      intro w hl hn
      obtain ⟨v, u, rfl, la, lb⟩ := hl
      simp only [Re.needs, Bool.or_eq_true] at hn
      rcases hn with hn | hn
      · exact List.mem_append_left _ (iha _ la hn)
      · exact List.mem_append_right _ (ihb _ lb hn)
  | alt a b iha ihb =>
      intro w hl hn
      simp only [Re.needs, Bool.and_eq_true] at hn
      rcases hl with hl | hl
      · exact iha _ hl hn.1
      · exact ihb _ hl hn.2
  | star c => intro w _ hn; simp [Re.needs] at hn
  | lazyStar c => intro w _ hn; simp [Re.needs] at hn
  | opt r _ => intro w _ hn; simp [Re.needs] at hn
  | group i r ih => intro w hl hn; exact ih _ hl (by simpa [Re.needs] using hn)
  | bol m => intro w _ hn; simp [Re.needs] at hn
  | eol m => intro w _ hn; simp [Re.needs] at hn

/-- A pattern finds nothing in a text that lacks a character every match contains. -/
theorem FindStringSubmatch_eq_nil_of_needs (re : Re) (s : List Char) (ch : Char)
    (hn : re.needs ch = true) (hs : ch ∉ s) : FindStringSubmatch re s = [] := by
  unfold FindStringSubmatch
  cases h : searchFrom re none s with
  | none => rfl
  | some r =>
      obtain ⟨whole, st⟩ := r
      obtain ⟨pre, e, l, _⟩ := searchFrom_sound re s none whole st h
      exact absurd (by rw [e]; simp [Lang_needs ch re whole l hn]) hs

/-! ### Matching a text that is given piece by piece -/

theorem lastOr_cons (p : Option Char) (x : Char) (xs : List Char) :
    lastOr p (x :: xs) = lastOr (some x) xs := by
  cases xs with
  | nil => simp [lastOr]
  | cons z zs =>
      simp only [lastOr, List.getLast?_cons_cons]
      rw [List.getLast?_eq_getLast _ (List.cons_ne_nil z zs)]

theorem starGreedy_run (c : Cls) (caps : List (Nat × List Char)) (k : MState → Option MState)
    (ys : List Char) (R : MState) (hy : stopsAt c ys) :
    ∀ (xs : List Char) (prev : Option Char), (∀ x ∈ xs, c.test x = true) →
      k ⟨lastOr prev xs, ys, caps⟩ = some R → starGreedy c caps k prev (xs ++ ys) = some R := by
  intro xs
  induction xs with
  | nil =>
      intro prev _ hk
      simp only [lastOr, List.getLast?_nil, List.nil_append] at hk ⊢
      cases ys with
      | nil => simpa [starGreedy] using hk
      | cons y ys1 =>
          have : c.test y = false := hy y (by simp)
          simp [starGreedy, this, hk]
  | cons x xs ih =>
      intro prev hx hk
      have h1 : c.test x = true := hx x (by simp)
      rw [lastOr_cons] at hk
      have := ih (some x) (fun z hz => hx z (List.mem_cons_of_mem _ hz)) hk
      simp [starGreedy, h1, this]

theorem mt_seq (a b : Re) (s : MState) (k : MState → Option MState) :
    mt (Re.seq a b) s k = mt a s (fun s1 => mt b s1 k) := rfl

theorem mt_lit_append (w ys : List Char) (p : Option Char) (cs : List (Nat × List Char))
    (k : MState → Option MState) :
    mt (Re.lit w) ⟨p, w ++ ys, cs⟩ k = k ⟨lastOr p w, ys, cs⟩ := by
  simp [mt, List.isPrefixOf_iff_prefix]

theorem mt_star_run (c : Cls) (xs ys : List Char) (p : Option Char)
    (cs : List (Nat × List Char)) (k : MState → Option MState) (R : MState)
    (hx : ∀ x ∈ xs, c.test x = true) (hy : stopsAt c ys)
    (hk : k ⟨lastOr p xs, ys, cs⟩ = some R) : mt (Re.star c) ⟨p, xs ++ ys, cs⟩ k = some R := by
  simp only [mt]
  exact starGreedy_run c cs k ys R hy xs p hx hk

theorem mt_plus_run (c : Cls) (xs ys : List Char) (p : Option Char)
    (cs : List (Nat × List Char)) (k : MState → Option MState) (R : MState)
    (hne : xs ≠ []) (hx : ∀ x ∈ xs, c.test x = true) (hy : stopsAt c ys)
    (hk : k ⟨lastOr p xs, ys, cs⟩ = some R) : mt (Re.plus c) ⟨p, xs ++ ys, cs⟩ k = some R := by
  cases xs with
  | nil => exact absurd rfl hne
  | cons x xs1 =>
      have h1 : c.test x = true := hx x (by simp)
      rw [lastOr_cons] at hk
      simp only [Re.plus, mt, List.cons_append, h1, if_true]
      exact starGreedy_run c cs k ys R hy xs1 (some x)
        (fun z hz => hx z (List.mem_cons_of_mem _ hz)) hk

theorem mt_group_run (i : Nat) (r : Re) (s : MState) (k : MState → Option MState) :
    mt (Re.group i r) s k = mt r s (fun s1 =>
        k ⟨s1.prev, s1.rest, (i, s.rest.take (s.rest.length - s1.rest.length)) :: s1.caps⟩) := rfl

theorem searchFrom_hit (re : Re) (s : List Char) (prev : Option Char) (st : MState)
    (h : mt re ⟨prev, s, []⟩ some = some st) :
    searchFrom re prev s = some (s.take (s.length - st.rest.length), st) := by
  cases s with
  | nil =>
      simp only [searchFrom, h]
      simp
  | cons x xs => simp only [searchFrom, h]

end regexp

/-! ## Go `int` arithmetic within range -/

theorem wrapInt_of_range (x : Int) (h1 : minInt ≤ x) (h2 : x ≤ maxInt) : wrapInt x = x := by
  unfold wrapInt
  unfold minInt at h1
  unfold maxInt at h2
  omega

theorem wrapInt_range (x : Int) : minInt ≤ wrapInt x ∧ wrapInt x ≤ maxInt := by
  unfold wrapInt minInt maxInt
  omega

theorem clampInt_range (x : Int) : minInt ≤ clampInt x ∧ clampInt x ≤ maxInt := by
  unfold clampInt minInt maxInt
  split_ifs <;> omega

theorem addInt_of_range (a b : Int) (h1 : minInt ≤ a + b) (h2 : a + b ≤ maxInt) :
    addInt a b = a + b := wrapInt_of_range _ h1 h2

theorem divInt_of_nonneg (a b : Int) (ha : 0 ≤ a) (ha2 : a ≤ maxInt) (hb : 0 < b) :
    divInt a b = a / b := by
  unfold divInt
  rw [Int.tdiv_eq_ediv ha (le_of_lt hb)]
  apply wrapInt_of_range
  · have : 0 ≤ a / b := Int.ediv_nonneg ha (le_of_lt hb)
    unfold minInt
    omega
  · exact le_trans (Int.ediv_le_self b ha) ha2

/-! ## The cluster aggregator -/

theorem aggregate_P0ClusterActive (st : Locals) :
    (aggregate st).P0ClusterActive = st.cpuMetrics.P0ClusterActive := by
  unfold aggregate; dsimp only; split_ifs <;> rfl

theorem aggregate_P1ClusterActive (st : Locals) :
    (aggregate st).P1ClusterActive = st.cpuMetrics.P1ClusterActive := by
  unfold aggregate; dsimp only; split_ifs <;> rfl

theorem aggregate_P2ClusterActive (st : Locals) :
    (aggregate st).P2ClusterActive = st.cpuMetrics.P2ClusterActive := by
  unfold aggregate; dsimp only; split_ifs <;> rfl

theorem aggregate_P3ClusterActive (st : Locals) :
    (aggregate st).P3ClusterActive = st.cpuMetrics.P3ClusterActive := by
  unfold aggregate; dsimp only; split_ifs <;> rfl

theorem aggregate_E0ClusterActive (st : Locals) :
    (aggregate st).E0ClusterActive = st.cpuMetrics.E0ClusterActive := by
  unfold aggregate; dsimp only; split_ifs <;> rfl

theorem aggregate_E1ClusterActive (st : Locals) :
    (aggregate st).E1ClusterActive = st.cpuMetrics.E1ClusterActive := by
  unfold aggregate; dsimp only; split_ifs <;> rfl

theorem aggregate_P0ClusterFreqMHz (st : Locals) :
    (aggregate st).P0ClusterFreqMHz = st.cpuMetrics.P0ClusterFreqMHz := by
  unfold aggregate; dsimp only; split_ifs <;> rfl

theorem aggregate_P1ClusterFreqMHz (st : Locals) :
    (aggregate st).P1ClusterFreqMHz = st.cpuMetrics.P1ClusterFreqMHz := by
  unfold aggregate; dsimp only; split_ifs <;> rfl

theorem aggregate_P2ClusterFreqMHz (st : Locals) :
    (aggregate st).P2ClusterFreqMHz = st.cpuMetrics.P2ClusterFreqMHz := by
  unfold aggregate; dsimp only; split_ifs <;> rfl

theorem aggregate_P3ClusterFreqMHz (st : Locals) :
    (aggregate st).P3ClusterFreqMHz = st.cpuMetrics.P3ClusterFreqMHz := by
  unfold aggregate; dsimp only; split_ifs <;> rfl

theorem aggregate_E0ClusterFreqMHz (st : Locals) :
    (aggregate st).E0ClusterFreqMHz = st.cpuMetrics.E0ClusterFreqMHz := by
  unfold aggregate; dsimp only; split_ifs <;> rfl

theorem aggregate_E1ClusterFreqMHz (st : Locals) :
    (aggregate st).E1ClusterFreqMHz = st.cpuMetrics.E1ClusterFreqMHz := by
  unfold aggregate; dsimp only; split_ifs <;> rfl

theorem aggregate_PClusterActive (st : Locals) :
    (aggregate st).PClusterActive =
      if st.cpuMetrics.P3ClusterActive ≠ 0 then
        divInt (addInt (addInt (addInt st.cpuMetrics.P0ClusterActive
          st.cpuMetrics.P1ClusterActive) st.cpuMetrics.P2ClusterActive)
          st.cpuMetrics.P3ClusterActive) 4
      else if st.cpuMetrics.P1ClusterActive ≠ 0 then
        divInt (addInt st.cpuMetrics.P0ClusterActive st.cpuMetrics.P1ClusterActive) 2
      else addInt st.cpuMetrics.PClusterActive st.cpuMetrics.P0ClusterActive := by
  unfold aggregate; dsimp only; split_ifs <;> rfl

theorem aggregate_PClusterFreqMHz (st : Locals) :
    (aggregate st).PClusterFreqMHz =
      if st.cpuMetrics.P3ClusterActive ≠ 0 then
        max (max (max st.cpuMetrics.P0ClusterFreqMHz st.cpuMetrics.P1ClusterFreqMHz)
          st.cpuMetrics.P2ClusterFreqMHz) st.cpuMetrics.P3ClusterFreqMHz
      else if st.cpuMetrics.P1ClusterActive ≠ 0 then
        max st.cpuMetrics.P0ClusterFreqMHz st.cpuMetrics.P1ClusterFreqMHz
      else st.cpuMetrics.PClusterFreqMHz := by
  unfold aggregate; dsimp only; split_ifs <;> rfl

theorem aggregate_EClusterActive (st : Locals) :
    (aggregate st).EClusterActive =
      if 0 < st.eClusterCount then divInt st.eClusterActiveTotal st.eClusterCount
      else if st.cpuMetrics.E1ClusterActive ≠ 0 then
        divInt (addInt st.cpuMetrics.E0ClusterActive st.cpuMetrics.E1ClusterActive) 2
      else st.cpuMetrics.EClusterActive := by
  unfold aggregate; dsimp only; split_ifs <;> rfl

theorem aggregate_EClusterFreqMHz (st : Locals) :
    (aggregate st).EClusterFreqMHz =
      if st.cpuMetrics.E1ClusterActive ≠ 0 then
        max st.cpuMetrics.E0ClusterFreqMHz st.cpuMetrics.E1ClusterFreqMHz
      else st.cpuMetrics.EClusterFreqMHz := by
  unfold aggregate; dsimp only; split_ifs <;> rfl

theorem parseCPUMetrics_standard (unit : List Char) (prev : CPUMetrics) (model : List Char)
    (hm : model ≠ "Apple M3 Max".toList ∧ model ≠ "Apple M2 Max".toList) :
    parseCPUMetrics unit prev model
      = aggregate ((SplitLines unit).foldl standardLine (Locals.init prev)) := by
  unfold parseCPUMetrics
  dsimp only
  rw [if_neg (not_or.mpr hm)]

/-- C7: on a standard model, when the returned P3 usage is nonzero the returned performance
usage is Go's `(P0+P1+P2+P3)/4` of the returned sub-cluster usages and the frequency is the
maximum of the four sub-cluster frequencies; otherwise, when the returned P1 usage is nonzero,
they are `(P0+P1)/2` and the maximum of the P0 and P1 frequencies. For usages within [0,100]
Go's 64-bit expressions are the exact integer means. -/
theorem perf_cluster_aggregation (unit : List Char) (prev : CPUMetrics) (model : List Char)
    (hm : model ≠ "Apple M3 Max".toList ∧ model ≠ "Apple M2 Max".toList) :
    let r := parseCPUMetrics unit prev model
    (r.P3ClusterActive ≠ 0 →
        r.PClusterActive =
            divInt (addInt (addInt (addInt r.P0ClusterActive r.P1ClusterActive)
              r.P2ClusterActive) r.P3ClusterActive) 4
          ∧ r.PClusterFreqMHz =
            max (max (max r.P0ClusterFreqMHz r.P1ClusterFreqMHz) r.P2ClusterFreqMHz)
              r.P3ClusterFreqMHz
          ∧ ((0 ≤ r.P0ClusterActive ∧ r.P0ClusterActive ≤ 100)
              ∧ (0 ≤ r.P1ClusterActive ∧ r.P1ClusterActive ≤ 100)
              ∧ (0 ≤ r.P2ClusterActive ∧ r.P2ClusterActive ≤ 100)
              ∧ (0 ≤ r.P3ClusterActive ∧ r.P3ClusterActive ≤ 100) →
            r.PClusterActive =
              (r.P0ClusterActive + r.P1ClusterActive + r.P2ClusterActive
                + r.P3ClusterActive) / 4))
      ∧ (r.P3ClusterActive = 0 → r.P1ClusterActive ≠ 0 →
        r.PClusterActive = divInt (addInt r.P0ClusterActive r.P1ClusterActive) 2
          ∧ r.PClusterFreqMHz = max r.P0ClusterFreqMHz r.P1ClusterFreqMHz
          ∧ ((0 ≤ r.P0ClusterActive ∧ r.P0ClusterActive ≤ 100)
              ∧ (0 ≤ r.P1ClusterActive ∧ r.P1ClusterActive ≤ 100) →
            r.PClusterActive = (r.P0ClusterActive + r.P1ClusterActive) / 2)) := by
  intro r
  have hr : r = aggregate ((SplitLines unit).foldl standardLine (Locals.init prev)) :=
    parseCPUMetrics_standard unit prev model hm
  generalize (SplitLines unit).foldl standardLine (Locals.init prev) = st at hr
  rw [hr]
  simp only [aggregate_P0ClusterActive, aggregate_P1ClusterActive, aggregate_P2ClusterActive,
    aggregate_P3ClusterActive, aggregate_P0ClusterFreqMHz, aggregate_P1ClusterFreqMHz,
    aggregate_P2ClusterFreqMHz, aggregate_P3ClusterFreqMHz, aggregate_PClusterActive,
    aggregate_PClusterFreqMHz]
  constructor
  · intro h3
    rw [if_pos h3, if_pos h3]
    refine ⟨rfl, rfl, ?_⟩
    rintro ⟨⟨a0, b0⟩, ⟨a1, b1⟩, ⟨a2, b2⟩, ⟨a3, b3⟩⟩
    have e1 : addInt st.cpuMetrics.P0ClusterActive st.cpuMetrics.P1ClusterActive
        = st.cpuMetrics.P0ClusterActive + st.cpuMetrics.P1ClusterActive :=
      addInt_of_range _ _ (by unfold minInt; omega) (by unfold maxInt; omega)
    rw [e1]
    have e2 : addInt (st.cpuMetrics.P0ClusterActive + st.cpuMetrics.P1ClusterActive)
        st.cpuMetrics.P2ClusterActive = st.cpuMetrics.P0ClusterActive
          + st.cpuMetrics.P1ClusterActive + st.cpuMetrics.P2ClusterActive :=
      addInt_of_range _ _ (by unfold minInt; omega) (by unfold maxInt; omega)
    rw [e2]
    have e3 : addInt (st.cpuMetrics.P0ClusterActive + st.cpuMetrics.P1ClusterActive
        + st.cpuMetrics.P2ClusterActive) st.cpuMetrics.P3ClusterActive
          = st.cpuMetrics.P0ClusterActive + st.cpuMetrics.P1ClusterActive
            + st.cpuMetrics.P2ClusterActive + st.cpuMetrics.P3ClusterActive :=
      addInt_of_range _ _ (by unfold minInt; omega) (by unfold maxInt; omega)
    rw [e3]
    exact divInt_of_nonneg _ 4 (by omega) (by unfold maxInt; omega) (by decide)
  · intro h3 h1
    rw [if_neg (not_not.mpr h3), if_pos h1, if_neg (not_not.mpr h3), if_pos h1]
    refine ⟨rfl, rfl, ?_⟩
    rintro ⟨⟨a0, b0⟩, ⟨a1, b1⟩⟩
    have e1 : addInt st.cpuMetrics.P0ClusterActive st.cpuMetrics.P1ClusterActive
        = st.cpuMetrics.P0ClusterActive + st.cpuMetrics.P1ClusterActive :=
      addInt_of_range _ _ (by unfold minInt; omega) (by unfold maxInt; omega)
    rw [e1]
    exact divInt_of_nonneg _ 2 (by omega) (by unfold maxInt; omega) (by decide)

set_option maxRecDepth 100000 in
theorem quadUnit_eval :
    (parseCPUMetrics quadUnit CPUMetrics.zero "Apple M1".toList).P0ClusterActive = 20
      ∧ (parseCPUMetrics quadUnit CPUMetrics.zero "Apple M1".toList).P1ClusterActive = 30
      ∧ (parseCPUMetrics quadUnit CPUMetrics.zero "Apple M1".toList).P2ClusterActive = 40
      ∧ (parseCPUMetrics quadUnit CPUMetrics.zero "Apple M1".toList).P3ClusterActive = 50
      ∧ (parseCPUMetrics quadUnit CPUMetrics.zero "Apple M1".toList).P0ClusterFreqMHz = 1000
      ∧ (parseCPUMetrics quadUnit CPUMetrics.zero "Apple M1".toList).P1ClusterFreqMHz = 3000
      ∧ (parseCPUMetrics quadUnit CPUMetrics.zero "Apple M1".toList).P2ClusterFreqMHz = 2000
      ∧ (parseCPUMetrics quadUnit CPUMetrics.zero "Apple M1".toList).P3ClusterFreqMHz = 1500 := by
  decide!

/-- The quad-performance profile of the specification: P0..P3 at 20, 30, 40 and 50 percent give
usage 35, and the frequency is the largest of the four. -/
theorem perf_cluster_aggregation_witness :
    ("Apple M1".toList ≠ "Apple M3 Max".toList ∧ "Apple M1".toList ≠ "Apple M2 Max".toList)
      ∧ (parseCPUMetrics quadUnit CPUMetrics.zero "Apple M1".toList).PClusterActive = 35
      ∧ (parseCPUMetrics quadUnit CPUMetrics.zero "Apple M1".toList).PClusterFreqMHz = 3000 := by
  obtain ⟨e0, e1, e2, e3, f0, f1, f2, f3⟩ := quadUnit_eval
  have h := (perf_cluster_aggregation quadUnit CPUMetrics.zero "Apple M1".toList
    (by decide)).1 (by rw [e3]; decide)
  refine ⟨by decide, ?_, ?_⟩
  · rw [h.2.2 (by rw [e0, e1, e2, e3]; decide), e0, e1, e2, e3]
    decide
  · rw [h.2.1, f0, f1, f2, f3]
    decide

/-! ## Fields the cluster switches leave alone -/

theorem setClusterActive_EClusterActive (cl : List Char) (v : Int) (c : CPUMetrics) :
    (setClusterActive cl v c).EClusterActive = c.EClusterActive := by
  unfold setClusterActive; split_ifs <;> rfl

theorem setClusterActive_EClusterFreqMHz (cl : List Char) (v : Int) (c : CPUMetrics) :
    (setClusterActive cl v c).EClusterFreqMHz = c.EClusterFreqMHz := by
  unfold setClusterActive; split_ifs <;> rfl

theorem setClusterActive_PClusterActive (cl : List Char) (v : Int) (c : CPUMetrics) :
    (setClusterActive cl v c).PClusterActive = c.PClusterActive := by
  unfold setClusterActive; split_ifs <;> rfl

theorem setClusterActive_PClusterFreqMHz (cl : List Char) (v : Int) (c : CPUMetrics) :
    (setClusterActive cl v c).PClusterFreqMHz = c.PClusterFreqMHz := by
  unfold setClusterActive; split_ifs <;> rfl

theorem setClusterActive_ECores (cl : List Char) (v : Int) (c : CPUMetrics) :
    (setClusterActive cl v c).ECores = c.ECores := by
  unfold setClusterActive; split_ifs <;> rfl

theorem setClusterActive_PCores (cl : List Char) (v : Int) (c : CPUMetrics) :
    (setClusterActive cl v c).PCores = c.PCores := by
  unfold setClusterActive; split_ifs <;> rfl

theorem setClusterActive_ANEW (cl : List Char) (v : Int) (c : CPUMetrics) :
    (setClusterActive cl v c).ANEW = c.ANEW := by
  unfold setClusterActive; split_ifs <;> rfl

theorem setClusterActive_CPUW (cl : List Char) (v : Int) (c : CPUMetrics) :
    (setClusterActive cl v c).CPUW = c.CPUW := by
  unfold setClusterActive; split_ifs <;> rfl

theorem setClusterActive_GPUW (cl : List Char) (v : Int) (c : CPUMetrics) :
    (setClusterActive cl v c).GPUW = c.GPUW := by
  unfold setClusterActive; split_ifs <;> rfl

theorem setClusterActive_PackageW (cl : List Char) (v : Int) (c : CPUMetrics) :
    (setClusterActive cl v c).PackageW = c.PackageW := by
  unfold setClusterActive; split_ifs <;> rfl

theorem setClusterActive_E0ClusterFreqMHz (cl : List Char) (v : Int) (c : CPUMetrics) :
    (setClusterActive cl v c).E0ClusterFreqMHz = c.E0ClusterFreqMHz := by
  unfold setClusterActive; split_ifs <;> rfl

theorem setClusterActive_E1ClusterFreqMHz (cl : List Char) (v : Int) (c : CPUMetrics) :
    (setClusterActive cl v c).E1ClusterFreqMHz = c.E1ClusterFreqMHz := by
  unfold setClusterActive; split_ifs <;> rfl

theorem setClusterActive_P0ClusterFreqMHz (cl : List Char) (v : Int) (c : CPUMetrics) :
    (setClusterActive cl v c).P0ClusterFreqMHz = c.P0ClusterFreqMHz := by
  unfold setClusterActive; split_ifs <;> rfl

theorem setClusterActive_P1ClusterFreqMHz (cl : List Char) (v : Int) (c : CPUMetrics) :
    (setClusterActive cl v c).P1ClusterFreqMHz = c.P1ClusterFreqMHz := by
  unfold setClusterActive; split_ifs <;> rfl

theorem setClusterActive_P2ClusterFreqMHz (cl : List Char) (v : Int) (c : CPUMetrics) :
    (setClusterActive cl v c).P2ClusterFreqMHz = c.P2ClusterFreqMHz := by
  unfold setClusterActive; split_ifs <;> rfl

theorem setClusterActive_P3ClusterFreqMHz (cl : List Char) (v : Int) (c : CPUMetrics) :
    (setClusterActive cl v c).P3ClusterFreqMHz = c.P3ClusterFreqMHz := by
  unfold setClusterActive; split_ifs <;> rfl

theorem setClusterFreq_EClusterActive (cl : List Char) (v : Int) (c : CPUMetrics) :
    (setClusterFreq cl v c).EClusterActive = c.EClusterActive := by
  unfold setClusterFreq; split_ifs <;> rfl

theorem setClusterFreq_EClusterFreqMHz (cl : List Char) (v : Int) (c : CPUMetrics) :
    (setClusterFreq cl v c).EClusterFreqMHz = c.EClusterFreqMHz := by
  unfold setClusterFreq; split_ifs <;> rfl

theorem setClusterFreq_PClusterActive (cl : List Char) (v : Int) (c : CPUMetrics) :
    (setClusterFreq cl v c).PClusterActive = c.PClusterActive := by
  unfold setClusterFreq; split_ifs <;> rfl

theorem setClusterFreq_PClusterFreqMHz (cl : List Char) (v : Int) (c : CPUMetrics) :
    (setClusterFreq cl v c).PClusterFreqMHz = c.PClusterFreqMHz := by
  unfold setClusterFreq; split_ifs <;> rfl

theorem setClusterFreq_ECores (cl : List Char) (v : Int) (c : CPUMetrics) :
    (setClusterFreq cl v c).ECores = c.ECores := by
  unfold setClusterFreq; split_ifs <;> rfl

theorem setClusterFreq_PCores (cl : List Char) (v : Int) (c : CPUMetrics) :
    (setClusterFreq cl v c).PCores = c.PCores := by
  unfold setClusterFreq; split_ifs <;> rfl

theorem setClusterFreq_ANEW (cl : List Char) (v : Int) (c : CPUMetrics) :
    (setClusterFreq cl v c).ANEW = c.ANEW := by
  unfold setClusterFreq; split_ifs <;> rfl

theorem setClusterFreq_CPUW (cl : List Char) (v : Int) (c : CPUMetrics) :
    (setClusterFreq cl v c).CPUW = c.CPUW := by
  unfold setClusterFreq; split_ifs <;> rfl

theorem setClusterFreq_GPUW (cl : List Char) (v : Int) (c : CPUMetrics) :
    (setClusterFreq cl v c).GPUW = c.GPUW := by
  unfold setClusterFreq; split_ifs <;> rfl

theorem setClusterFreq_PackageW (cl : List Char) (v : Int) (c : CPUMetrics) :
    (setClusterFreq cl v c).PackageW = c.PackageW := by
  unfold setClusterFreq; split_ifs <;> rfl

theorem setClusterFreq_E0ClusterActive (cl : List Char) (v : Int) (c : CPUMetrics) :
    (setClusterFreq cl v c).E0ClusterActive = c.E0ClusterActive := by
  unfold setClusterFreq; split_ifs <;> rfl

theorem setClusterFreq_E1ClusterActive (cl : List Char) (v : Int) (c : CPUMetrics) :
    (setClusterFreq cl v c).E1ClusterActive = c.E1ClusterActive := by
  unfold setClusterFreq; split_ifs <;> rfl

theorem setClusterFreq_P0ClusterActive (cl : List Char) (v : Int) (c : CPUMetrics) :
    (setClusterFreq cl v c).P0ClusterActive = c.P0ClusterActive := by
  unfold setClusterFreq; split_ifs <;> rfl

theorem setClusterFreq_P1ClusterActive (cl : List Char) (v : Int) (c : CPUMetrics) :
    (setClusterFreq cl v c).P1ClusterActive = c.P1ClusterActive := by
  unfold setClusterFreq; split_ifs <;> rfl

theorem setClusterFreq_P2ClusterActive (cl : List Char) (v : Int) (c : CPUMetrics) :
    (setClusterFreq cl v c).P2ClusterActive = c.P2ClusterActive := by
  unfold setClusterFreq; split_ifs <;> rfl

theorem setClusterFreq_P3ClusterActive (cl : List Char) (v : Int) (c : CPUMetrics) :
    (setClusterFreq cl v c).P3ClusterActive = c.P3ClusterActive := by
  unfold setClusterFreq; split_ifs <;> rfl

theorem frequencyStep_usage (st : Locals) (line : List Char) :
    (frequencyStep st line).usage = st.usage := by
  unfold frequencyStep
  dsimp only
  split_ifs <;>
    simp only [Locals.usage, setClusterFreq_EClusterActive, setClusterFreq_PClusterActive,
      setClusterFreq_E0ClusterActive, setClusterFreq_E1ClusterActive,
      setClusterFreq_P0ClusterActive, setClusterFreq_P1ClusterActive,
      setClusterFreq_P2ClusterActive, setClusterFreq_P3ClusterActive]

theorem coresAndPower_usage (st : Locals) (line : List Char) :
    (coresAndPower st line).usage = st.usage := by
  unfold coresAndPower
  dsimp only
  split_ifs <;> rfl

theorem standardLine_usage (st : Locals) (line : List Char) :
    (standardLine st line).usage = (residencyStep st line).usage := by
  unfold standardLine
  rw [coresAndPower_usage, frequencyStep_usage]

theorem residencyStep_eTotal (st : Locals) (line : List Char) :
    (residencyStep st line).eClusterActiveTotal =
      match lineResidency "E".toList line with
      | some v => addInt st.eClusterActiveTotal v
      | none => st.eClusterActiveTotal := by
  unfold residencyStep lineResidency
  dsimp only
  split_ifs <;> simp_all

theorem residencyStep_eCount (st : Locals) (line : List Char) :
    (residencyStep st line).eClusterCount =
      match lineResidency "E".toList line with
      | some _ => addInt st.eClusterCount 1
      | none => st.eClusterCount := by
  unfold residencyStep lineResidency
  dsimp only
  split_ifs <;> simp_all

theorem standardLine_eTotal (st : Locals) (line : List Char) :
    (standardLine st line).eClusterActiveTotal =
      match lineResidency "E".toList line with
      | some v => addInt st.eClusterActiveTotal v
      | none => st.eClusterActiveTotal := by
  exact (congrArg UsageView.eTotal (standardLine_usage st line)).trans
    (residencyStep_eTotal st line)

theorem standardLine_eCount (st : Locals) (line : List Char) :
    (standardLine st line).eClusterCount =
      match lineResidency "E".toList line with
      | some _ => addInt st.eClusterCount 1
      | none => st.eClusterCount := by
  exact (congrArg UsageView.eCount (standardLine_usage st line)).trans
    (residencyStep_eCount st line)

theorem foldl_standardLine_eTotal (lines : List (List Char)) : ∀ (st : Locals),
    (lines.foldl standardLine st).eClusterActiveTotal
      = (lines.filterMap (lineResidency "E".toList)).foldl addInt st.eClusterActiveTotal := by
  induction lines with
  | nil => intro st; rfl
  | cons l ls ih =>
      intro st
      rw [List.foldl_cons, ih, standardLine_eTotal, List.filterMap_cons]
      cases lineResidency "E".toList l <;> rfl

theorem foldl_standardLine_eCount (lines : List (List Char)) : ∀ (st : Locals),
    (lines.foldl standardLine st).eClusterCount
      = (lines.filterMap (lineResidency "E".toList)).foldl (fun c _ => addInt c 1)
          st.eClusterCount := by
  induction lines with
  | nil => intro st; rfl
  | cons l ls ih =>
      intro st
      rw [List.foldl_cons, ih, standardLine_eCount, List.filterMap_cons]
      cases lineResidency "E".toList l <;> rfl

theorem foldl_count (l : List Int) : ∀ (c : Int), 0 ≤ c → c + l.length ≤ maxInt →
    l.foldl (fun c _ => addInt c 1) c = c + l.length := by
  induction l with
  | nil => intro c _ _; simp
  | cons x xs ih =>
      intro c h0 h1
      simp only [List.length_cons, Nat.cast_add, Nat.cast_one] at h1
      have e : addInt c 1 = c + 1 :=
        addInt_of_range _ _ (by unfold minInt; omega) (by omega)
      rw [List.foldl_cons, e, ih (c + 1) (by omega) (by omega)]
      simp only [List.length_cons, Nat.cast_add, Nat.cast_one]
      omega

/-- C8, as the code has it: on a standard model, when the returned E1 usage is nonzero the
returned efficiency frequency is the maximum of the E0 and E1 frequencies; the returned
efficiency usage is Go's `(E0+E1)/2` (the exact integer mean for usages within [0,100]) when the
unit holds no efficiency-cluster residency line, and when it holds such lines the usage is the
integer mean of the residencies on those lines (source lines 363-365 run last). -/
theorem eff_cluster_aggregation (unit : List Char) (prev : CPUMetrics) (model : List Char)
    (hm : model ≠ "Apple M3 Max".toList ∧ model ≠ "Apple M2 Max".toList) :
    let r := parseCPUMetrics unit prev model
    r.E1ClusterActive ≠ 0 →
      r.EClusterFreqMHz = max r.E0ClusterFreqMHz r.E1ClusterFreqMHz
        ∧ (clusterResidencies "E".toList unit = [] →
            r.EClusterActive = divInt (addInt r.E0ClusterActive r.E1ClusterActive) 2
              ∧ ((0 ≤ r.E0ClusterActive ∧ r.E0ClusterActive ≤ 100)
                  ∧ (0 ≤ r.E1ClusterActive ∧ r.E1ClusterActive ≤ 100) →
                r.EClusterActive = (r.E0ClusterActive + r.E1ClusterActive) / 2))
        ∧ (clusterResidencies "E".toList unit ≠ [] →
            ((clusterResidencies "E".toList unit).length : Int) ≤ maxInt →
            r.EClusterActive = divInt ((clusterResidencies "E".toList unit).foldl addInt 0)
              ((clusterResidencies "E".toList unit).length : Int)) := by
  intro r h1
  have hr : r = aggregate ((SplitLines unit).foldl standardLine (Locals.init prev)) :=
    parseCPUMetrics_standard unit prev model hm
  have ht := foldl_standardLine_eTotal (SplitLines unit) (Locals.init prev)
  have hc := foldl_standardLine_eCount (SplitLines unit) (Locals.init prev)
  change _ = (clusterResidencies "E".toList unit).foldl addInt 0 at ht
  change _ = (clusterResidencies "E".toList unit).foldl (fun c _ => addInt c 1) 0 at hc
  generalize (SplitLines unit).foldl standardLine (Locals.init prev) = st at hr ht hc
  rw [hr] at h1 ⊢
  rw [aggregate_E1ClusterActive] at h1
  simp only [aggregate_E0ClusterActive, aggregate_E1ClusterActive, aggregate_E0ClusterFreqMHz,
    aggregate_E1ClusterFreqMHz, aggregate_EClusterActive, aggregate_EClusterFreqMHz]
  refine ⟨by rw [if_pos h1], ?_, ?_⟩
  · intro hnil
    rw [hnil] at hc
    have hc0 : st.eClusterCount = 0 := hc
    rw [hc0, if_neg (by decide), if_pos h1]
    refine ⟨rfl, ?_⟩
    rintro ⟨⟨a0, b0⟩, ⟨a1, b1⟩⟩
    have e1 : addInt st.cpuMetrics.E0ClusterActive st.cpuMetrics.E1ClusterActive
        = st.cpuMetrics.E0ClusterActive + st.cpuMetrics.E1ClusterActive :=
      addInt_of_range _ _ (by unfold minInt; omega) (by unfold maxInt; omega)
    rw [e1]
    exact divInt_of_nonneg _ 2 (by omega) (by unfold maxInt; omega) (by decide)
  · intro hne hlen
    rw [foldl_count _ 0 (le_refl 0) (by simpa using hlen)] at hc
    have hpos : 0 < st.eClusterCount := by
      rw [hc]
      have : 0 < (clusterResidencies "E".toList unit).length := List.length_pos.mpr hne
      omega
    rw [if_pos hpos, ht, hc]
    simp

set_option maxRecDepth 100000 in
theorem e1Unit_eval :
    clusterResidencies "E".toList e1Unit = [50]
      ∧ (parseCPUMetrics e1Unit e0Prev "Apple M1".toList).E1ClusterActive = 50
      ∧ (parseCPUMetrics e1Unit e0Prev "Apple M1".toList).E0ClusterActive = 10 := by
  decide!

set_option maxRecDepth 100000 in
/-- C8 as stated fails: with E0 at 10 percent before and the single line of E1 at 50 percent,
the returned E1 usage is nonzero and the returned efficiency usage is 50, not the mean 30. -/
theorem eff_cluster_aggregation_counterexample :
    (parseCPUMetrics e1Unit e0Prev "Apple M1".toList).E1ClusterActive ≠ 0
      ∧ (parseCPUMetrics e1Unit e0Prev "Apple M1".toList).EClusterActive = 50
      ∧ ((parseCPUMetrics e1Unit e0Prev "Apple M1".toList).E0ClusterActive
          + (parseCPUMetrics e1Unit e0Prev "Apple M1".toList).E1ClusterActive) / 2 = 30 := by
  decide!

/-- The amended rule at the same input: the unit holds one efficiency-cluster line, at 50
percent, and the returned usage is the mean of that one line. -/
theorem eff_cluster_aggregation_witness :
    ("Apple M1".toList ≠ "Apple M3 Max".toList ∧ "Apple M1".toList ≠ "Apple M2 Max".toList)
      ∧ (parseCPUMetrics e1Unit e0Prev "Apple M1".toList).EClusterActive = divInt 50 1 := by
  obtain ⟨e, e1, _⟩ := e1Unit_eval
  have h := (eff_cluster_aggregation e1Unit e0Prev "Apple M1".toList (by decide)
    (by rw [e1]; decide)).2.2 (by rw [e]; decide) (by rw [e]; decide)
  rw [e] at h
  exact ⟨by decide, h⟩

theorem divInt_mean_bounds (t c : Int) (h0 : 0 ≤ t) (h1 : t ≤ 100 * c) (hc : 0 < c)
    (hc2 : c ≤ 72057594037927936) : 0 ≤ divInt t c ∧ divInt t c ≤ 100 := by
  rw [divInt_of_nonneg t c h0 (by unfold maxInt; omega) hc]
  exact ⟨Int.ediv_nonneg h0 (le_of_lt hc), Int.ediv_le_of_le_mul hc h1⟩

theorem setClusterActive_sub_bounds (cl : List Char) (v : Int) (c : CPUMetrics)
    (hv : 0 ≤ v ∧ v ≤ 100)
    (h : (0 ≤ c.E0ClusterActive ∧ c.E0ClusterActive ≤ 100)
      ∧ (0 ≤ c.E1ClusterActive ∧ c.E1ClusterActive ≤ 100)
      ∧ (0 ≤ c.P0ClusterActive ∧ c.P0ClusterActive ≤ 100)
      ∧ (0 ≤ c.P1ClusterActive ∧ c.P1ClusterActive ≤ 100)
      ∧ (0 ≤ c.P2ClusterActive ∧ c.P2ClusterActive ≤ 100)
      ∧ (0 ≤ c.P3ClusterActive ∧ c.P3ClusterActive ≤ 100)) :
    (0 ≤ (setClusterActive cl v c).E0ClusterActive ∧ (setClusterActive cl v c).E0ClusterActive ≤ 100)
      ∧ (0 ≤ (setClusterActive cl v c).E1ClusterActive
          ∧ (setClusterActive cl v c).E1ClusterActive ≤ 100)
      ∧ (0 ≤ (setClusterActive cl v c).P0ClusterActive
          ∧ (setClusterActive cl v c).P0ClusterActive ≤ 100)
      ∧ (0 ≤ (setClusterActive cl v c).P1ClusterActive
          ∧ (setClusterActive cl v c).P1ClusterActive ≤ 100)
      ∧ (0 ≤ (setClusterActive cl v c).P2ClusterActive
          ∧ (setClusterActive cl v c).P2ClusterActive ≤ 100)
      ∧ (0 ≤ (setClusterActive cl v c).P3ClusterActive
          ∧ (setClusterActive cl v c).P3ClusterActive ≤ 100) := by
  unfold setClusterActive
  split_ifs <;> (try dsimp only) <;> tauto

theorem F64.one_pos : 0 < F64.one := Nat.two_pow_pos 1074

theorem F64.ofNat_100 : F64.ofNat 100 = F64.fin false (100 * F64.one) := by decide!

theorem F64.inf_key_gt (k : Nat) (hk : k ≤ 100) :
    ((k * F64.one : Nat) : Int) < (2 : Int) ^ 2098 := by
  have h2 : (2 : Int) ^ 2098 = 2 ^ 1024 * ((F64.one : Nat) : Int) := by
    unfold F64.one
    push_cast
    rw [← pow_add]
  have h3 : (128 : Int) ≤ 2 ^ 1024 :=
    calc (128 : Int) = 2 ^ 7 := by norm_num
      _ ≤ 2 ^ 1024 := pow_le_pow_right₀ (by norm_num) (by norm_num)
  have h4 : (0 : Int) < ((F64.one : Nat) : Int) := by exact_mod_cast F64.one_pos
  have h5 : (k : Int) ≤ 100 := by exact_mod_cast hk
  rw [h2]
  push_cast
  nlinarith

theorem F64.toInt_percent (p : F64) (h0 : F64.ge p F64.zero = true)
    (h1 : F64.ge (F64.ofNat 100) p = true) : 0 ≤ F64.toInt p ∧ F64.toInt p ≤ 100 := by
  rw [F64.ofNat_100] at h1
  cases p with
  | nan => simp [F64.ge, F64.key] at h0
  | inf neg =>
      cases neg with
      | true =>
          simp only [F64.ge, F64.key, F64.zero, if_true, Bool.false_eq_true, if_false,
            decide_eq_true_eq] at h0
          have := F64.inf_key_gt 0 (by omega)
          simp only [Nat.zero_mul, Nat.cast_zero] at this
          omega
      | false =>
          simp only [F64.ge, F64.key, Bool.false_eq_true, if_false, decide_eq_true_eq] at h1
          have := F64.inf_key_gt 100 (le_refl _)
          omega
  | fin neg n =>
      cases neg with
      | true =>
          simp only [F64.ge, F64.key, F64.zero, if_true, Bool.false_eq_true, if_false,
            decide_eq_true_eq] at h0
          have hn : n = 0 := by omega
          subst hn
          simp [F64.toInt, clampInt, minInt, maxInt]
      | false =>
          simp only [F64.ge, F64.key, Bool.false_eq_true, if_false, decide_eq_true_eq] at h1
          have hn : n ≤ 100 * F64.one := by exact_mod_cast h1
          have hq : n / F64.one ≤ 100 :=
            Nat.div_le_of_le_mul (by rw [Nat.mul_comm]; exact hn)
          have hq1 : ((n / F64.one : Nat) : Int) ≤ 100 := by exact_mod_cast hq
          have hq0 : (0 : Int) ≤ ((n / F64.one : Nat) : Int) := Int.natCast_nonneg _
          simp only [F64.toInt, Bool.false_eq_true, if_false, clampInt, minInt, maxInt]
          generalize ((n / F64.one : Nat) : Int) = q at hq0 hq1 ⊢
          split_ifs <;> omega

theorem UsageInv_mono (n m : Int) (u : UsageView) (h : UsageInv n u) (hnm : n ≤ m) :
    UsageInv m u := by
  obtain ⟨hE, hP, h0, h1, h2, h3, h4, h5, ⟨ec0, ec1⟩, et, ⟨pc0, pc1⟩, pt⟩ := h
  exact ⟨hE, hP, h0, h1, h2, h3, h4, h5, ⟨ec0, le_trans ec1 hnm⟩, et,
    ⟨pc0, le_trans pc1 hnm⟩, pt⟩

theorem residencyStep_inv (n : Int) (st : Locals) (line : List Char)
    (h : UsageInv n st.usage) (hn : n < 72057594037927936) (hl : residencyInRange line) :
    UsageInv (n + 1) (residencyStep st line).usage := by
  unfold residencyStep
  dsimp only
  by_cases hm : FindStringSubmatch residencyRe line ≠ []
  · rw [if_pos hm]
    have hv := F64.toInt_percent _ (hl hm).1 (hl hm).2
    generalize F64.toInt (ParseFloat ((FindStringSubmatch residencyRe line).getD 2 [])).1 = v
      at hv ⊢
    generalize (FindStringSubmatch residencyRe line).getD 1 [] = cl
    obtain ⟨hE, hP, h0, h1, h2, h3, h4, h5, ⟨ec0, ec1⟩, ⟨et0, et1⟩, ⟨pc0, pc1⟩, ⟨pt0, pt1⟩⟩ := h
    simp only [Locals.usage] at hE hP h0 h1 h2 h3 h4 h5 ec0 ec1 et0 et1 pc0 pc1 pt0 pt1
    obtain ⟨s0, s1, s2, s3, s4, s5⟩ :=
      setClusterActive_sub_bounds cl v st.cpuMetrics hv ⟨h0, h1, h2, h3, h4, h5⟩
    split_ifs
    · have e1 : addInt st.eClusterActiveTotal v = st.eClusterActiveTotal + v :=
        addInt_of_range _ _ (by unfold minInt; omega) (by unfold maxInt; omega)
      have e2 : addInt st.eClusterCount 1 = st.eClusterCount + 1 :=
        addInt_of_range _ _ (by unfold minInt; omega) (by unfold maxInt; omega)
      simp only [UsageInv, Locals.usage, setClusterActive_EClusterActive,
        setClusterActive_PClusterActive, e1, e2]
      refine ⟨hE, hP, s0, s1, s2, s3, s4, s5, ⟨?_, ?_⟩, ⟨?_, ?_⟩, ⟨pc0, ?_⟩, ⟨pt0, pt1⟩⟩ <;>
        omega
    · have e1 : addInt st.pClusterActiveTotal v = st.pClusterActiveTotal + v :=
        addInt_of_range _ _ (by unfold minInt; omega) (by unfold maxInt; omega)
      have e2 : addInt st.pClusterCount 1 = st.pClusterCount + 1 :=
        addInt_of_range _ _ (by unfold minInt; omega) (by unfold maxInt; omega)
      have hd := divInt_mean_bounds (st.pClusterActiveTotal + v) (st.pClusterCount + 1)
        (by omega) (by omega) (by omega) (by omega)
      simp only [UsageInv, Locals.usage, setClusterActive_EClusterActive, e1, e2]
      refine ⟨hE, hd, s0, s1, s2, s3, s4, s5, ⟨ec0, ?_⟩, ⟨et0, et1⟩, ⟨?_, ?_⟩, ⟨?_, ?_⟩⟩ <;>
        omega
    · simp only [UsageInv, Locals.usage, setClusterActive_EClusterActive,
        setClusterActive_PClusterActive]
      refine ⟨hE, hP, s0, s1, s2, s3, s4, s5, ⟨ec0, ?_⟩, ⟨et0, et1⟩, ⟨pc0, ?_⟩, ⟨pt0, pt1⟩⟩ <;>
        omega
  · rw [if_neg hm]
    exact UsageInv_mono n (n + 1) _ h (by omega)

theorem foldl_standardLine_inv (lines : List (List Char)) : ∀ (n : Int) (st : Locals),
    UsageInv n st.usage → n + lines.length ≤ 72057594037927936 →
    (∀ line ∈ lines, residencyInRange line) →
    UsageInv (n + lines.length) (lines.foldl standardLine st).usage := by
  induction lines with
  | nil => intro n st h _ _; simpa using h
  | cons l ls ih =>
      intro n st h hn hl
      simp only [List.length_cons, Nat.cast_add, Nat.cast_one] at hn ⊢
      rw [List.foldl_cons]
      have h1 : UsageInv (n + 1) (standardLine st l).usage := by
        rw [standardLine_usage]
        exact residencyStep_inv n st l h (by omega) (hl l (List.mem_cons_self _ _))
      have := ih (n + 1) (standardLine st l) h1 (by omega)
        (fun x hx => hl x (List.mem_cons_of_mem _ hx))
      have e : n + 1 + (ls.length : Int) = n + ((ls.length : Int) + 1) := by omega
      rw [e] at this
      exact this

theorem SplitLines_length (s : List Char) : (SplitLines s).length ≤ s.length + 1 := by
  induction s with
  | nil => simp [SplitLines]
  | cons c cs ih =>
      simp only [SplitLines]
      split_ifs
      · simpa using ih
      · cases h : SplitLines cs with
        | nil => simp
        | cons l ls =>
            rw [h] at ih
            simp only [List.length_cons] at ih ⊢
            omega

/-- C1, as the code has it: on a standard model, from a previous snapshot whose usages lie in
[0,100] and a unit (shorter than 2^56 characters) whose residency percentages lie in [0,100],
the returned efficiency usage lies in [0,100]; the returned performance usage lies in [0,100]
when the returned P1 or P3 usage is nonzero, and in [0,200] in any case (rule 4 adds the P0
usage to the running mean). -/
theorem usage_range (unit : List Char) (prev : CPUMetrics) (model : List Char)
    (hm : model ≠ "Apple M3 Max".toList ∧ model ≠ "Apple M2 Max".toList)
    (hprev : usagesInRange prev)
    (hunit : ∀ line ∈ SplitLines unit, residencyInRange line)
    (hlen : unit.length < 72057594037927936) :
    let r := parseCPUMetrics unit prev model
    (0 ≤ r.EClusterActive ∧ r.EClusterActive ≤ 100)
      ∧ (0 ≤ r.PClusterActive ∧ r.PClusterActive ≤ 200)
      ∧ (r.P3ClusterActive ≠ 0 ∨ r.P1ClusterActive ≠ 0 → r.PClusterActive ≤ 100) := by
  intro r
  have hr : r = aggregate ((SplitLines unit).foldl standardLine (Locals.init prev)) :=
    parseCPUMetrics_standard unit prev model hm
  have h0 : UsageInv 0 (Locals.init prev).usage := by
    obtain ⟨a, b, c, d, e, f, g, h⟩ := hprev
    exact ⟨a, b, c, d, e, f, g, h, ⟨le_refl _, le_refl _⟩, ⟨le_refl _, le_refl _⟩,
      ⟨le_refl _, le_refl _⟩, ⟨le_refl _, le_refl _⟩⟩
  have hlines := SplitLines_length unit
  have hinv := foldl_standardLine_inv (SplitLines unit) 0 (Locals.init prev) h0
    (by omega) hunit
  generalize (SplitLines unit).foldl standardLine (Locals.init prev) = st at hr hinv
  obtain ⟨hE, hP, hE0, hE1, hP0, hP1, hP2, hP3, ⟨ec0, ec1⟩, ⟨et0, et1⟩, _, _⟩ := hinv
  simp only [Locals.usage] at hE hP hE0 hE1 hP0 hP1 hP2 hP3 ec0 ec1 et0 et1
  rw [hr]
  simp only [aggregate_P1ClusterActive, aggregate_P3ClusterActive, aggregate_PClusterActive,
    aggregate_EClusterActive]
  have a01 : addInt st.cpuMetrics.E0ClusterActive st.cpuMetrics.E1ClusterActive
      = st.cpuMetrics.E0ClusterActive + st.cpuMetrics.E1ClusterActive :=
    addInt_of_range _ _ (by unfold minInt; omega) (by unfold maxInt; omega)
  have p01 : addInt st.cpuMetrics.P0ClusterActive st.cpuMetrics.P1ClusterActive
      = st.cpuMetrics.P0ClusterActive + st.cpuMetrics.P1ClusterActive :=
    addInt_of_range _ _ (by unfold minInt; omega) (by unfold maxInt; omega)
  have p012 : addInt (st.cpuMetrics.P0ClusterActive + st.cpuMetrics.P1ClusterActive)
      st.cpuMetrics.P2ClusterActive = st.cpuMetrics.P0ClusterActive
        + st.cpuMetrics.P1ClusterActive + st.cpuMetrics.P2ClusterActive :=
    addInt_of_range _ _ (by unfold minInt; omega) (by unfold maxInt; omega)
  have p0123 : addInt (st.cpuMetrics.P0ClusterActive + st.cpuMetrics.P1ClusterActive
      + st.cpuMetrics.P2ClusterActive) st.cpuMetrics.P3ClusterActive
        = st.cpuMetrics.P0ClusterActive + st.cpuMetrics.P1ClusterActive
          + st.cpuMetrics.P2ClusterActive + st.cpuMetrics.P3ClusterActive :=
    addInt_of_range _ _ (by unfold minInt; omega) (by unfold maxInt; omega)
  have pp0 : addInt st.cpuMetrics.PClusterActive st.cpuMetrics.P0ClusterActive
      = st.cpuMetrics.PClusterActive + st.cpuMetrics.P0ClusterActive :=
    addInt_of_range _ _ (by unfold minInt; omega) (by unfold maxInt; omega)
  have d4 := divInt_of_nonneg (st.cpuMetrics.P0ClusterActive + st.cpuMetrics.P1ClusterActive
      + st.cpuMetrics.P2ClusterActive + st.cpuMetrics.P3ClusterActive) 4 (by omega)
      (by unfold maxInt; omega) (by decide)
  have d2 := divInt_of_nonneg (st.cpuMetrics.P0ClusterActive + st.cpuMetrics.P1ClusterActive) 2
      (by omega) (by unfold maxInt; omega) (by decide)
  have de := divInt_of_nonneg (st.cpuMetrics.E0ClusterActive + st.cpuMetrics.E1ClusterActive) 2
      (by omega) (by unfold maxInt; omega) (by decide)
  rw [a01, p01, p012, p0123, pp0, d4, d2, de]
  refine ⟨?_, ?_, ?_⟩
  · split_ifs with c1 c2
    · exact divInt_mean_bounds _ _ et0 et1 c1 (by omega)
    · omega
    · exact hE
  · split_ifs <;> omega
  · intro h
    split_ifs with c1 c2
    · omega
    · omega
    · exact absurd h (by simp only [ne_eq, not_or, not_not]; exact ⟨not_not.mp c1, not_not.mp c2⟩)

set_option maxRecDepth 100000 in
/-- C1 as stated fails: the all-zero snapshot and the single line of P0 at 60 percent meet the
hypotheses, and the returned performance usage is 120. -/
theorem usage_range_counterexample :
    usagesInRange CPUMetrics.zero ∧ (∀ line ∈ SplitLines p0Unit, residencyInRange line)
      ∧ (parseCPUMetrics p0Unit CPUMetrics.zero "Apple M1".toList).PClusterActive = 120
      ∧ ¬ (parseCPUMetrics p0Unit CPUMetrics.zero "Apple M1".toList).PClusterActive ≤ 100 := by
  decide!

set_option maxRecDepth 100000 in
/-- The amended range at the same input: efficiency usage within [0,100], performance usage
within [0,200]. -/
theorem usage_range_witness :
    (("Apple M1".toList ≠ "Apple M3 Max".toList ∧ "Apple M1".toList ≠ "Apple M2 Max".toList)
        ∧ usagesInRange CPUMetrics.zero ∧ (∀ line ∈ SplitLines p0Unit, residencyInRange line)
        ∧ p0Unit.length < 72057594037927936)
      ∧ (0 ≤ (parseCPUMetrics p0Unit CPUMetrics.zero "Apple M1".toList).EClusterActive
          ∧ (parseCPUMetrics p0Unit CPUMetrics.zero "Apple M1".toList).EClusterActive ≤ 100)
      ∧ (0 ≤ (parseCPUMetrics p0Unit CPUMetrics.zero "Apple M1".toList).PClusterActive
          ∧ (parseCPUMetrics p0Unit CPUMetrics.zero "Apple M1".toList).PClusterActive ≤ 200) :=
  have hyp : ("Apple M1".toList ≠ "Apple M3 Max".toList
      ∧ "Apple M1".toList ≠ "Apple M2 Max".toList)
      ∧ usagesInRange CPUMetrics.zero ∧ (∀ line ∈ SplitLines p0Unit, residencyInRange line)
      ∧ p0Unit.length < 72057594037927936 := by decide!
  have h := usage_range p0Unit CPUMetrics.zero "Apple M1".toList hyp.1 hyp.2.1 hyp.2.2.1
    hyp.2.2.2
  ⟨hyp, h.1, h.2.1⟩

namespace sort

theorem insertBack_perm {α : Type} (less : α → α → Bool) (x : α) (acc : List α) :
    (insertBack less x acc).Perm (x :: acc) := by
  induction acc with
  | nil => exact List.Perm.refl _
  | cons y ys ih =>
      simp only [insertBack]
      split_ifs
      · exact ((List.Perm.cons y ih).trans (List.Perm.swap x y ys))
      · exact List.Perm.refl _

theorem foldl_insertBack_perm {α : Type} (less : α → α → Bool) (xs : List α) :
    ∀ acc : List α, (xs.foldl (fun acc x => insertBack less x acc) acc).Perm (xs ++ acc) := by
  induction xs with
  | nil => intro acc; exact List.Perm.refl _
  | cons x xs ih =>
      intro acc
      rw [List.foldl_cons]
      refine (ih _).trans ?_
      refine (List.Perm.append_left xs (insertBack_perm less x acc)).trans ?_
      simp

/-- The sorted slice is a rearrangement of the slice. -/
theorem Slice_perm {α : Type} (less : α → α → Bool) (xs : List α) :
    (Slice less xs).Perm xs := by
  unfold Slice
  refine (List.reverse_perm _).trans ?_
  simpa using foldl_insertBack_perm less xs []

theorem insertBack_head {α : Type} (less : α → α → Bool) (x : α) (acc : List α) :
    ∀ z ∈ (insertBack less x acc).head?, z = x ∨ z ∈ acc.head? := by
  intro z hz
  cases acc with
  | nil => simp [insertBack] at hz; exact Or.inl hz.symm
  | cons y ys =>
      simp only [insertBack] at hz
      split_ifs at hz
      · right; simpa using hz
      · left; simp at hz; exact hz.symm

theorem insertBack_chain {α : Type} (less : α → α → Bool)
    (hasym : ∀ a b, less a b = true → less b a = false) (x : α) (acc : List α)
    (h : acc.Chain' (fun a b => less a b = false)) :
    (insertBack less x acc).Chain' (fun a b => less a b = false) := by
  induction acc with
  | nil => simp [insertBack]
  | cons y ys ih =>
      simp only [insertBack]
      split_ifs with hxy
      · refine List.Chain'.cons' (ih h.tail) ?_
        intro z hz
        rcases insertBack_head less x ys z hz with rfl | hz
        · exact hasym _ _ hxy
        · exact h.rel_head? hz
      · exact List.Chain'.cons (by simpa using hxy) h

theorem foldl_insertBack_chain {α : Type} (less : α → α → Bool)
    (hasym : ∀ a b, less a b = true → less b a = false) (xs : List α) :
    ∀ acc : List α, acc.Chain' (fun a b => less a b = false) →
      (xs.foldl (fun acc x => insertBack less x acc) acc).Chain'
        (fun a b => less a b = false) := by
  induction xs with
  | nil => intro acc h; exact h
  | cons x xs ih =>
      intro acc h
      rw [List.foldl_cons]
      exact ih _ (insertBack_chain less hasym x acc h)

/-- In the sorted slice no element is `less` than the element before it. -/
theorem Slice_chain {α : Type} (less : α → α → Bool)
    (hasym : ∀ a b, less a b = true → less b a = false) (xs : List α) :
    (Slice less xs).Chain' (fun a b => less b a = false) := by
  unfold Slice
  rw [List.chain'_reverse]
  exact foldl_insertBack_chain less hasym xs [] List.chain'_nil

end sort

namespace strconv

theorem roundUnits_ne_nan (neg : Bool) (a b : Nat) : F64.roundUnits neg a b ≠ F64.nan := by
  unfold F64.roundUnits
  dsimp only
  split_ifs <;> simp

theorem floatValue_ne_nan (neg hex : Bool) (mant frac : Nat) (e : Int) :
    floatValue neg hex mant frac e ≠ F64.nan := by
  unfold floatValue
  dsimp only
  split_ifs <;> exact roundUnits_ne_nan _ _ _

theorem finishNumber_ne_nan (neg hex : Bool) (s : List Char) (m : Mant) (r : List Char) :
    (finishNumber neg hex s m r).1 ≠ F64.nan := by
  unfold finishNumber
  dsimp only
  repeat' split
  all_goals first
    | exact floatValue_ne_nan _ _ _ _ _
    | simp [F64.zero]

theorem parseNumber_ne_nan (s : List Char) : (parseNumber s).1 ≠ F64.nan :=
  finishNumber_ne_nan _ _ _ _ _

theorem specialInf_ne_nan (neg : Bool) (s : List Char) (v : F64) (n : Nat)
    (h : specialInf neg s = some (v, n)) : v ≠ F64.nan := by
  unfold specialInf at h
  dsimp only at h
  split_ifs at h <;> simp at h <;> (rw [← h.1]; simp)

/-- `ParseFloat` returns a NaN only for a text that starts with `n` or `N`. -/
theorem ParseFloat_nan (s : List Char) (h : (ParseFloat s).1 = F64.nan) :
    s.head? = some 'n' ∨ s.head? = some 'N' := by
  unfold ParseFloat at h
  cases hs : special s with
  | none =>
      rw [hs] at h
      exact absurd h (parseNumber_ne_nan s)
  | some r =>
      obtain ⟨v, n⟩ := r
      rw [hs] at h
      dsimp only at h
      split_ifs at h
      · dsimp only at h
        subst h
        cases s with
        | nil => simp [special] at hs
        | cons c cs =>
            simp only [special] at hs
            split_ifs at hs with h1 h2 h3 h4
            · cases hi : specialInf false cs with
              | none => simp [hi] at hs
              | some r =>
                  simp [hi] at hs
                  exact absurd hs.1 (specialInf_ne_nan false cs r.1 r.2 (by simp [hi]))
            · cases hi : specialInf true cs with
              | none => simp [hi] at hs
              | some r =>
                  simp [hi] at hs
                  exact absurd hs.1 (specialInf_ne_nan true cs r.1 r.2 (by simp [hi]))
            · exact absurd rfl (specialInf_ne_nan false (c :: cs) _ _ hs)
            · rcases h4 with rfl | rfl <;> simp
      · simp [F64.zero] at h

end strconv

theorem F64.gt_asymm (a b : F64) (h : F64.gt a b = true) : F64.gt b a = false := by
  unfold F64.gt F64.lt at *
  cases ha : F64.key a <;> cases hb : F64.key b <;> simp_all
  omega

theorem F64.ge_of_not_gt (a b : F64) (ha : a.isNaN = false) (hb : b.isNaN = false)
    (h : F64.gt b a = false) : F64.ge a b = true := by
  cases a <;> cases b <;> simp_all [F64.gt, F64.lt, F64.ge, F64.key, F64.isNaN]

theorem F64.isNaN_eq_false (x : F64) (h : x ≠ F64.nan) : x.isNaN = false := by
  cases x <;> simp_all [F64.isNaN]

theorem decimalRe_head (g : List Char) (h : decimalRe.Lang g) :
    ∃ c cs, g = c :: cs ∧ Cls.test .digit c = true := by
  simp only [decimalRe, Re.cat, Re.plus, Re.Lang] at h
  obtain ⟨v, w, rfl, ⟨a, b, rfl, ⟨x, rfl, hx⟩, _⟩, _⟩ := h
  exact ⟨x, b ++ w, by simp, hx⟩

theorem dataRegex_cpu_not_nan (line : List Char) :
    (ParseFloat ((FindStringSubmatch dataRegex line).getD 3 [])).1.isNaN = false := by
  apply F64.isNaN_eq_false
  intro hn
  have hh := ParseFloat_nan _ hn
  have hg := FindStringSubmatch_group dataRegex line 3 (by decide)
  generalize (FindStringSubmatch dataRegex line).getD 3 [] = g at hh hg
  rcases hg with h | h
  · rw [h] at hh
    simp at hh
  · simp only [dataRegex, Re.cat, Re.plus, Re.GroupLang, OfNat.ofNat_ne_one, false_and,
      or_false, false_or, true_and, Nat.reduceEqDiff] at h
    obtain ⟨c, cs, e, hc⟩ := decimalRe_head _ h
    rw [e] at hh
    simp only [List.head?_cons, Option.some.injEq] at hh
    rcases hh with rfl | rfl <;> exact absurd hc (by decide)

theorem processLine_cases (acc : List ProcessMetrics × List Int) (line : List Char) :
    processLine acc line = acc ∨
      ∃ p : ProcessMetrics, processLine acc line = (acc.1 ++ [p], p.ID :: acc.2)
        ∧ p.ID ∉ acc.2 ∧ p.CPUUsage.isNaN = false := by
  unfold processLine
  dsimp only
  split_ifs with h1 h2 h3
  · exact Or.inl rfl
  · exact Or.inl rfl
  · exact Or.inr ⟨_, rfl, h3, dataRegex_cpu_not_nan line⟩
  · exact Or.inl rfl

theorem foldl_processLine_not_nan (lines : List (List Char)) :
    ∀ acc : List ProcessMetrics × List Int, (∀ p ∈ acc.1, p.CPUUsage.isNaN = false) →
      ∀ p ∈ (lines.foldl processLine acc).1, p.CPUUsage.isNaN = false := by
  induction lines with
  | nil => intro acc h; exact h
  | cons l ls ih =>
      intro acc h
      rw [List.foldl_cons]
      apply ih
      rcases processLine_cases acc l with e | ⟨q, e, _, hq⟩
      · rw [e]; exact h
      · rw [e]
        intro p hp
        rcases List.mem_append.mp hp with hp | hp
        · exact h p hp
        · rw [List.mem_singleton.mp hp]; exact hq

theorem foldl_processLine_nodup (lines : List (List Char)) :
    ∀ acc : List ProcessMetrics × List Int,
      (acc.1.map ProcessMetrics.ID).Nodup → (∀ p ∈ acc.1, p.ID ∈ acc.2) →
      ((lines.foldl processLine acc).1.map ProcessMetrics.ID).Nodup := by
  induction lines with
  | nil => intro acc h _; exact h
  | cons l ls ih =>
      intro acc h1 h2
      rw [List.foldl_cons]
      rcases processLine_cases acc l with e | ⟨q, e, hq, _⟩
      · rw [e]; exact ih acc h1 h2
      · rw [e]
        apply ih
        · simp only [List.map_append, List.map_cons, List.map_nil]
          rw [List.nodup_append]
          refine ⟨h1, List.nodup_singleton _, ?_⟩
          intro a ha hb
          rw [List.mem_singleton] at hb
          subst hb
          obtain ⟨p, hp, hpe⟩ := List.mem_map.mp ha
          exact hq (hpe ▸ h2 p hp)
        · intro p hp
          rcases List.mem_append.mp hp with hp | hp
          · exact List.mem_cons_of_mem _ (h2 p hp)
          · rw [List.mem_singleton.mp hp]; exact List.mem_cons_self _ _

theorem process_list_chain (unit : List Char) (prev : List ProcessMetrics)
    (hprev : ∀ p ∈ prev, p.CPUUsage.isNaN = false) :
    (parseProcessMetrics unit prev).Chain'
      (fun a b => F64.ge a.CPUUsage b.CPUUsage = true) := by
  unfold parseProcessMetrics
  dsimp only
  have hn := foldl_processLine_not_nan (SplitLines unit) (prev, []) hprev
  generalize (List.foldl processLine (prev, []) (SplitLines unit)).1 = l at hn
  have hc := sort.Slice_chain (fun a b : ProcessMetrics => F64.gt a.CPUUsage b.CPUUsage)
    (fun a b h => F64.gt_asymm _ _ h) l
  have hm : ∀ p ∈ sort.Slice (fun a b : ProcessMetrics => F64.gt a.CPUUsage b.CPUUsage) l,
      p.CPUUsage.isNaN = false := fun p hp => hn p ((sort.Slice_perm _ l).mem_iff.mp hp)
  generalize sort.Slice (fun a b : ProcessMetrics => F64.gt a.CPUUsage b.CPUUsage) l = r
    at hc hm
  induction r with
  | nil => exact List.chain'_nil
  | cons a t ih =>
      cases t with
      | nil => exact List.chain'_singleton a
      | cons b t2 =>
          rw [List.chain'_cons] at hc ⊢
          exact ⟨F64.ge_of_not_gt _ _ (hm a (by simp)) (hm b (by simp)) hc.1,
            ih hc.2 (fun p hp => hm p (List.mem_cons_of_mem _ hp))⟩

/-- Within one call the process ids are deduplicated: started from the empty list,
`parseProcessMetrics` returns no two records with the same process id, whatever the unit. The
ids seen are tracked per call only (source line 102). -/
theorem process_ids_unique_within_call (unit : List Char) :
    ((parseProcessMetrics unit []).map ProcessMetrics.ID).Nodup := by
  unfold parseProcessMetrics
  dsimp only
  have h := foldl_processLine_nodup (SplitLines unit) ([], []) (by simp) (by simp)
  exact ((sort.Slice_perm _ _).map ProcessMetrics.ID).nodup_iff.mpr h

set_option maxRecDepth 100000 in
/-- C2 fails on the driver's normal path: the same process line fed twice, the second call
starting from the output of the first as `CollectMetrics` does, yields the ids `[123]` after
the first call and `[123, 123]` after the second, two records with the same process id. The
map of seen ids (source line 102) is new in every call and never looks at the records already
in the list. -/
theorem process_ids_repeat_across_units :
    (parseProcessMetrics safariUnit []).map ProcessMetrics.ID = [123]
      ∧ (parseProcessMetrics safariUnit (parseProcessMetrics safariUnit [])).map
        ProcessMetrics.ID = [123, 123]
      ∧ ¬ ((parseProcessMetrics safariUnit (parseProcessMetrics safariUnit [])).map
        ProcessMetrics.ID).Nodup := by
  decide!

/-- C3: for a previous list without NaN, the returned list is in descending order of CPU
usage: the usage of each record is `>=` the usage of the next one. -/
theorem process_list_sorted (unit : List Char) (prev : List ProcessMetrics)
    (hprev : ∀ p ∈ prev, p.CPUUsage.isNaN = false) (i : Nat)
    (h : i + 1 < (parseProcessMetrics unit prev).length) :
    F64.ge ((parseProcessMetrics unit prev).get ⟨i, by omega⟩).CPUUsage
      ((parseProcessMetrics unit prev).get ⟨i + 1, h⟩).CPUUsage = true :=
  List.chain'_iff_get.mp (process_list_chain unit prev hprev) i (by omega)

set_option maxRecDepth 100000 in
theorem threeProcUnit_eval :
    (parseProcessMetrics threeProcUnit []).map ProcessMetrics.ID = [9, 7, 123] := by
  decide!

theorem threeProcUnit_length : (parseProcessMetrics threeProcUnit []).length = 3 := by
  have h := congrArg List.length threeProcUnit_eval
  simpa using h

/-- Three process lines in ascending order of usage, started from the empty list: the first
returned record has a usage `>=` the second. -/
theorem process_list_sorted_witness :
    (∀ p ∈ ([] : List ProcessMetrics), p.CPUUsage.isNaN = false)
      ∧ ∃ h : 0 + 1 < (parseProcessMetrics threeProcUnit []).length,
        F64.ge ((parseProcessMetrics threeProcUnit []).get ⟨0, by omega⟩).CPUUsage
          ((parseProcessMetrics threeProcUnit []).get ⟨0 + 1, h⟩).CPUUsage = true := by
  have h0 : ∀ p ∈ ([] : List ProcessMetrics), p.CPUUsage.isNaN = false := by
    intro p hp
    cases hp
  have h1 : 0 + 1 < (parseProcessMetrics threeProcUnit []).length := by
    rw [threeProcUnit_length]
    decide
  exact ⟨h0, h1, process_list_sorted threeProcUnit [] h0 0 h1⟩

namespace strconv

theorem digit_ne (c x : Char) (h : isDigit c = true) (hx : isDigit x = false) : c ≠ x := by
  intro e
  rw [e, hx] at h
  cases h

theorem digitsVal_nil (a : Nat) : digitsVal a [] = a := rfl

theorem digitsVal_cons (a : Nat) (c : Char) (cs : List Char) :
    digitsVal a (c :: cs) = digitsVal (a * 10 + digitVal c) cs := rfl

theorem digitsVal_append (xs ys : List Char) : ∀ a : Nat,
    digitsVal a (xs ++ ys) = digitsVal (digitsVal a xs) ys := by
  induction xs with
  | nil => intro a; rfl
  | cons x xs ih => intro a; exact ih _

theorem readMant_digits (ds : List Char) : ∀ (sd sg us : Bool) (mant frac : Nat)
    (rest : List Char), (∀ c ∈ ds, isDigit c = true) →
    readMant false ⟨sd, sg, us, mant, frac⟩ (ds ++ rest) =
      readMant false ⟨sd, sg || !ds.isEmpty, us, digitsVal mant ds,
        if sd then frac + ds.length else frac⟩ rest := by
  induction ds with
  | nil =>
      intro sd sg us mant frac rest _
      simp [digitsVal_nil]
  | cons d ds ih =>
      intro sd sg us mant frac rest h
      have hd : isDigit d = true := h d (List.mem_cons_self _ _)
      have h1 : d ≠ '_' := digit_ne d '_' hd (by decide)
      have h2 : d ≠ '.' := digit_ne d '.' hd (by decide)
      rw [List.cons_append, readMant, if_neg h1, if_neg h2, if_pos hd]
      dsimp only
      rw [ih _ _ _ _ _ _ (fun c hc => h c (List.mem_cons_of_mem _ hc))]
      congr 2
      · simp
      · cases sd
        · rfl
        · simp only [if_true, List.length_cons]
          omega

theorem readMant_nil (m : Mant) : readMant false m [] = (m, []) := by
  rw [readMant]

theorem special_digit (d : Char) (cs : List Char) (hd : isDigit d = true) :
    special (d :: cs) = none := by
  rw [special]
  rw [if_neg (digit_ne d '+' hd (by decide)), if_neg (digit_ne d '-' hd (by decide))]
  rw [if_neg (by
    rintro (h | h)
    · exact digit_ne d 'i' hd (by decide) h
    · exact digit_ne d 'I' hd (by decide) h)]
  rw [if_neg (by
    rintro (h | h)
    · exact digit_ne d 'n' hd (by decide) h
    · exact digit_ne d 'N' hd (by decide) h)]

theorem hasHexPrefix_plain (d : Char) (cs : List Char)
    (hc : ∀ c ∈ cs.head?, isDigit c = true ∨ c = '.') : hasHexPrefix (d :: cs) = false := by
  unfold hasHexPrefix
  split
  · rename_i c _ _ heq
    simp only [List.cons.injEq] at heq
    have hcc := hc c (by rw [heq.2]; simp)
    rcases hcc with hcc | hcc
    · simp [digit_ne c 'x' hcc (by decide), digit_ne c 'X' hcc (by decide)]
    · subst hcc; decide
  · rfl

theorem finishNumber_plain (s : List Char) (sd : Bool) (mant frac : Nat) :
    (finishNumber false false s ⟨sd, true, false, mant, frac⟩ []).1
      = floatValue false false mant frac 0 := by
  simp [finishNumber]

/-- A text that starts with a digit carries no sign and, when its second character is a digit
or a dot, no hexadecimal prefix: `parseNumber` runs the mantissa loop on the whole text. -/
theorem parseNumber_plain (d : Char) (cs : List Char) (hd : isDigit d = true)
    (hc : ∀ c ∈ cs.head?, isDigit c = true ∨ c = '.') :
    parseNumber (d :: cs) = finishNumber false false (d :: cs)
      (readMant false ⟨false, false, false, 0, 0⟩ (d :: cs)).1
      (readMant false ⟨false, false, false, 0, 0⟩ (d :: cs)).2 := by
  have n1 : ¬ ((d :: cs).head? = some '+' ∨ (d :: cs).head? = some '-') := by
    simp only [List.head?_cons, Option.some.injEq]
    rintro (h | h)
    · exact digit_ne d '+' hd (by decide) h
    · exact digit_ne d '-' hd (by decide) h
  have n2 : decide ((d :: cs).head? = some '-') = false := by
    simp only [List.head?_cons, Option.some.injEq, decide_eq_false_iff_not]
    exact digit_ne d '-' hd (by decide)
  unfold parseNumber
  dsimp only
  rw [if_neg n1, hasHexPrefix_plain d cs hc, n2]
  rfl

/-- `ParseFloat` on `ip.fp`, both parts decimal digits, the integer part not empty. -/
theorem ParseFloat_decimal (ip fp : List Char) (hne : ip ≠ [])
    (hip : ∀ c ∈ ip, isDigit c = true) (hfp : ∀ c ∈ fp, isDigit c = true) :
    (ParseFloat (ip ++ '.' :: fp)).1 = F64.ofDecimal ip fp := by
  obtain ⟨d, ds, rfl⟩ : ∃ d ds, ip = d :: ds := by
    cases ip with
    | nil => exact absurd rfl hne
    | cons d ds => exact ⟨d, ds, rfl⟩
  have hd : isDigit d = true := hip d (List.mem_cons_self _ _)
  have hr : readMant false ⟨false, false, false, 0, 0⟩ ((d :: ds) ++ '.' :: fp)
      = (⟨true, true, false, digitsVal 0 ((d :: ds) ++ fp), fp.length⟩, []) := by
    rw [readMant_digits (d :: ds) _ _ _ _ _ _ hip]
    rw [readMant, if_neg (by decide), if_pos rfl]
    simp only [Bool.false_eq_true, if_false]
    have := readMant_digits fp true (false || !(d :: ds).isEmpty) false
      (digitsVal 0 (d :: ds)) 0 [] hfp
    rw [List.append_nil] at this
    rw [this, readMant_nil]
    simp only [digitsVal_append, Bool.false_or, List.isEmpty_cons, Bool.not_false,
      Bool.or_true, if_true, Nat.zero_add, Bool.true_or]
  have hc : ∀ c ∈ (ds ++ '.' :: fp).head?, isDigit c = true ∨ c = '.' := by
    intro c hc
    cases ds with
    | nil => right; simpa using hc.symm
    | cons x xs =>
        left
        simp only [List.cons_append, List.head?_cons, Option.mem_def, Option.some.injEq] at hc
        subst hc
        exact hip _ (by simp)
  unfold ParseFloat
  rw [List.cons_append, special_digit d _ hd]
  rw [List.cons_append] at hr
  dsimp only
  rw [parseNumber_plain d (ds ++ '.' :: fp) hd hc, hr]
  exact finishNumber_plain _ _ _ _

/-- `ParseFloat` on a text of decimal digits. -/
theorem ParseFloat_digits (ds : List Char) (hne : ds ≠ [])
    (hds : ∀ c ∈ ds, isDigit c = true) :
    (ParseFloat ds).1 = F64.ofNat (digitsVal 0 ds) := by
  obtain ⟨d, cs, rfl⟩ : ∃ d cs, ds = d :: cs := by
    cases ds with
    | nil => exact absurd rfl hne
    | cons d cs => exact ⟨d, cs, rfl⟩
  have hd : isDigit d = true := hds d (List.mem_cons_self _ _)
  have hr : readMant false ⟨false, false, false, 0, 0⟩ (d :: cs)
      = (⟨false, true, false, digitsVal 0 (d :: cs), 0⟩, []) := by
    have := readMant_digits (d :: cs) false false false 0 0 [] hds
    rw [List.append_nil] at this
    rw [this, readMant_nil]
    simp
  have hc : ∀ c ∈ cs.head?, isDigit c = true ∨ c = '.' := by
    intro c hc
    left
    cases cs with
    | nil => simp at hc
    | cons x xs =>
        simp only [List.head?_cons, Option.mem_def, Option.some.injEq] at hc
        subst hc
        exact hds _ (by simp)
  unfold ParseFloat
  rw [special_digit d _ hd]
  dsimp only
  rw [parseNumber_plain d cs hd hc, hr, finishNumber_plain]
  simp [floatValue, F64.ofNat]

end strconv

namespace strconv

theorem digitsVal_ge (ds : List Char) : ∀ a : Nat, a ≤ digitsVal a ds := by
  induction ds with
  | nil => intro a; exact le_refl _
  | cons c cs ih =>
      intro a
      rw [digitsVal_cons]
      exact le_trans (by omega) (ih _)

theorem parseUintAux_nil (n : Nat) : parseUintAux n [] = (n, ErrKind.ok) := rfl

theorem parseUintAux_cons (n : Nat) (c : Char) (cs : List Char) :
    parseUintAux n (c :: cs) =
      if !isDigit c then (0, ErrKind.malformed)
      else if 1844674407370955162 ≤ n then (18446744073709551615, ErrKind.outOfRange)
      else if 18446744073709551615 < n * 10 + digitVal c then
        (18446744073709551615, ErrKind.outOfRange)
      else parseUintAux (n * 10 + digitVal c) cs := rfl

theorem parseUintAux_digits (ds : List Char) : ∀ n : Nat, n ≤ 18446744073709551615 →
    (∀ c ∈ ds, isDigit c = true) →
    parseUintAux n ds =
      if digitsVal n ds ≤ 18446744073709551615 then (digitsVal n ds, ErrKind.ok)
      else (18446744073709551615, ErrKind.outOfRange) := by
  induction ds with
  | nil =>
      intro n hn _
      rw [parseUintAux_nil, digitsVal_nil, if_pos hn]
  | cons c cs ih =>
      intro n hn h
      have hc : isDigit c = true := h c (List.mem_cons_self _ _)
      rw [parseUintAux_cons, digitsVal_cons]
      simp only [hc, Bool.not_true, Bool.false_eq_true, if_false]
      have hge := digitsVal_ge cs (n * 10 + digitVal c)
      by_cases h1 : 1844674407370955162 ≤ n
      · rw [if_pos h1, if_neg (by omega)]
      · rw [if_neg h1]
        by_cases h2 : 18446744073709551615 < n * 10 + digitVal c
        · rw [if_pos h2, if_neg (by omega)]
        · rw [if_neg h2]
          exact ih _ (by omega) (fun x hx => h x (List.mem_cons_of_mem _ hx))

/-- `Atoi` on a text of decimal digits: the number they spell, or the largest `int` when that
number does not fit. -/
theorem Atoi_digits (ds : List Char) (hne : ds ≠ []) (hds : ∀ c ∈ ds, isDigit c = true) :
    (Atoi ds).1 = min (digitsVal 0 ds : Int) maxInt := by
  obtain ⟨d, cs, rfl⟩ : ∃ d cs, ds = d :: cs := by
    cases ds with
    | nil => exact absurd rfl hne
    | cons d cs => exact ⟨d, cs, rfl⟩
  have hd : isDigit d = true := hds d (List.mem_cons_self _ _)
  have n1 : ¬ ((d :: cs).head? = some '+' ∨ (d :: cs).head? = some '-') := by
    simp only [List.head?_cons, Option.some.injEq]
    rintro (h | h)
    · exact digit_ne d '+' hd (by decide) h
    · exact digit_ne d '-' hd (by decide) h
  have n2 : decide ((d :: cs).head? = some '-') = false := by
    simp only [List.head?_cons, Option.some.injEq, decide_eq_false_iff_not]
    exact digit_ne d '-' hd (by decide)
  have n3 : ¬ (d :: cs).head? = some '-' := fun h => n1 (Or.inr h)
  unfold Atoi
  dsimp only
  rw [if_neg n1, n2, parseUintAux_digits (d :: cs) 0 (by omega) hds]
  generalize digitsVal 0 (d :: cs) = v
  simp only [List.isEmpty_cons, Bool.false_eq_true, if_false, Bool.not_false, Bool.true_and,
    Bool.false_and, maxInt, n3]
  by_cases hv : v ≤ 18446744073709551615
  · rw [if_pos hv]
    dsimp only
    by_cases hv2 : 9223372036854775808 ≤ v
    · simp only [hv2, decide_True, if_true]
      omega
    · simp only [hv2, decide_False, Bool.false_eq_true, if_false]
      omega
  · rw [if_neg hv]
    dsimp only
    simp only [Nat.reduceLeDiff, decide_True, if_true]
    omega

theorem digitChar_digit (k : Nat) (hk : k < 10) :
    isDigit (Nat.digitChar k) = true ∧ digitVal (Nat.digitChar k) = k := by
  interval_cases k <;> exact ⟨rfl, rfl⟩

theorem toDigitsCore_digits : ∀ (fuel n : Nat) (ds : List Char), n < fuel →
    ∃ l, Nat.toDigitsCore 10 fuel n ds = l ++ ds ∧ l ≠ [] ∧ (∀ c ∈ l, isDigit c = true)
      ∧ digitsVal 0 l = n := by
  intro fuel
  induction fuel with
  | zero => intro n ds h; omega
  | succ f ih =>
      intro n ds hn
      have hd := digitChar_digit (n % 10) (Nat.mod_lt _ (by decide))
      rw [Nat.toDigitsCore]
      by_cases h0 : n / 10 = 0
      · rw [if_pos h0]
        refine ⟨[Nat.digitChar (n % 10)], rfl, by simp, ?_, ?_⟩
        · intro c hc
          rw [List.mem_singleton.mp hc]
          exact hd.1
        · rw [digitsVal_cons, digitsVal_nil, hd.2]
          omega
      · rw [if_neg h0]
        obtain ⟨l, e, _, hl, hv⟩ := ih (n / 10) (Nat.digitChar (n % 10) :: ds) (by omega)
        refine ⟨l ++ [Nat.digitChar (n % 10)], by rw [e]; simp, by simp, ?_, ?_⟩
        · intro c hc
          rcases List.mem_append.mp hc with hc | hc
          · exact hl c hc
          · rw [List.mem_singleton.mp hc]
            exact hd.1
        · rw [digitsVal_append, hv, digitsVal_cons, digitsVal_nil, hd.2]
          omega

/-- The decimal text of a natural number is a non-empty text of digits that spells it. -/
theorem repr_digits (n : Nat) :
    (Nat.repr n).toList ≠ [] ∧ (∀ c ∈ (Nat.repr n).toList, isDigit c = true)
      ∧ digitsVal 0 (Nat.repr n).toList = n := by
  obtain ⟨l, e, hne, hl, hv⟩ := toDigitsCore_digits (n + 1) n [] (by omega)
  have e2 : (Nat.repr n).toList = l := by
    show Nat.toDigits 10 n = l
    rw [Nat.toDigits, e, List.append_nil]
  rw [e2]
  exact ⟨hne, hl, hv⟩

theorem finishNumber_malformed (neg hex : Bool) (s : List Char) (m : Mant) (r : List Char)
    (h : (finishNumber neg hex s m r).2 = ErrKind.malformed) :
    (finishNumber neg hex s m r).1 = F64.zero := by
  revert h
  unfold finishNumber
  dsimp only
  repeat' split
  all_goals first
    | (intro _; rfl)
    | (intro h; cases h)

/-- On a syntax error `ParseFloat` returns the value 0. -/
theorem ParseFloat_malformed (s : List Char) (h : (ParseFloat s).2 = ErrKind.malformed) :
    (ParseFloat s).1 = F64.zero := by
  revert h
  unfold ParseFloat
  cases special s with
  | none => exact finishNumber_malformed _ _ _ _ _
  | some r =>
      obtain ⟨v, n⟩ := r
      dsimp only
      split_ifs
      · intro h; cases h
      · intro _; rfl

end strconv

namespace strings

theorem SplitLines_single (s : List Char) (h : '\n' ∉ s) : SplitLines s = [s] := by
  induction s with
  | nil => rfl
  | cons c cs ih =>
      have hc : c ≠ '\n' := fun e => h (by rw [e]; exact List.mem_cons_self _ _)
      have ht : '\n' ∉ cs := fun e => h (List.mem_cons_of_mem _ e)
      rw [SplitLines, if_neg hc, ih ht]

theorem Contains_cons (c : Char) (cs sub : List Char) :
    Contains (c :: cs) sub = (sub.isPrefixOf (c :: cs) || Contains cs sub) := rfl

theorem Contains_of_prefix (s sub : List Char) (h : sub.isPrefixOf s = true) :
    Contains s sub = true := by
  cases s with
  | nil =>
      cases sub with
      | nil => rfl
      | cons a as => simp at h
  | cons c cs => rw [Contains_cons, h]; rfl

theorem Contains_append_right (pre s sub : List Char) (h : Contains s sub = true) :
    Contains (pre ++ s) sub = true := by
  induction pre with
  | nil => exact h
  | cons p ps ih => rw [List.cons_append, Contains_cons, ih, Bool.or_true]

theorem isPrefixOf_mem (sub s : List Char) (h : sub.isPrefixOf s = true) (c : Char)
    (hc : c ∈ sub) : c ∈ s := by
  rw [List.isPrefixOf_iff_prefix] at h
  exact h.subset hc

/-- A text that lacks one of the characters of `sub` does not contain `sub`. -/
theorem Contains_eq_false_of_not_mem (s sub : List Char) (c : Char) (hc : c ∈ sub)
    (hs : c ∉ s) : Contains s sub = false := by
  induction s with
  | nil =>
      cases sub with
      | nil => simp at hc
      | cons a as => rfl
  | cons x xs ih =>
      rw [Contains_cons, ih (fun e => hs (List.mem_cons_of_mem _ e)), Bool.or_false]
      cases hp : sub.isPrefixOf (x :: xs) with
      | false => rfl
      | true => exact absurd (isPrefixOf_mem _ _ hp c hc) hs

theorem isPrefixOf_append_false (sub x t : List Char)
    (h : sub.take x.length ≠ x.take sub.length) : sub.isPrefixOf (x ++ t) = false := by
  cases hp : sub.isPrefixOf (x ++ t) with
  | false => rfl
  | true =>
      exfalso
      apply h
      rw [List.isPrefixOf_iff_prefix] at hp
      obtain ⟨r, hr⟩ := hp
      have h1 : (sub ++ r).take (min x.length sub.length) = (x ++ t).take (min x.length sub.length) := by
        rw [hr]
      rw [List.take_append_of_le_length (Nat.min_le_right _ _),
        List.take_append_of_le_length (Nat.min_le_left _ _)] at h1
      have h2 : sub.take x.length = sub.take (min x.length sub.length) := by
        rw [List.take_eq_take]
        simp
      have h3 : x.take sub.length = x.take (min x.length sub.length) := by
        rw [List.take_eq_take]
        simp [Nat.min_comm]
      rw [h2, h3, h1]

/-- No occurrence of `sub` starts inside `pre`, whatever follows, and none lies in `tail`. -/
theorem Contains_append_false (sub tail : List Char) (htail : Contains tail sub = false) :
    ∀ pre : List Char,
      (∀ i, i < pre.length → sub.take (pre.length - i) ≠ (pre.drop i).take sub.length) →
      Contains (pre ++ tail) sub = false := by
  intro pre
  induction pre with
  | nil => intro _; exact htail
  | cons p ps ih =>
      intro h
      rw [List.cons_append, Contains_cons, ← List.cons_append,
        isPrefixOf_append_false sub (p :: ps) tail (by simpa using h 0 (by simp))]
      rw [Bool.false_or]
      apply ih
      intro i hi
      have := h (i + 1) (by simp; omega)
      simpa using this

theorem fieldsAux_run (w : List Char) : ∀ (cur rest : List Char),
    (∀ c ∈ w, isSpace c = false) → fieldsAux cur (w ++ rest) = fieldsAux (w.reverse ++ cur) rest := by
  induction w with
  | nil => intro cur rest _; rfl
  | cons x xs ih =>
      intro cur rest h
      have hx : isSpace x = false := h x (List.mem_cons_self _ _)
      rw [List.cons_append, fieldsAux]
      simp only [hx, Bool.false_eq_true, if_false]
      rw [ih _ _ (fun c hc => h c (List.mem_cons_of_mem _ hc))]
      simp

/-- A field followed by a space character. -/
theorem fieldsAux_token (w rest : List Char) (sp : Char) (hne : w ≠ [])
    (hw : ∀ c ∈ w, isSpace c = false) (hsp : isSpace sp = true) :
    fieldsAux [] (w ++ sp :: rest) = w :: fieldsAux [] rest := by
  rw [fieldsAux_run w [] _ hw, fieldsAux]
  simp only [hsp, if_true, List.append_nil, List.isEmpty_eq_true, List.reverse_eq_nil_iff, hne,
    if_false, List.reverse_reverse]

/-- The last field of a text. -/
theorem fieldsAux_last (w : List Char) (hne : w ≠ []) (hw : ∀ c ∈ w, isSpace c = false) :
    fieldsAux [] w = [w] := by
  have := fieldsAux_run w [] [] hw
  rw [List.append_nil] at this
  rw [this, fieldsAux]
  simp only [List.append_nil, List.isEmpty_eq_true, List.reverse_eq_nil_iff, hne, if_false,
    List.reverse_reverse]

theorem TrimSuffix_of_not_suffix (s suf : List Char) (h : suf.isSuffixOf s = false) :
    TrimSuffix s suf = s := by
  unfold TrimSuffix
  rw [h]
  rfl

end strings

theorem aggregate_ANEW (st : Locals) : (aggregate st).ANEW = st.cpuMetrics.ANEW := by
  unfold aggregate; dsimp only; split_ifs <;> rfl

theorem aggregate_CPUW (st : Locals) : (aggregate st).CPUW = st.cpuMetrics.CPUW := by
  unfold aggregate; dsimp only; split_ifs <;> rfl

theorem aggregate_GPUW (st : Locals) : (aggregate st).GPUW = st.cpuMetrics.GPUW := by
  unfold aggregate; dsimp only; split_ifs <;> rfl

theorem aggregate_PackageW (st : Locals) :
    (aggregate st).PackageW = st.cpuMetrics.PackageW := by
  unfold aggregate; dsimp only; split_ifs <;> rfl

theorem residencyStep_nomatch (st : Locals) (line : List Char)
    (h : FindStringSubmatch residencyRe line = []) : residencyStep st line = st := by
  unfold residencyStep
  dsimp only
  rw [if_neg (not_not.mpr h)]

theorem frequencyStep_nomatch (st : Locals) (line : List Char)
    (h : FindStringSubmatch frequencyRe line = []) : frequencyStep st line = st := by
  unfold frequencyStep
  dsimp only
  rw [if_neg (not_not.mpr h)]

theorem coreResidencyStep_nomatch (out : List Char) (st : Locals) (i : Nat)
    (h : FindStringSubmatch (coreResidencyRe i) out = []) : coreResidencyStep out st i = st := by
  unfold coreResidencyStep
  dsimp only
  rw [h]
  rfl

theorem coreFrequencyStep_nomatch (out : List Char) (st : Locals) (i : Nat)
    (h : FindStringSubmatch (coreFrequencyRe i) out = []) : coreFrequencyStep out st i = st := by
  unfold coreFrequencyStep
  dsimp only
  rw [h]
  rfl

theorem foldl_const {α β : Type} (f : α → β → α) (a : α) (l : List β)
    (h : ∀ x b, f x b = x) : l.foldl f a = a := by
  induction l with
  | nil => rfl
  | cons b bs ih => rw [List.foldl_cons, h, ih]

theorem acceptMeans_zero (st : Locals) (he : st.eClusterCount = 0) (hp : st.pClusterCount = 0) :
    acceptMeans st = st := by
  cases st
  simp only at he hp
  subst he hp
  simp only [acceptMeans, lt_self_iff_false, decide_False, Bool.false_and, Bool.false_eq_true,
    if_false]

/-- A line without `%` and `q` matches none of the per-core patterns: the workaround loop
body reduces to the power chain. -/
theorem workaroundLine_plain (model out line : List Char) (prev : CPUMetrics)
    (h1 : '%' ∉ out) (h2 : 'q' ∉ out) :
    workaroundLine model out (Locals.init prev) line
      = coresAndPower (Locals.init prev) line := by
  unfold workaroundLine
  dsimp only
  rw [foldl_const (coreResidencyStep out) _ _ (fun x i => coreResidencyStep_nomatch out x i
    (FindStringSubmatch_eq_nil_of_needs _ out '%'
      (by simp [coreResidencyRe, Re.cat, Re.needs]) h1))]
  rw [foldl_const (coreFrequencyStep out) _ _ (fun x i => coreFrequencyStep_nomatch out x i
    (FindStringSubmatch_eq_nil_of_needs _ out 'q'
      (by simp [coreFrequencyRe, Re.cat, Re.needs]) h2))]
  rw [acceptMeans_zero _ rfl rfl]

/-- A line without `-` matches neither cluster pattern: the standard loop body reduces to the
power chain. -/
theorem standardLine_plain (st : Locals) (line : List Char) (h : '-' ∉ line) :
    standardLine st line = coresAndPower st line := by
  unfold standardLine
  rw [residencyStep_nomatch st line
    (FindStringSubmatch_eq_nil_of_needs _ line '-' (by decide) h)]
  rw [frequencyStep_nomatch st line
    (FindStringSubmatch_eq_nil_of_needs _ line '-' (by decide) h)]

/-- The power fields returned for a one-line unit without `-`, `%`, `q` and line feed are
those the power chain leaves, on every model. -/
theorem parseCPUMetrics_power_line (line : List Char) (prev : CPUMetrics) (model : List Char)
    (h0 : '\n' ∉ line) (h1 : '-' ∉ line) (h2 : '%' ∉ line) (h3 : 'q' ∉ line) :
    (parseCPUMetrics line prev model).ANEW
        = (coresAndPower (Locals.init prev) line).cpuMetrics.ANEW
      ∧ (parseCPUMetrics line prev model).CPUW
        = (coresAndPower (Locals.init prev) line).cpuMetrics.CPUW
      ∧ (parseCPUMetrics line prev model).GPUW
        = (coresAndPower (Locals.init prev) line).cpuMetrics.GPUW
      ∧ (parseCPUMetrics line prev model).PackageW
        = (coresAndPower (Locals.init prev) line).cpuMetrics.PackageW := by
  unfold parseCPUMetrics
  dsimp only
  rw [SplitLines_single line h0]
  simp only [List.foldl_cons, List.foldl_nil]
  split_ifs
  · rw [workaroundLine_plain model line line prev h2 h3]
    exact ⟨rfl, rfl, rfl, rfl⟩
  · rw [standardLine_plain _ line h1]
    exact ⟨aggregate_ANEW _, aggregate_CPUW _, aggregate_GPUW _, aggregate_PackageW _⟩

theorem reading_not_mem (t : List Char) (ht : ∀ c ∈ t, readingChar c = true) (x : Char)
    (hx : readingChar x = false) : x ∉ t := by
  intro h
  rw [ht x h] at hx
  cases hx

theorem reading_not_space (t : List Char) (ht : ∀ c ∈ t, readingChar c = true) :
    ∀ c ∈ t, isSpace c = false := by
  intro c hc
  have := ht c hc
  unfold readingChar at this
  simp only [Bool.and_eq_true, Bool.not_eq_true'] at this
  exact this.1.1.1.1.1.1

theorem powerLine_not_mem (label t : List Char) (c : Char) (h1 : c ∉ label) (h2 : c ≠ ' ')
    (h3 : c ∉ t) (h4 : c ∉ " mW".toList) : c ∉ powerLine label t := by
  unfold powerLine
  simp only [List.mem_append, List.mem_cons, not_or]
  exact ⟨h1, h2, h3, h4⟩

theorem Contains_prefix_append (a r : List Char) : Contains (a ++ r) a = true :=
  Contains_of_prefix _ _ (List.isPrefixOf_iff_prefix.mpr (List.prefix_append a r))

theorem Fields_three (a b t : List Char) (ha : a ≠ []) (hb : b ≠ [])
    (ht : t ≠ []) (has : ∀ c ∈ a, isSpace c = false) (hbs : ∀ c ∈ b, isSpace c = false)
    (hts : ∀ c ∈ t, isSpace c = false) :
    Fields (a ++ ' ' :: (b ++ ' ' :: (t ++ " mW".toList))) = [a, b, t, "mW".toList] := by
  unfold Fields
  rw [fieldsAux_token a _ ' ' ha has (by decide), fieldsAux_token b _ ' ' hb hbs (by decide)]
  have e : t ++ " mW".toList = t ++ ' ' :: "mW".toList := rfl
  rw [e, fieldsAux_token t _ ' ' ht hts (by decide),
    fieldsAux_last "mW".toList (by decide) (by decide)]

/-- The power chain on a `CPU Power:` record. -/
theorem coresAndPower_cpu (st : Locals) (t : List Char) (hne : t ≠ [])
    (ht : ∀ c ∈ t, readingChar c = true) :
    (coresAndPower st (powerLine "CPU Power:".toList t)).cpuMetrics.CPUW
      = milliwattsToWatts t := by
  have hq : 'q' ∉ powerLine "CPU Power:".toList t :=
    powerLine_not_mem _ _ _ (by decide) (by decide) (reading_not_mem t ht _ (by decide))
      (by decide)
  have hA : 'A' ∉ powerLine "CPU Power:".toList t :=
    powerLine_not_mem _ _ _ (by decide) (by decide) (reading_not_mem t ht _ (by decide))
      (by decide)
  have c1 : Contains (powerLine "CPU Power:".toList t) "frequency".toList = false :=
    Contains_eq_false_of_not_mem _ _ 'q' (by decide) hq
  have c2 : Contains (powerLine "CPU Power:".toList t) "ANE Power".toList = false :=
    Contains_eq_false_of_not_mem _ _ 'A' (by decide) hA
  have c3 : Contains (powerLine "CPU Power:".toList t) "CPU Power".toList = true :=
    Contains_prefix_append "CPU Power".toList _
  have hf : Fields (powerLine "CPU Power:".toList t)
      = ["CPU".toList, "Power:".toList, t, "mW".toList] :=
    Fields_three "CPU".toList "Power:".toList t (by decide) (by decide) hne (by decide)
      (by decide) (reading_not_space t ht)
  unfold coresAndPower
  simp only [c1, c2, c3, hf, Bool.and_false, Bool.false_eq_true, if_false, if_true,
    List.length_cons, List.length_nil, Nat.reduceAdd, Nat.reduceLeDiff, List.getD_cons_succ,
    List.getD_cons_zero]

/-- The power chain on an `ANE Power:` record. -/
theorem coresAndPower_ane (st : Locals) (t : List Char) (hne : t ≠ [])
    (ht : ∀ c ∈ t, readingChar c = true) :
    (coresAndPower st (powerLine "ANE Power:".toList t)).cpuMetrics.ANEW
      = milliwattsToWatts t := by
  have hC : 'C' ∉ powerLine "ANE Power:".toList t :=
    powerLine_not_mem _ _ _ (by decide) (by decide) (reading_not_mem t ht _ (by decide))
      (by decide)
  have c1 : Contains (powerLine "ANE Power:".toList t) "CPU ".toList = false :=
    Contains_eq_false_of_not_mem _ _ 'C' (by decide) hC
  have c2 : Contains (powerLine "ANE Power:".toList t) "ANE Power".toList = true :=
    Contains_prefix_append "ANE Power".toList _
  have hf : Fields (powerLine "ANE Power:".toList t)
      = ["ANE".toList, "Power:".toList, t, "mW".toList] :=
    Fields_three "ANE".toList "Power:".toList t (by decide) (by decide) hne (by decide)
      (by decide) (reading_not_space t ht)
  unfold coresAndPower
  simp only [c1, c2, hf, Bool.false_and, Bool.false_eq_true, if_false, if_true,
    List.length_cons, List.length_nil, Nat.reduceAdd, Nat.reduceLeDiff, List.getD_cons_succ,
    List.getD_cons_zero]

/-- The power chain on a `GPU Power:` record. -/
theorem coresAndPower_gpu (st : Locals) (t : List Char) (hne : t ≠ [])
    (ht : ∀ c ∈ t, readingChar c = true) :
    (coresAndPower st (powerLine "GPU Power:".toList t)).cpuMetrics.GPUW
      = milliwattsToWatts t := by
  have hC : 'C' ∉ powerLine "GPU Power:".toList t :=
    powerLine_not_mem _ _ _ (by decide) (by decide) (reading_not_mem t ht _ (by decide))
      (by decide)
  have hA : 'A' ∉ powerLine "GPU Power:".toList t :=
    powerLine_not_mem _ _ _ (by decide) (by decide) (reading_not_mem t ht _ (by decide))
      (by decide)
  have c1 : Contains (powerLine "GPU Power:".toList t) "CPU ".toList = false :=
    Contains_eq_false_of_not_mem _ _ 'C' (by decide) hC
  have c2 : Contains (powerLine "GPU Power:".toList t) "ANE Power".toList = false :=
    Contains_eq_false_of_not_mem _ _ 'A' (by decide) hA
  have c3 : Contains (powerLine "GPU Power:".toList t) "CPU Power".toList = false :=
    Contains_eq_false_of_not_mem _ _ 'C' (by decide) hC
  have c4 : Contains (powerLine "GPU Power:".toList t) "GPU Power".toList = true :=
    Contains_prefix_append "GPU Power".toList _
  have hf : Fields (powerLine "GPU Power:".toList t)
      = ["GPU".toList, "Power:".toList, t, "mW".toList] :=
    Fields_three "GPU".toList "Power:".toList t (by decide) (by decide) hne (by decide)
      (by decide) (reading_not_space t ht)
  unfold coresAndPower
  simp only [c1, c2, c3, c4, hf, Bool.false_and, Bool.false_eq_true, if_false, if_true,
    List.length_cons, List.length_nil, Nat.reduceAdd, Nat.reduceLeDiff, List.getD_cons_succ,
    List.getD_cons_zero]

theorem Fields_combined (t : List Char) (ht : t ≠ [])
    (hts : ∀ c ∈ t, isSpace c = false) :
    Fields (powerLine "Combined Power (CPU + GPU + ANE):".toList t)
      = ["Combined".toList, "Power".toList, "(CPU".toList, "+".toList, "GPU".toList,
          "+".toList, "ANE):".toList, t, "mW".toList] := by
  have e : powerLine "Combined Power (CPU + GPU + ANE):".toList t
      = "Combined".toList ++ ' ' :: ("Power".toList ++ ' ' :: ("(CPU".toList ++ ' ' ::
          ("+".toList ++ ' ' :: ("GPU".toList ++ ' ' :: ("+".toList ++ ' ' ::
            ("ANE):".toList ++ ' ' :: (t ++ ' ' :: "mW".toList))))))) := rfl
  rw [e]
  unfold Fields
  rw [fieldsAux_token "Combined".toList _ ' ' (by decide) (by decide) (by decide),
    fieldsAux_token "Power".toList _ ' ' (by decide) (by decide) (by decide),
    fieldsAux_token "(CPU".toList _ ' ' (by decide) (by decide) (by decide),
    fieldsAux_token "+".toList _ ' ' (by decide) (by decide) (by decide),
    fieldsAux_token "GPU".toList _ ' ' (by decide) (by decide) (by decide),
    fieldsAux_token "+".toList _ ' ' (by decide) (by decide) (by decide),
    fieldsAux_token "ANE):".toList _ ' ' (by decide) (by decide) (by decide),
    fieldsAux_token t _ ' ' ht hts (by decide),
    fieldsAux_last "mW".toList (by decide) (by decide)]

theorem Contains_combined_false (t sub : List Char) (c : Char) (hc : c ∈ sub)
    (h1 : c ∉ t) (h2 : c ∉ " mW".toList)
    (h3 : ∀ i, i < "Combined Power (CPU + GPU + ANE): ".toList.length →
      sub.take ("Combined Power (CPU + GPU + ANE): ".toList.length - i)
        ≠ ("Combined Power (CPU + GPU + ANE): ".toList.drop i).take sub.length) :
    Contains (powerLine "Combined Power (CPU + GPU + ANE):".toList t) sub = false := by
  have e : powerLine "Combined Power (CPU + GPU + ANE):".toList t
      = "Combined Power (CPU + GPU + ANE): ".toList ++ (t ++ " mW".toList) := rfl
  rw [e]
  apply Contains_append_false sub _ _ _ h3
  apply Contains_eq_false_of_not_mem _ _ c hc
  simp only [List.mem_append, not_or]
  exact ⟨h1, h2⟩

/-- The power chain on a `Combined Power (CPU + GPU + ANE):` record. -/
theorem coresAndPower_combined (st : Locals) (t : List Char) (hne : t ≠ [])
    (ht : ∀ c ∈ t, readingChar c = true) :
    (coresAndPower st (powerLine "Combined Power (CPU + GPU + ANE):".toList t)).cpuMetrics.PackageW
      = milliwattsToWatts t := by
  have hq : 'q' ∉ powerLine "Combined Power (CPU + GPU + ANE):".toList t :=
    powerLine_not_mem _ _ _ (by decide) (by decide) (reading_not_mem t ht _ (by decide))
      (by decide)
  have c1 : Contains (powerLine "Combined Power (CPU + GPU + ANE):".toList t)
      "frequency".toList = false :=
    Contains_eq_false_of_not_mem _ _ 'q' (by decide) hq
  have c2 : Contains (powerLine "Combined Power (CPU + GPU + ANE):".toList t)
      "ANE Power".toList = false :=
    Contains_combined_false t _ 'A' (by decide) (reading_not_mem t ht _ (by decide))
      (by decide) (by decide)
  have c3 : Contains (powerLine "Combined Power (CPU + GPU + ANE):".toList t)
      "CPU Power".toList = false :=
    Contains_combined_false t _ 'C' (by decide) (reading_not_mem t ht _ (by decide))
      (by decide) (by decide)
  have c4 : Contains (powerLine "Combined Power (CPU + GPU + ANE):".toList t)
      "GPU Power".toList = false :=
    Contains_combined_false t _ 'G' (by decide) (reading_not_mem t ht _ (by decide))
      (by decide) (by decide)
  have c5 : Contains (powerLine "Combined Power (CPU + GPU + ANE):".toList t)
      "Combined Power (CPU + GPU + ANE)".toList = true :=
    Contains_prefix_append "Combined Power (CPU + GPU + ANE)".toList _
  have hf := Fields_combined t hne (reading_not_space t ht)
  unfold coresAndPower
  simp only [c1, c2, c3, c4, c5, hf, Bool.and_false, Bool.false_eq_true, if_false, if_true,
    List.length_cons, List.length_nil, Nat.reduceAdd, Nat.reduceLeDiff, List.getD_cons_succ,
    List.getD_cons_zero]

/-- A power record with a well-formed reading has no line feed, `-`, `%` or `q`. -/
theorem powerLine_plain (label t : List Char) (ht : ∀ c ∈ t, readingChar c = true)
    (h0 : '\n' ∉ label) (h1 : '-' ∉ label) (h2 : '%' ∉ label) (h3 : 'q' ∉ label) :
    '\n' ∉ powerLine label t ∧ '-' ∉ powerLine label t ∧ '%' ∉ powerLine label t
      ∧ 'q' ∉ powerLine label t :=
  ⟨powerLine_not_mem _ _ _ h0 (by decide) (reading_not_mem t ht _ (by decide)) (by decide),
    powerLine_not_mem _ _ _ h1 (by decide) (reading_not_mem t ht _ (by decide)) (by decide),
    powerLine_not_mem _ _ _ h2 (by decide) (reading_not_mem t ht _ (by decide)) (by decide),
    powerLine_not_mem _ _ _ h3 (by decide) (reading_not_mem t ht _ (by decide)) (by decide)⟩

/-- The four power fields on every model: a unit made of one power record with a well-formed
reading returns the watts of that reading in the field of the record. -/
theorem parseCPUMetrics_power (t : List Char) (prev : CPUMetrics) (model : List Char)
    (hne : t ≠ []) (ht : ∀ c ∈ t, readingChar c = true) :
    (parseCPUMetrics (powerLine "CPU Power:".toList t) prev model).CPUW = milliwattsToWatts t
      ∧ (parseCPUMetrics (powerLine "ANE Power:".toList t) prev model).ANEW
          = milliwattsToWatts t
      ∧ (parseCPUMetrics (powerLine "GPU Power:".toList t) prev model).GPUW
          = milliwattsToWatts t
      ∧ (parseCPUMetrics (powerLine "Combined Power (CPU + GPU + ANE):".toList t) prev
          model).PackageW = milliwattsToWatts t := by
  refine ⟨?_, ?_, ?_, ?_⟩
  · obtain ⟨a, b, c, d⟩ := powerLine_plain "CPU Power:".toList t ht (by decide) (by decide)
      (by decide) (by decide)
    rw [(parseCPUMetrics_power_line _ prev model a b c d).2.1]
    exact coresAndPower_cpu _ t hne ht
  · obtain ⟨a, b, c, d⟩ := powerLine_plain "ANE Power:".toList t ht (by decide) (by decide)
      (by decide) (by decide)
    rw [(parseCPUMetrics_power_line _ prev model a b c d).1]
    exact coresAndPower_ane _ t hne ht
  · obtain ⟨a, b, c, d⟩ := powerLine_plain "GPU Power:".toList t ht (by decide) (by decide)
      (by decide) (by decide)
    rw [(parseCPUMetrics_power_line _ prev model a b c d).2.2.1]
    exact coresAndPower_gpu _ t hne ht
  · obtain ⟨a, b, c, d⟩ := powerLine_plain "Combined Power (CPU + GPU + ANE):".toList t ht
      (by decide) (by decide) (by decide) (by decide)
    rw [(parseCPUMetrics_power_line _ prev model a b c d).2.2.2]
    exact coresAndPower_combined _ t hne ht

theorem isSpace_digit (c : Char) (h : isDigit c = true) : isSpace c = false := by
  unfold isDigit at h
  unfold isSpace
  simp only [Bool.and_eq_true, decide_eq_true_eq] at h
  simp only [Bool.or_eq_false_iff, Bool.and_eq_false_imp, decide_eq_true_eq,
    decide_eq_false_iff_not]
  omega

theorem readingChar_digit (c : Char) (h : isDigit c = true) : readingChar c = true := by
  unfold readingChar
  simp only [isSpace_digit c h, Bool.not_false, Bool.true_and, Bool.and_eq_true, bne_iff_ne,
    ne_eq]
  exact ⟨⟨⟨⟨⟨digit_ne c '-' h (by decide), digit_ne c '%' h (by decide)⟩,
    digit_ne c 'q' h (by decide)⟩, digit_ne c 'A' h (by decide)⟩,
    digit_ne c 'C' h (by decide)⟩, digit_ne c 'G' h (by decide)⟩

theorem TrimSuffix_digits (t : List Char) (ht : ∀ c ∈ t, isDigit c = true) :
    TrimSuffix t "mW".toList = t := by
  apply TrimSuffix_of_not_suffix
  cases h : "mW".toList.isSuffixOf t with
  | false => rfl
  | true =>
      rw [List.isSuffixOf_iff_suffix] at h
      have : 'W' ∈ t := h.subset (by decide)
      exact absurd (ht _ this) (by decide)

/-- The watts of a reading made of decimal digits. -/
theorem milliwattsToWatts_digits (t : List Char) (hne : t ≠ [])
    (ht : ∀ c ∈ t, isDigit c = true) :
    milliwattsToWatts t = F64.div (F64.ofNat (digitsVal 0 t)) (F64.ofNat 1000) := by
  unfold milliwattsToWatts
  rw [TrimSuffix_digits t ht, ParseFloat_digits t hne ht]

theorem watts_2500 :
    F64.div (F64.ofNat 2500) (F64.ofNat 1000) = F64.fin false (5 * 2 ^ 1073) := by
  decide!

/-- The example of the specification: `CPU Power: 2500 mW` gives 2.5 watts, which is
`5 * 2^1073` units of `2^(-1074)`. -/
theorem cpu_power_2500 (prev : CPUMetrics) (model : List Char) :
    (parseCPUMetrics "CPU Power: 2500 mW".toList prev model).CPUW
      = F64.fin false (5 * 2 ^ 1073) := by
  have h := (parseCPUMetrics_power "2500".toList prev model (by decide) (by decide)).1
  rw [milliwattsToWatts_digits _ (by decide) (by decide)] at h
  rw [← watts_2500]
  exact h

namespace regexp

theorem stopsAt_cons (c : Cls) (y : Char) (ys : List Char) (h : c.test y = false) :
    stopsAt c (y :: ys) := by
  intro z hz
  simp only [List.head?_cons, Option.mem_def, Option.some.injEq] at hz
  rw [← hz]
  exact h

theorem stopsAt_nil (c : Cls) : stopsAt c [] := by
  intro z hz
  simp at hz

theorem stopsAt_append (c : Cls) (xs ys : List Char) (hne : xs ≠ [])
    (h : ∀ x ∈ xs, c.test x = false) : stopsAt c (xs ++ ys) := by
  cases xs with
  | nil => exact absurd rfl hne
  | cons x t => exact stopsAt_cons c x _ (h x (List.mem_cons_self _ _))

/-- What `FindStringSubmatch` returns when the pattern matches at the start of the text and
reads all of it. -/
theorem FindStringSubmatch_of_mt (re : Re) (s : List Char) (st : MState)
    (h : mt re ⟨none, s, []⟩ some = some st) (hr : st.rest = []) :
    FindStringSubmatch re s
      = s :: (List.range re.numGroups).map (fun i => (st.caps.lookup (i + 1)).getD []) := by
  unfold FindStringSubmatch
  rw [searchFrom_hit re s none st h, hr]
  simp

theorem mt_group_plus_run (i : Nat) (c : Cls) (xs ys : List Char) (p : Option Char)
    (cs : List (Nat × List Char)) (k : MState → Option MState) (R : MState)
    (hne : xs ≠ []) (hx : ∀ x ∈ xs, c.test x = true) (hy : stopsAt c ys)
    (hk : k ⟨lastOr p xs, ys, (i, xs) :: cs⟩ = some R) :
    mt (Re.group i (Re.plus c)) ⟨p, xs ++ ys, cs⟩ k = some R := by
  rw [mt_group_run]
  apply mt_plus_run _ _ _ _ _ _ _ hne hx hy
  dsimp only
  rw [take_length_sub_append]
  exact hk

theorem mt_star_one (c : Cls) (x : Char) (ys : List Char) (p : Option Char)
    (cs : List (Nat × List Char)) (k : MState → Option MState) (R : MState)
    (hx : c.test x = true) (hy : stopsAt c ys)
    (hk : k ⟨some x, ys, cs⟩ = some R) : mt (Re.star c) ⟨p, x :: ys, cs⟩ k = some R := by
  refine mt_star_run c [x] ys p cs k R ?_ hy hk
  intro z hz
  rw [List.mem_singleton] at hz
  rw [hz]
  exact hx

end regexp

theorem digitDot_not_space (c : Char) (h : Cls.test .digitDot c = true) :
    Cls.test .space c = false := by
  cases hs : Cls.test .space c with
  | false => rfl
  | true =>
      exfalso
      simp only [Cls.test, Bool.or_eq_true, decide_eq_true_eq] at hs
      rcases hs with (((rfl | rfl) | hs) | rfl) | rfl
      · exact absurd h (by decide)
      · exact absurd h (by decide)
      · simp only [Cls.test, Bool.or_eq_true, Bool.and_eq_true, decide_eq_true_eq] at h
        rcases h with h | rfl
        · omega
        · exact absurd hs (by decide)
      · exact absurd h (by decide)
      · exact absurd h (by decide)

/-- The match of `outRegex` on an `out:` line with the two readings `a` and `b`. -/
theorem outRegex_match (a b : List Char) (ha : a ≠ []) (hb : b ≠ [])
    (had : ∀ c ∈ a, Cls.test .digitDot c = true) (hbd : ∀ c ∈ b, Cls.test .digitDot c = true) :
    FindStringSubmatch outRegex
        ("out: ".toList ++ a ++ " packets/s, ".toList ++ b ++ " bytes/s".toList)
      = ["out: ".toList ++ a ++ " packets/s, ".toList ++ b ++ " bytes/s".toList, a, b] := by
  have e : "out: ".toList ++ a ++ " packets/s, ".toList ++ b ++ " bytes/s".toList
      = "out:".toList ++ (' ' :: (a ++ (' ' :: ("packets/s,".toList ++ (' ' ::
          (b ++ (' ' :: ("bytes/s".toList ++ [])))))))) := by
    simp only [List.append_assoc, List.append_nil]
    rfl
  have hm : mt outRegex ⟨none, "out: ".toList ++ a ++ " packets/s, ".toList ++ b
      ++ " bytes/s".toList, []⟩ some = some ⟨some 's', [], [(2, b), (1, a)]⟩ := by
    rw [e]
    unfold outRegex
    simp only [Re.cat]
    rw [mt_seq, mt_lit_append, mt_seq]
    apply mt_star_one _ _ _ _ _ _ _ (by decide)
      (stopsAt_append _ a _ ha (fun x hx => digitDot_not_space x (had x hx)))
    rw [mt_seq]
    apply mt_group_plus_run _ _ _ _ _ _ _ _ ha had (stopsAt_cons _ _ _ (by decide))
    rw [mt_seq]
    apply mt_star_one _ _ _ _ _ _ _ (by decide)
      (stopsAt_append _ "packets/s,".toList _ (by decide) (by decide))
    rw [mt_seq, mt_lit_append, mt_seq]
    apply mt_star_one _ _ _ _ _ _ _ (by decide)
      (stopsAt_append _ b _ hb (fun x hx => digitDot_not_space x (hbd x hx)))
    rw [mt_seq]
    apply mt_group_plus_run _ _ _ _ _ _ _ _ hb hbd (stopsAt_cons _ _ _ (by decide))
    rw [mt_seq]
    apply mt_star_one _ _ _ _ _ _ _ (by decide)
      (stopsAt_append _ "bytes/s".toList _ (by decide) (by decide))
    rw [mt_lit_append]
    rfl
  rw [FindStringSubmatch_of_mt outRegex _ _ hm rfl]
  rfl

theorem digitDot_not_mem (a : List Char) (had : ∀ c ∈ a, Cls.test .digitDot c = true)
    (ch : Char) (hch : Cls.test .digitDot ch = false) : ch ∉ a := by
  intro h
  rw [had ch h] at hch
  cases hch

theorem outLine_not_mem (a b : List Char) (had : ∀ c ∈ a, Cls.test .digitDot c = true)
    (hbd : ∀ c ∈ b, Cls.test .digitDot c = true) (ch : Char)
    (hch : Cls.test .digitDot ch = false) (h1 : ch ∉ "out: ".toList)
    (h2 : ch ∉ " packets/s, ".toList) (h3 : ch ∉ " bytes/s".toList) :
    ch ∉ "out: ".toList ++ a ++ " packets/s, ".toList ++ b ++ " bytes/s".toList := by
  intro h
  simp only [List.mem_append] at h
  rcases h with (((h | h) | h) | h) | h
  · exact h1 h
  · exact digitDot_not_mem a had ch hch h
  · exact h2 h
  · exact digitDot_not_mem b hbd ch hch h
  · exact h3 h

/-- What `parseActivityMetrics` returns on an `out:` line whose two readings are non-empty
texts of digits and points: both outbound fields take the value `ParseFloat` returns with the
error dropped, and nothing else changes. -/
theorem parseActivityMetrics_out (a b : List Char) (prev : NetDiskMetrics) (ha : a ≠ [])
    (hb : b ≠ []) (had : ∀ c ∈ a, Cls.test .digitDot c = true)
    (hbd : ∀ c ∈ b, Cls.test .digitDot c = true) :
    parseActivityMetrics
        ("out: ".toList ++ a ++ " packets/s, ".toList ++ b ++ " bytes/s".toList) prev
      = { prev with OutPacketsPerSec := (ParseFloat a).1, OutBytesPerSec := (ParseFloat b).1 } := by
  unfold parseActivityMetrics
  rw [outRegex_match a b ha hb had hbd,
    FindStringSubmatch_eq_nil_of_needs inRegex _ 'i' (by decide)
      (outLine_not_mem a b had hbd 'i' (by decide) (by decide) (by decide) (by decide)),
    FindStringSubmatch_eq_nil_of_needs readRegex _ 'K' (by decide)
      (outLine_not_mem a b had hbd 'K' (by decide) (by decide) (by decide) (by decide)),
    FindStringSubmatch_eq_nil_of_needs writeRegex _ 'K' (by decide)
      (outLine_not_mem a b had hbd 'K' (by decide) (by decide) (by decide) (by decide))]
  rfl

theorem isDigit_digitDot (c : Char) (h : isDigit c = true) : Cls.test .digitDot c = true := by
  unfold isDigit at h
  simp only [Cls.test, h, Bool.true_or]

/-- The text of a decimal number, with or without a point, is read by `[\d.]+` and converts
to the binary64 value nearest to it. -/
theorem decimal_text (a ai af : List Char) (hai : ai ≠ [])
    (hdi : ∀ c ∈ ai, isDigit c = true) (hdf : ∀ c ∈ af, isDigit c = true)
    (ha : a = ai ++ '.' :: af ∨ (a = ai ∧ af = [])) :
    a ≠ [] ∧ (∀ c ∈ a, Cls.test .digitDot c = true)
      ∧ (ParseFloat a).1 = F64.ofDecimal ai af := by
  rcases ha with rfl | ⟨rfl, rfl⟩
  · refine ⟨by simp, ?_, ParseFloat_decimal ai af hai hdi hdf⟩
    intro c hc
    rw [List.mem_append, List.mem_cons] at hc
    rcases hc with hc | rfl | hc
    · exact isDigit_digitDot c (hdi c hc)
    · decide
    · exact isDigit_digitDot c (hdf c hc)
  · refine ⟨hai, fun c hc => isDigit_digitDot c (hdi c hc), ?_⟩
    rw [ParseFloat_digits a hai hdi]
    unfold F64.ofDecimal floatValue F64.ofNat
    simp

/-- C6: for every previous snapshot and all decimal numbers `a` and `b` (integer digits `ai`,
`bi`, then possibly a point and fraction digits `af`, `bf`), `parseActivityMetrics` on the unit
`out: a packets/s, b bytes/s` returns the previous snapshot with OutPacketsPerSec set to the
binary64 value of `a` and OutBytesPerSec to the binary64 value of `b`; the six other fields
keep their previous values. -/
theorem out_line_sets_outbound_only (prev : NetDiskMetrics) (a ai af b bi bf : List Char)
    (hai : ai ≠ []) (hbi : bi ≠ [])
    (hdai : ∀ c ∈ ai, isDigit c = true) (hdaf : ∀ c ∈ af, isDigit c = true)
    (hdbi : ∀ c ∈ bi, isDigit c = true) (hdbf : ∀ c ∈ bf, isDigit c = true)
    (ha : a = ai ++ '.' :: af ∨ (a = ai ∧ af = []))
    (hb : b = bi ++ '.' :: bf ∨ (b = bi ∧ bf = [])) :
    parseActivityMetrics
        ("out: ".toList ++ a ++ " packets/s, ".toList ++ b ++ " bytes/s".toList) prev
      = { prev with OutPacketsPerSec := F64.ofDecimal ai af
                    OutBytesPerSec := F64.ofDecimal bi bf } := by
  obtain ⟨a1, a2, a3⟩ := decimal_text a ai af hai hdai hdaf ha
  obtain ⟨b1, b2, b3⟩ := decimal_text b bi bf hbi hdbi hdbf hb
  rw [parseActivityMetrics_out a b prev a1 b1 a2 b2, a3, b3]

/-- The example of the specification: `out: 12.3 packets/s, 456.7 bytes/s` on the zero
snapshot. -/
theorem out_line_sets_outbound_only_witness :
    parseActivityMetrics "out: 12.3 packets/s, 456.7 bytes/s".toList NetDiskMetrics.zero
      = { NetDiskMetrics.zero with
          OutPacketsPerSec := F64.ofDecimal "12".toList "3".toList
          OutBytesPerSec := F64.ofDecimal "456".toList "7".toList } :=
  out_line_sets_outbound_only NetDiskMetrics.zero "12.3".toList "12".toList "3".toList
    "456.7".toList "456".toList "7".toList (by decide) (by decide) (by decide) (by decide)
    (by decide) (by decide) (Or.inl rfl) (Or.inl rfl)

theorem div_zero_1000 : F64.div F64.zero (F64.ofNat 1000) = F64.zero := by decide!

/-- C4 as stated fails: the pattern matches, the captured text does not convert, and the field
of the result differs from the field of the previous snapshot, in `parseActivityMetrics` and
in `parseCPUMetrics`. -/
theorem conversion_failure_counterexample :
    FindStringSubmatch outRegex "out: 1.2.3 packets/s, 4 bytes/s".toList
        = ["out: 1.2.3 packets/s, 4 bytes/s".toList, "1.2.3".toList, "4".toList]
      ∧ (ParseFloat "1.2.3".toList).2 = ErrKind.malformed
      ∧ (parseActivityMetrics "out: 1.2.3 packets/s, 4 bytes/s".toList
          busyNet).OutPacketsPerSec ≠ busyNet.OutPacketsPerSec
      ∧ (ParseFloat "abc".toList).2 = ErrKind.malformed
      ∧ (parseCPUMetrics "CPU Power: abc mW".toList busyCPU "Apple M1".toList).CPUW
          ≠ busyCPU.CPUW
      ∧ (parseCPUMetrics "CPU Power: abc mW".toList busyCPU "Apple M3 Max".toList).CPUW
          ≠ busyCPU.CPUW := by
  decide!

namespace regexp

/-- A group around a pattern that reads exactly `w` and adds no capture of its own records
`w`. -/
theorem mt_group_of (i : Nat) (r : Re) (w ys : List Char) (p q : Option Char)
    (cs : List (Nat × List Char)) (k : MState → Option MState) (R : MState)
    (hr : ∀ k1 : MState → Option MState, k1 ⟨q, ys, cs⟩ = some R →
      mt r ⟨p, w ++ ys, cs⟩ k1 = some R)
    (hk : k ⟨q, ys, (i, w) :: cs⟩ = some R) :
    mt (Re.group i r) ⟨p, w ++ ys, cs⟩ k = some R := by
  rw [mt_group_run]
  apply hr
  dsimp only
  rw [take_length_sub_append]
  exact hk

theorem stopsAt_lit (c : Cls) (w ys : List Char) (h : w.head?.map c.test = some false) :
    stopsAt c (w ++ ys) := by
  cases w with
  | nil => simp at h
  | cons x t =>
      simp only [List.head?_cons, Option.map_some', Option.some.injEq] at h
      exact stopsAt_cons c x _ h

end regexp

/-- The pattern `\d+\.\d+` reads a decimal text up to a character that is no digit. -/
theorem mt_decimalRe_run (ip fp ys : List Char) (p : Option Char)
    (cs : List (Nat × List Char)) (k : MState → Option MState) (R : MState)
    (hip : ip ≠ []) (hfp : fp ≠ []) (hdi : ∀ c ∈ ip, isDigit c = true)
    (hdf : ∀ c ∈ fp, isDigit c = true) (hy : stopsAt .digit ys)
    (hk : k ⟨lastOr (lastOr (lastOr p ip) ".".toList) fp, ys, cs⟩ = some R) :
    mt decimalRe ⟨p, (ip ++ '.' :: fp) ++ ys, cs⟩ k = some R := by
  have e : (ip ++ '.' :: fp) ++ ys = ip ++ (".".toList ++ (fp ++ ys)) := by
    simp only [List.append_assoc]
    rfl
  rw [e]
  unfold decimalRe
  simp only [Re.cat]
  rw [mt_seq]
  apply mt_plus_run .digit ip _ _ _ _ _ hip hdi (stopsAt_lit _ ".".toList _ (by decide))
  rw [mt_seq, mt_lit_append]
  exact mt_plus_run .digit fp ys _ _ _ _ hfp hdf hy hk

/-- The cluster name `E0-Cluster` is read by `\w+-Cluster`. -/
theorem mt_e0_cluster_run (ys : List Char) (p : Option Char)
    (cs : List (Nat × List Char)) (k : MState → Option MState) (R : MState)
    (hk : k ⟨some 'r', ys, cs⟩ = some R) :
    mt (Re.seq (Re.plus .word) (Re.lit "-Cluster".toList))
      ⟨p, "E0-Cluster".toList ++ ys, cs⟩ k = some R := by
  have e : "E0-Cluster".toList ++ ys = "E0".toList ++ ("-Cluster".toList ++ ys) := rfl
  rw [e, mt_seq]
  apply mt_plus_run _ "E0".toList _ _ _ _ _ (by decide) (by decide)
    (stopsAt_lit _ "-Cluster".toList _ (by decide))
  rw [mt_lit_append]
  exact hk

/-- The match of `residencyRe` on the residency line of sub-cluster E0. -/
theorem residencyRe_match (ip fp : List Char) (hip : ip ≠ []) (hfp : fp ≠ [])
    (hdi : ∀ c ∈ ip, isDigit c = true) (hdf : ∀ c ∈ fp, isDigit c = true) :
    FindStringSubmatch residencyRe
        ("E0-Cluster HW active residency:  ".toList ++ (ip ++ '.' :: fp) ++ "%".toList)
      = ["E0-Cluster HW active residency:  ".toList ++ (ip ++ '.' :: fp) ++ "%".toList,
          "E0-Cluster".toList, ip ++ '.' :: fp] := by
  have e : "E0-Cluster HW active residency:  ".toList ++ (ip ++ '.' :: fp) ++ "%".toList
      = "E0-Cluster".toList ++ (" ".toList ++ ("HW active residency:".toList ++ ("  ".toList ++
          ((ip ++ '.' :: fp) ++ ("%".toList ++ []))))) := by
    simp only [List.append_assoc, List.append_nil]
    rfl
  have hd := decimal_text (ip ++ '.' :: fp) ip fp hip hdi hdf (Or.inl rfl)
  have hm : mt residencyRe ⟨none, "E0-Cluster HW active residency:  ".toList
      ++ (ip ++ '.' :: fp) ++ "%".toList, []⟩ some
      = some ⟨some '%', [], [(2, ip ++ '.' :: fp), (1, "E0-Cluster".toList)]⟩ := by
    rw [e]
    unfold residencyRe
    simp only [Re.cat]
    rw [mt_seq]
    apply mt_group_of 1 _ "E0-Cluster".toList _ _ (some 'r') _ _ _
      (fun k1 h1 => mt_e0_cluster_run _ _ _ k1 _ h1)
    rw [mt_seq]
    apply mt_plus_run _ " ".toList _ _ _ _ _ (by decide) (by decide)
      (stopsAt_lit _ "HW active residency:".toList _ (by decide))
    rw [mt_seq, mt_lit_append, mt_seq]
    apply mt_plus_run _ "  ".toList _ _ _ _ _ (by decide) (by decide)
      (stopsAt_append _ _ _ hd.1 (fun x hx => digitDot_not_space x (hd.2.1 x hx)))
    rw [mt_seq]
    apply mt_group_of 2 _ (ip ++ '.' :: fp) _ _
      (lastOr (lastOr (lastOr (some ' ') ip) ".".toList) fp) _ _ _
      (fun k1 h1 => mt_decimalRe_run ip fp _ _ _ k1 _ hip hfp hdi hdf
        (stopsAt_lit _ "%".toList _ (by decide)) h1)
    rw [mt_lit_append]
    rfl
  rw [FindStringSubmatch_of_mt residencyRe _ _ hm rfl]
  rfl

theorem digit_not_space (c : Char) (h : isDigit c = true) : Cls.test .space c = false :=
  digitDot_not_space c (isDigit_digitDot c h)

/-- The match of `frequencyRe` on the frequency line of sub-cluster E0. -/
theorem frequencyRe_match (f : List Char) (hf : f ≠ []) (hdf : ∀ c ∈ f, isDigit c = true) :
    FindStringSubmatch frequencyRe
        ("E0-Cluster HW active frequency: ".toList ++ f ++ " MHz".toList)
      = ["E0-Cluster HW active frequency: ".toList ++ f ++ " MHz".toList,
          "E0-Cluster".toList, f] := by
  have e : "E0-Cluster HW active frequency: ".toList ++ f ++ " MHz".toList
      = "E0-Cluster".toList ++ (" ".toList ++ ("HW active frequency:".toList ++ (" ".toList ++
          (f ++ (" ".toList ++ ("MHz".toList ++ [])))))) := by
    simp only [List.append_assoc, List.append_nil]
    rfl
  have hm : mt frequencyRe ⟨none, "E0-Cluster HW active frequency: ".toList ++ f
      ++ " MHz".toList, []⟩ some
      = some ⟨some 'z', [], [(2, f), (1, "E0-Cluster".toList)]⟩ := by
    rw [e]
    unfold frequencyRe
    simp only [Re.cat]
    rw [mt_seq]
    apply mt_group_of 1 _ "E0-Cluster".toList _ _ (some 'r') _ _ _
      (fun k1 h1 => mt_e0_cluster_run _ _ _ k1 _ h1)
    rw [mt_seq]
    apply mt_plus_run _ " ".toList _ _ _ _ _ (by decide) (by decide)
      (stopsAt_lit _ "HW active frequency:".toList _ (by decide))
    rw [mt_seq, mt_lit_append, mt_seq]
    apply mt_plus_run _ " ".toList _ _ _ _ _ (by decide) (by decide)
      (stopsAt_append _ f _ hf (fun x hx => digit_not_space x (hdf x hx)))
    rw [mt_seq]
    apply mt_group_plus_run 2 .digit f _ _ _ _ _ hf hdf (stopsAt_lit _ " ".toList _ (by decide))
    rw [mt_seq]
    apply mt_plus_run _ " ".toList _ _ _ _ _ (by decide) (by decide)
      (stopsAt_lit _ "MHz".toList _ (by decide))
    rw [mt_lit_append]
    rfl
  rw [FindStringSubmatch_of_mt frequencyRe _ _ hm rfl]
  rfl

theorem digits_not_mem (ds : List Char) (hds : ∀ c ∈ ds, isDigit c = true) (ch : Char)
    (hch : isDigit ch = false) : ch ∉ ds := by
  intro h
  rw [hds ch h] at hch
  cases hch

theorem residencyLine_not_mem (ip fp : List Char) (hdi : ∀ c ∈ ip, isDigit c = true)
    (hdf : ∀ c ∈ fp, isDigit c = true) (ch : Char) (hch : isDigit ch = false)
    (h1 : ch ∉ "E0-Cluster HW active residency:  ".toList) (h2 : ch ≠ '.')
    (h3 : ch ∉ "%".toList) :
    ch ∉ "E0-Cluster HW active residency:  ".toList ++ (ip ++ '.' :: fp) ++ "%".toList := by
  intro h
  simp only [List.mem_append, List.mem_cons] at h
  rcases h with (h | h | h | h) | h
  · exact h1 h
  · exact digits_not_mem ip hdi ch hch h
  · exact h2 h
  · exact digits_not_mem fp hdf ch hch h
  · exact h3 h

theorem frequencyLine_not_mem (f : List Char) (hdf : ∀ c ∈ f, isDigit c = true) (ch : Char)
    (hch : isDigit ch = false) (h1 : ch ∉ "E0-Cluster HW active frequency: ".toList)
    (h3 : ch ∉ " MHz".toList) :
    ch ∉ "E0-Cluster HW active frequency: ".toList ++ f ++ " MHz".toList := by
  intro h
  simp only [List.mem_append] at h
  rcases h with (h | h) | h
  · exact h1 h
  · exact digits_not_mem f hdf ch hch h
  · exact h3 h

theorem SplitLines_append_nl (l r : List Char) (h : '\n' ∉ l) :
    SplitLines (l ++ '\n' :: r) = l :: SplitLines r := by
  induction l with
  | nil => rw [List.nil_append, SplitLines, if_pos rfl]
  | cons c cs ih =>
      have hc : c ≠ '\n' := fun e => h (by rw [e]; exact List.mem_cons_self _ _)
      have ht : '\n' ∉ cs := fun e => h (List.mem_cons_of_mem _ e)
      rw [List.cons_append, SplitLines, if_neg hc, ih ht]

/-- A line without the letter `P` is no core line and no power record. -/
theorem coresAndPower_noP (st : Locals) (line : List Char) (h : 'P' ∉ line) :
    coresAndPower st line = st := by
  unfold coresAndPower
  rw [Contains_eq_false_of_not_mem line "CPU ".toList 'P' (by decide) h,
    Contains_eq_false_of_not_mem line "ANE Power".toList 'P' (by decide) h,
    Contains_eq_false_of_not_mem line "CPU Power".toList 'P' (by decide) h,
    Contains_eq_false_of_not_mem line "GPU Power".toList 'P' (by decide) h,
    Contains_eq_false_of_not_mem line "Combined Power (CPU + GPU + ANE)".toList 'P'
      (by decide) h]
  rfl

theorem residencyStep_E0 (st : Locals) (line pt : List Char)
    (h : FindStringSubmatch residencyRe line = [line, "E0-Cluster".toList, pt]) :
    residencyStep st line
      = { st with
          cpuMetrics := { st.cpuMetrics with E0ClusterActive := F64.toInt (ParseFloat pt).1 }
          eClusterActiveTotal := addInt st.eClusterActiveTotal (F64.toInt (ParseFloat pt).1)
          eClusterCount := addInt st.eClusterCount 1 } := by
  unfold residencyStep
  rw [h]
  rfl

theorem frequencyStep_E0 (st : Locals) (line ft : List Char)
    (h : FindStringSubmatch frequencyRe line = [line, "E0-Cluster".toList, ft]) :
    frequencyStep st line
      = { st with
          cpuMetrics := { st.cpuMetrics with
            E0ClusterFreqMHz := (Atoi ft).1
            EClusterFreqMHz := addInt st.eClusterFreqTotal (Atoi ft).1 }
          eClusterFreqTotal := addInt st.eClusterFreqTotal (Atoi ft).1 } := by
  unfold frequencyStep
  rw [h]
  rfl

/-- The standard loop body on the residency line of sub-cluster E0. -/
theorem standardLine_E0_residency (st : Locals) (ip fp : List Char) (hip : ip ≠ [])
    (hfp : fp ≠ []) (hdi : ∀ c ∈ ip, isDigit c = true) (hdf : ∀ c ∈ fp, isDigit c = true) :
    standardLine st
        ("E0-Cluster HW active residency:  ".toList ++ (ip ++ '.' :: fp) ++ "%".toList)
      = { st with
          cpuMetrics := { st.cpuMetrics with
            E0ClusterActive := F64.toInt (F64.ofDecimal ip fp) }
          eClusterActiveTotal := addInt st.eClusterActiveTotal (F64.toInt (F64.ofDecimal ip fp))
          eClusterCount := addInt st.eClusterCount 1 } := by
  unfold standardLine
  rw [residencyStep_E0 st _ _ (residencyRe_match ip fp hip hfp hdi hdf),
    frequencyStep_nomatch _ _ (FindStringSubmatch_eq_nil_of_needs _ _ 'q' (by decide)
      (residencyLine_not_mem ip fp hdi hdf 'q' (by decide) (by decide) (by decide)
        (by decide))),
    coresAndPower_noP _ _ (residencyLine_not_mem ip fp hdi hdf 'P' (by decide) (by decide)
      (by decide) (by decide)),
    ParseFloat_decimal ip fp hip hdi hdf]

/-- The standard loop body on the frequency line of sub-cluster E0. -/
theorem standardLine_E0_frequency (st : Locals) (f : List Char) (hf : f ≠ [])
    (hdf : ∀ c ∈ f, isDigit c = true) :
    standardLine st ("E0-Cluster HW active frequency: ".toList ++ f ++ " MHz".toList)
      = { st with
          cpuMetrics := { st.cpuMetrics with
            E0ClusterFreqMHz := min (digitsVal 0 f : Int) maxInt
            EClusterFreqMHz := addInt st.eClusterFreqTotal (min (digitsVal 0 f : Int) maxInt) }
          eClusterFreqTotal := addInt st.eClusterFreqTotal (min (digitsVal 0 f : Int) maxInt) } := by
  unfold standardLine
  rw [residencyStep_nomatch _ _ (FindStringSubmatch_eq_nil_of_needs _ _ '%' (by decide)
      (frequencyLine_not_mem f hdf '%' (by decide) (by decide) (by decide))),
    frequencyStep_E0 st _ _ (frequencyRe_match f hf hdf),
    coresAndPower_noP _ _ (frequencyLine_not_mem f hdf 'P' (by decide) (by decide)
      (by decide)),
    Atoi_digits f hf hdf]

theorem F64.toInt_range (x : F64) : minInt ≤ F64.toInt x ∧ F64.toInt x ≤ maxInt := by
  cases x with
  | fin neg n => exact clampInt_range _
  | inf neg => cases neg <;> simp [F64.toInt, minInt, maxInt]
  | nan => simp [F64.toInt, minInt, maxInt]

theorem addInt_zero_left (v : Int) (h1 : minInt ≤ v) (h2 : v ≤ maxInt) : addInt 0 v = v := by
  rw [addInt, zero_add]
  exact wrapInt_of_range v h1 h2

theorem divInt_one (v : Int) (h1 : minInt ≤ v) (h2 : v ≤ maxInt) : divInt v 1 = v := by
  rw [divInt, Int.tdiv_one]
  exact wrapInt_of_range v h1 h2

theorem two_cluster_core (prev : CPUMetrics) (model : List Char)
    (hm : model ≠ "Apple M3 Max".toList ∧ model ≠ "Apple M2 Max".toList)
    (hE1 : prev.E1ClusterActive = 0) (ip fp f : List Char)
    (hip : ip ≠ []) (hfp : fp ≠ []) (hf : f ≠ [])
    (hdi : ∀ c ∈ ip, isDigit c = true) (hdp : ∀ c ∈ fp, isDigit c = true)
    (hdf : ∀ c ∈ f, isDigit c = true) :
    (parseCPUMetrics
        (("E0-Cluster HW active residency:  ".toList ++ (ip ++ '.' :: fp) ++ "%".toList)
          ++ '\n' :: ("E0-Cluster HW active frequency: ".toList ++ f ++ " MHz".toList))
        prev model).EClusterActive = F64.toInt (F64.ofDecimal ip fp)
      ∧ (parseCPUMetrics
        (("E0-Cluster HW active residency:  ".toList ++ (ip ++ '.' :: fp) ++ "%".toList)
          ++ '\n' :: ("E0-Cluster HW active frequency: ".toList ++ f ++ " MHz".toList))
        prev model).EClusterFreqMHz = min (digitsVal 0 f : Int) maxInt := by
  have hv := F64.toInt_range (F64.ofDecimal ip fp)
  have hfr : minInt ≤ min (digitsVal 0 f : Int) maxInt
      ∧ min (digitsVal 0 f : Int) maxInt ≤ maxInt := by
    refine ⟨le_min ?_ ?_, min_le_right _ _⟩
    · unfold minInt; omega
    · unfold minInt maxInt; omega
  rw [parseCPUMetrics_standard _ _ _ hm,
    SplitLines_append_nl _ _ (residencyLine_not_mem ip fp hdi hdp '\n' (by decide) (by decide)
      (by decide) (by decide)),
    SplitLines_single _ (frequencyLine_not_mem f hdf '\n' (by decide) (by decide)
      (by decide))]
  simp only [List.foldl_cons, List.foldl_nil]
  rw [standardLine_E0_residency _ ip fp hip hfp hdi hdp, standardLine_E0_frequency _ f hf hdf,
    aggregate_EClusterActive, aggregate_EClusterFreqMHz]
  dsimp only [Locals.init]
  rw [addInt_zero_left _ hv.1 hv.2, addInt_zero_left _ hfr.1 hfr.2,
    addInt_zero_left 1 (by decide) (by decide), if_pos (by decide),
    divInt_one _ hv.1 hv.2, if_neg (not_not.mpr hE1)]
  exact ⟨rfl, rfl⟩

theorem log2Aux_spec : ∀ (f n acc : Nat), n < 2 ^ f → 0 < n →
    acc ≤ log2Aux f n acc ∧ 2 ^ (log2Aux f n acc - acc) ≤ n
      ∧ n < 2 ^ (log2Aux f n acc - acc + 1) := by
  intro f
  induction f with
  | zero =>
      intro n acc h1 h2
      simp only [pow_zero, Nat.lt_one_iff] at h1
      omega
  | succ f ih =>
      intro n acc h1 h2
      rw [log2Aux]
      by_cases hn : n < 2
      · rw [if_pos hn]
        have : n = 1 := by omega
        subst this
        simp
      · rw [if_neg hn]
        have h3 : n / 2 < 2 ^ f := by
          apply Nat.div_lt_of_lt_mul
          rw [pow_succ] at h1
          omega
        have h4 : 0 < n / 2 := Nat.div_pos (by omega) (by decide)
        obtain ⟨i1, i2, i3⟩ := ih (n / 2) (acc + 1) h3 h4
        have e : log2Aux f (n / 2) (acc + 1) - acc = (log2Aux f (n / 2) (acc + 1) - (acc + 1)) + 1 := by
          omega
        refine ⟨by omega, ?_, ?_⟩
        · rw [e, pow_succ]
          have := Nat.div_mul_le_self n 2
          have := Nat.mul_le_mul_right 2 i2
          omega
        · rw [e, pow_succ]
          have := Nat.mul_lt_mul_of_pos_right i3 (by decide : 0 < 2)
          have := Nat.div_add_mod n 2
          have := Nat.mod_lt n (by decide : 0 < 2)
          omega

theorem ilog2_spec (n : Nat) (h : 0 < n) : 2 ^ ilog2 n ≤ n ∧ n < 2 ^ (ilog2 n + 1) := by
  obtain ⟨_, h2, h3⟩ := log2Aux_spec n n 0 (Nat.lt_two_pow n) h
  exact ⟨h2, h3⟩

theorem ilog2_zero : ilog2 0 = 0 := rfl

/-- The scale of the rounding step for a quotient below `2^53` units of 1.0: its power of two
divides 1.0 and the rounding interval is shorter than 2.0. -/
theorem roundUnits_scale (a b I : Nat) (hb : 0 < b)
    (h2 : a + F64.one ≤ (I + 1) * F64.one * b) (h3 : (I + 1) * b ≤ 2 ^ 53) :
    b * 2 ^ (ilog2 (a / b) - 52) < 2 * F64.one ∧ ilog2 (a / b) - 52 ≤ 1074 := by
  have hone : F64.one = 2 ^ 1074 := rfl
  have h53 : (2 : Nat) ^ 53 ≤ 2 ^ 1074 := Nat.pow_le_pow_right (by decide) (by decide)
  have hab : a < (I + 1) * b * F64.one := by
    have := F64.one_pos
    have e : (I + 1) * F64.one * b = (I + 1) * b * F64.one := by ring
    omega
  have hab2 : a < 2 ^ 53 * F64.one :=
    lt_of_lt_of_le hab (Nat.mul_le_mul_right _ h3)
  by_cases hv : a / b = 0
  · rw [hv, ilog2_zero]
    simp only [Nat.zero_sub, pow_zero, mul_one, Nat.zero_le, and_true]
    have : b ≤ (I + 1) * b := Nat.le_mul_of_pos_left b (by omega)
    rw [hone]
    omega
  · obtain ⟨l1, _⟩ := ilog2_spec (a / b) (Nat.pos_of_ne_zero hv)
    have hvb : a / b * b ≤ a := Nat.div_mul_le_self a b
    have hlb : 2 ^ ilog2 (a / b) * b ≤ a := le_trans (Nat.mul_le_mul_right b l1) hvb
    have hL : ilog2 (a / b) < 1127 := by
      by_contra hc
      have h5 : (2 : Nat) ^ 1127 ≤ 2 ^ ilog2 (a / b) :=
        Nat.pow_le_pow_right (by decide) (by omega)
      have h6 : 2 ^ ilog2 (a / b) ≤ 2 ^ ilog2 (a / b) * b := Nat.le_mul_of_pos_right _ hb
      have h7 : (2 : Nat) ^ 53 * F64.one = 2 ^ 1127 := by rw [hone, ← pow_add]
      omega
    refine ⟨?_, by omega⟩
    by_cases h52 : ilog2 (a / b) ≤ 52
    · rw [Nat.sub_eq_zero_of_le h52, pow_zero, mul_one]
      have : b ≤ (I + 1) * b := Nat.le_mul_of_pos_left b (by omega)
      rw [hone]
      omega
    · have e1 : 2 ^ ilog2 (a / b) = 2 ^ (ilog2 (a / b) - 52) * 2 ^ 52 := by
        rw [← pow_add, Nat.sub_add_cancel (by omega)]
      rw [e1] at hlb
      have h8 : b * 2 ^ (ilog2 (a / b) - 52) * 2 ^ 52 < 2 * F64.one * 2 ^ 52 := by
        have e2 : b * 2 ^ (ilog2 (a / b) - 52) * 2 ^ 52
            = 2 ^ (ilog2 (a / b) - 52) * 2 ^ 52 * b := by ring
        have e3 : 2 * F64.one * 2 ^ 52 = 2 ^ 53 * F64.one := by ring
        rw [e2, e3]
        exact lt_of_le_of_lt hlb hab2
      exact Nat.lt_of_mul_lt_mul_right h8

/-- Rounding a quotient that lies in `[I, I + 1)`, at least one unit `2^(-1074)` of the
numerator below `I + 1`, with `(I + 1) * b` at most `2^53`, gives a value in `[I, I + 1)`. -/
theorem roundUnits_floor (a b I : Nat) (hb : 0 < b)
    (h1 : I * F64.one * b ≤ a) (h2 : a + F64.one ≤ (I + 1) * F64.one * b)
    (h3 : (I + 1) * b ≤ 2 ^ 53) :
    ∃ n, F64.roundUnits false a b = F64.fin false n ∧ I * F64.one ≤ n
      ∧ n < (I + 1) * F64.one := by
  have key := roundUnits_scale a b I hb h2 h3
  have hI : I + 1 ≤ 2 ^ 53 := le_trans (Nat.le_mul_of_pos_right _ hb) h3
  have hbig : (2 : Nat) ^ 53 * F64.one ≤ 2 ^ 2098 := by
    have : F64.one = 2 ^ 1074 := rfl
    rw [this, ← pow_add]
    exact Nat.pow_le_pow_right (by decide) (by decide)
  have hbig2 : (I + 1) * F64.one ≤ 2 ^ 2098 := le_trans (Nat.mul_le_mul_right _ hI) hbig
  unfold F64.roundUnits
  dsimp only
  generalize ilog2 (a / b) - 52 = s at key ⊢
  obtain ⟨hB, hs⟩ := key
  obtain ⟨g, hg⟩ : ∃ g, F64.one = 2 ^ s * g :=
    ⟨2 ^ (1074 - s), by rw [← pow_add, Nat.add_sub_cancel' hs]; rfl⟩
  generalize hq : a / (b * 2 ^ s) = q
  generalize hr : a % (b * 2 ^ s) = r
  have he : 0 < 2 ^ s := Nat.two_pow_pos s
  have hdq : b * 2 ^ s * q + r = a := by
    rw [← hq, ← hr]
    exact Nat.div_add_mod a _
  have hrd : r < b * 2 ^ s := by
    rw [← hr]
    exact Nat.mod_lt _ (Nat.mul_pos hb he)
  have hop := F64.one_pos
  generalize (2 : Nat) ^ 2098 = T at hbig2 ⊢
  generalize F64.one = U at *
  generalize (2 : Nat) ^ s = e at *
  subst hg
  have hgp : 0 < g := Nat.pos_of_mul_pos_left hop
  have hql : I * g ≤ q := by
    by_contra hc
    have c1 : q + 1 ≤ I * g := by omega
    have c2 := Nat.mul_le_mul_left (b * e) c1
    have e1 : b * e * (I * g) = I * (e * g) * b := by ring
    have e2 : b * e * (q + 1) = b * e * q + b * e := by ring
    omega
  have hqu : q < (I + 1) * g := by
    by_contra hc
    have c1 : (I + 1) * g ≤ q := by omega
    have c2 := Nat.mul_le_mul_left (b * e) c1
    have e1 : b * e * ((I + 1) * g) = (I + 1) * (e * g) * b := by ring
    omega
  have hM : ∀ m, m = (if 2 * r < b * e then q
      else if b * e < 2 * r then q + 1 else if q % 2 = 0 then q else q + 1) →
      q ≤ m ∧ m < (I + 1) * g := by
    intro m hm
    by_cases c0 : 2 * r < b * e
    · rw [if_pos c0] at hm
      omega
    · have hq1 : q + 1 < (I + 1) * g := by
        by_contra hc
        have c1 : (I + 1) * g = q + 1 := by omega
        have e1 : (I + 1) * (e * g) * b = b * e * ((I + 1) * g) := by ring
        have e2 : b * e * (q + 1) = b * e * q + b * e := by ring
        rw [e1, c1, e2] at h2
        omega
      rw [if_neg c0] at hm
      split_ifs at hm <;> omega
  obtain ⟨m1, m2⟩ := hM _ rfl
  generalize (if 2 * r < b * e then q
      else if b * e < 2 * r then q + 1 else if q % 2 = 0 then q else q + 1) = m at m1 m2 ⊢
  have n1 : I * (e * g) ≤ m * e := by
    have := Nat.mul_le_mul_right e (le_trans hql m1)
    have e1 : I * g * e = I * (e * g) := by ring
    omega
  have n2 : m * e < (I + 1) * (e * g) := by
    have := Nat.mul_lt_mul_of_pos_right m2 he
    have e1 : (I + 1) * g * e = (I + 1) * (e * g) := by ring
    omega
  rw [if_neg (by omega)]
  exact ⟨m * e, rfl, n1, n2⟩

theorem digitVal_le (c : Char) (h : isDigit c = true) : digitVal c ≤ 9 := by
  unfold isDigit at h
  simp only [Bool.and_eq_true, decide_eq_true_eq] at h
  unfold digitVal
  omega

theorem digitsVal_split (ds : List Char) (hds : ∀ c ∈ ds, isDigit c = true) : ∀ a : Nat,
    digitsVal a ds = a * 10 ^ ds.length + digitsVal 0 ds ∧ digitsVal 0 ds < 10 ^ ds.length := by
  induction ds with
  | nil =>
      intro a
      rw [digitsVal_nil, digitsVal_nil]
      simp
  | cons c cs ih =>
      intro a
      have hc := digitVal_le c (hds c (List.mem_cons_self _ _))
      have hcs : ∀ x ∈ cs, isDigit x = true := fun x hx => hds x (List.mem_cons_of_mem _ hx)
      obtain ⟨i1, i2⟩ := ih hcs (a * 10 + digitVal c)
      obtain ⟨j1, _⟩ := ih hcs (0 * 10 + digitVal c)
      rw [digitsVal_cons, digitsVal_cons, i1, j1, List.length_cons, pow_succ]
      generalize 10 ^ cs.length = P at *
      generalize digitsVal 0 cs = D at *
      generalize digitVal c = v at *
      have e1 : (a * 10 + v) * P = a * (P * 10) + v * P := by ring
      have e2 : (0 * 10 + v) * P = v * P := by ring
      have e3 : v * P ≤ 9 * P := Nat.mul_le_mul_right P hc
      rw [e1, e2]
      omega

/-- The integer part of a decimal text with few enough digits survives the conversion to
binary64: `int(float64(p))` is the number written before the point. -/
theorem toInt_ofDecimal_floor (ip fp : List Char) (hfp : fp ≠ [])
    (hdp : ∀ c ∈ fp, isDigit c = true)
    (h : (digitsVal 0 ip + 1) * 10 ^ fp.length ≤ 2 ^ 53) :
    F64.toInt (F64.ofDecimal ip fp) = (digitsVal 0 ip : Int) := by
  have hk : 0 < fp.length := List.length_pos.mpr hfp
  obtain ⟨s1, s2⟩ := digitsVal_split fp hdp (digitsVal 0 ip)
  have hP : 0 < 10 ^ fp.length := Nat.pow_pos (by decide)
  have hI : digitsVal 0 ip + 1 ≤ 2 ^ 53 := le_trans (Nat.le_mul_of_pos_right _ hP) h
  have h53 : (2 : Nat) ^ 53 = 9007199254740992 := by norm_num
  have hx : ¬ (0 : Int) ≤ 0 - (fp.length : Int) := by omega
  have ht : (-((0 : Int) - (fp.length : Int))).toNat = fp.length := by simp
  unfold F64.ofDecimal floatValue
  simp only [Bool.false_eq_true, if_false]
  rw [if_neg hx, ht, digitsVal_append, s1]
  generalize digitsVal 0 ip = I at *
  generalize digitsVal 0 fp = F at *
  generalize 10 ^ fp.length = P at *
  have h1 : I * F64.one * P ≤ (I * P + F) * F64.one := by
    have e1 : (I * P + F) * F64.one = I * F64.one * P + F * F64.one := by ring
    omega
  have h2 : (I * P + F) * F64.one + F64.one ≤ (I + 1) * F64.one * P := by
    have e1 : (I * P + F) * F64.one + F64.one = (I * P + F + 1) * F64.one := by ring
    have e2 : (I + 1) * F64.one * P = (I * P + P) * F64.one := by ring
    rw [e1, e2]
    exact Nat.mul_le_mul_right _ (by omega)
  obtain ⟨n, hn, l, u⟩ := roundUnits_floor _ P I hP h1 h2 h
  rw [hn]
  have hd : n / F64.one = I := Nat.div_eq_of_lt_le l u
  simp only [F64.toInt, Bool.false_eq_true, if_false, hd]
  unfold clampInt minInt maxInt
  split_ifs <;> omega

/-- C9, amended: on a standard model, for every previous snapshot whose E1ClusterActive is 0,
every percentage `p` written `ip.fp` and every frequency `f` written in decimal digits, the unit
made of the lines `E0-Cluster HW active residency:  p%` and
`E0-Cluster HW active frequency: f MHz` returns EClusterActive = `int(float64(p))`, the integer
part of the parsed percentage, which is the number `ip` written before the point whenever
`(ip + 1) * 10^(number of fraction digits)` is at most `2^53`, and EClusterFreqMHz = the value
`strconv.Atoi` gives for `f`, the smaller of `f` and `2^63 - 1`, which is `f` itself for every
`f` that a Go `int` holds. Without the two bounds the equalities with `ip` and `f` fail. -/
theorem two_cluster_profile (prev : CPUMetrics) (model : List Char)
    (hm : model ≠ "Apple M3 Max".toList ∧ model ≠ "Apple M2 Max".toList)
    (hE1 : prev.E1ClusterActive = 0) (ip fp f : List Char)
    (hip : ip ≠ []) (hfp : fp ≠ []) (hf : f ≠ [])
    (hdi : ∀ c ∈ ip, isDigit c = true) (hdp : ∀ c ∈ fp, isDigit c = true)
    (hdf : ∀ c ∈ f, isDigit c = true) :
    let r := parseCPUMetrics
      (("E0-Cluster HW active residency:  ".toList ++ (ip ++ '.' :: fp) ++ "%".toList)
        ++ '\n' :: ("E0-Cluster HW active frequency: ".toList ++ f ++ " MHz".toList))
      prev model
    (r.EClusterActive = F64.toInt (F64.ofDecimal ip fp)
        ∧ ((digitsVal 0 ip + 1) * 10 ^ fp.length ≤ 2 ^ 53 →
            r.EClusterActive = (digitsVal 0 ip : Int)))
      ∧ (r.EClusterFreqMHz = min (digitsVal 0 f : Int) maxInt
        ∧ ((digitsVal 0 f : Int) ≤ maxInt → r.EClusterFreqMHz = (digitsVal 0 f : Int))) := by
  intro r
  obtain ⟨a, b⟩ := two_cluster_core prev model hm hE1 ip fp f hip hfp hf hdi hdp hdf
  exact ⟨⟨a, fun h => a.trans (toInt_ofDecimal_floor ip fp hfp hdp h)⟩, b,
    fun h => b.trans (min_eq_left h)⟩

/-- The example of the specification: 10.00% at 1000 MHz gives usage 10 and frequency 1000. -/
theorem two_cluster_profile_witness :
    (parseCPUMetrics
        "E0-Cluster HW active residency:  10.00%\nE0-Cluster HW active frequency: 1000 MHz".toList
        CPUMetrics.zero "Apple M1".toList).EClusterActive = 10
      ∧ (parseCPUMetrics
        "E0-Cluster HW active residency:  10.00%\nE0-Cluster HW active frequency: 1000 MHz".toList
        CPUMetrics.zero "Apple M1".toList).EClusterFreqMHz = 1000 := by
  have h := two_cluster_profile CPUMetrics.zero "Apple M1".toList (by decide) rfl "10".toList
    "00".toList "1000".toList (by decide) (by decide) (by decide) (by decide) (by decide)
    (by decide)
  exact ⟨h.1.2 (by decide), h.2.2 (by decide)⟩

/-- The invariant of the throttler is kept by every step: `C` holds at most one signal, at most
one timer is armed, and a timer is armed exactly when `timer` is set. -/
theorem throttler_step_inv (e : EventThrottler) (s : ThrottlerStep)
    (h : e.C ≤ 1 ∧ e.armed ≤ 1 ∧ (e.timer = true ↔ e.armed = 1)) :
    (e.step s).C ≤ 1 ∧ (e.step s).armed ≤ 1 ∧ ((e.step s).timer = true ↔ (e.step s).armed = 1) := by
  obtain ⟨t, a, c⟩ := e
  simp only at h
  obtain ⟨h1, h2, h3⟩ := h
  cases s with
  | notify =>
      cases t with
      | true => exact ⟨h1, h2, h3⟩
      | false =>
          have : a = 0 := by
            have := h3.not
            simp at this
            omega
          subst this
          simp [EventThrottler.step, EventThrottler.Notify, h1]
  | timerExpiry =>
      by_cases ha : 0 < a
      · have : a = 1 := by omega
        subst this
        simp only [EventThrottler.step, EventThrottler.expire]
        simp
        split_ifs <;> omega
      · simp only [EventThrottler.step, if_neg ha]
        exact ⟨h1, h2, h3⟩
  | receive =>
      by_cases hc : 0 < c
      · simp only [EventThrottler.step, if_pos hc, EventThrottler.consume]
        exact ⟨by omega, h2, h3⟩
      · simp only [EventThrottler.step, if_neg hc]
        exact ⟨h1, h2, h3⟩

theorem throttler_foldl_inv (steps : List ThrottlerStep) : ∀ e : EventThrottler,
    (e.C ≤ 1 ∧ e.armed ≤ 1 ∧ (e.timer = true ↔ e.armed = 1)) →
    (steps.foldl EventThrottler.step e).C ≤ 1 ∧ (steps.foldl EventThrottler.step e).armed ≤ 1
      ∧ ((steps.foldl EventThrottler.step e).timer = true
        ↔ (steps.foldl EventThrottler.step e).armed = 1) := by
  induction steps with
  | nil => intro e h; exact h
  | cons s ss ih => intro e h; exact ih _ (throttler_step_inv e s h)

/-- C11: in every state reached from `NewEventThrottler` by any sequence of `Notify`, timer
expiry and receive steps, `C` holds at most one signal and at most one timer is armed (armed
exactly when the pending flag `timer` is set); when a timer is armed its expiry clears the
pending flag and leaves no timer armed, and when `C` is already full the expiry leaves `C`
unchanged: the new signal is dropped, not queued. -/
theorem throttler_single_pending (steps : List ThrottlerStep) :
    let e := EventThrottler.run steps
    e.C ≤ 1 ∧ e.armed ≤ 1 ∧ (e.timer = true ↔ e.armed = 1)
      ∧ (0 < e.armed →
          e.expire.timer = false ∧ e.expire.armed = 0 ∧ e.expire.C = 1
            ∧ (e.C = 1 → e.expire.C = e.C)) := by
  intro e
  obtain ⟨h1, h2, h3⟩ := throttler_foldl_inv steps NewEventThrottler
    ⟨by decide, by decide, by decide⟩
  refine ⟨h1, h2, h3, fun ha => ?_⟩
  have h1e : e.C ≤ 1 := h1
  have h2e : e.armed ≤ 1 := h2
  refine ⟨rfl, ?_, ?_, fun hc => ?_⟩
  · show e.armed - 1 = 0
    omega
  · show (if e.C < 1 then e.C + 1 else e.C) = 1
    split_ifs <;> omega
  · show (if e.C < 1 then e.C + 1 else e.C) = e.C
    rw [if_neg (by omega)]

/-- Two bursts whose first signal is not consumed: after the second `Notify` one timer is armed
and `C` is full, and the expiry of that timer drops its signal. -/
theorem throttler_single_pending_witness :
    EventThrottler.run [.notify, .notify, .timerExpiry, .notify] = ⟨true, 1, 1⟩
      ∧ (EventThrottler.run [.notify, .notify, .timerExpiry, .notify]).expire = ⟨false, 0, 1⟩
      ∧ (EventThrottler.run [.notify, .notify, .timerExpiry, .notify]).expire.C
          = (EventThrottler.run [.notify, .notify, .timerExpiry, .notify]).C := by
  have h := throttler_single_pending [.notify, .notify, .timerExpiry, .notify]
  exact ⟨rfl, rfl, (h.2.2.2 (by decide)).2.2.2 rfl⟩

namespace regexp

theorem Lang_mayHold (ch : Char) (re : Re) : ∀ w : List Char, re.Lang w → ch ∈ w →
    re.mayHold ch = true := by
  induction re with
  | lit v =>
      intro w h hc
      simp only [Re.Lang] at h
      subst h
      simpa [Re.mayHold] using hc
  | cls c =>
      intro w h hc
      obtain ⟨x, rfl, hx⟩ := h
      rw [List.mem_singleton] at hc
      subst hc
      exact hx
  | seq a b iha ihb =>
      intro w h hc
      obtain ⟨v, u, rfl, hv, hu⟩ := h
      rw [List.mem_append] at hc
      simp only [Re.mayHold, Bool.or_eq_true]
      rcases hc with hc | hc
      · exact Or.inl (iha v hv hc)
      · exact Or.inr (ihb u hu hc)
  | alt a b iha ihb =>
      intro w h hc
      simp only [Re.mayHold, Bool.or_eq_true]
      rcases h with h | h
      · exact Or.inl (iha w h hc)
      · exact Or.inr (ihb w h hc)
  | star c => intro w h hc; exact h ch hc
  | lazyStar c => intro w h hc; exact h ch hc
  | opt r ih =>
      intro w h hc
      rcases h with rfl | h
      · simp at hc
      · exact ih w h hc
  | group i r ih => intro w h hc; exact ih w h hc
  | bol m =>
      intro w h hc
      simp only [Re.Lang] at h
      subst h
      simp at hc
  | eol m =>
      intro w h hc
      simp only [Re.Lang] at h
      subst h
      simp at hc

theorem mt_endsAtEnd (re : Re) : ∀ (s : MState) (k : MState → Option MState) (R : MState),
    re.endsAtEnd = true → mt re s k = some R → ∃ s1, k s1 = some R ∧ s1.rest = [] := by
  induction re with
  | seq a b _ ihb =>
      intro s k R he h
      rw [mt_seq] at h
      obtain ⟨s1, h1, _⟩ := mt_sound a s _ R h
      exact ihb s1 k R he h1
  | group i r ih =>
      intro s k R he h
      rw [mt_group_run] at h
      obtain ⟨s1, h1, h2⟩ := ih s _ R he h
      exact ⟨_, h1, h2⟩
  | eol m =>
      intro s k R he h
      simp only [Re.endsAtEnd, Bool.not_eq_true'] at he
      subst he
      simp only [mt, Bool.false_eq_true, false_and, or_false] at h
      split_ifs at h with hc
      exact ⟨s, h, hc⟩
  | lit w => intro s k R he; cases he
  | cls c => intro s k R he; cases he
  | alt a b _ _ => intro s k R he; cases he
  | star c => intro s k R he; cases he
  | lazyStar c => intro s k R he; cases he
  | opt r _ => intro s k R he; cases he
  | bol m => intro s k R he; cases he

theorem mt_startsAtStart (re : Re) : ∀ (s : MState) (k : MState → Option MState),
    re.startsAtStart = true → s.prev ≠ none → mt re s k = none := by
  induction re with
  | seq a b iha _ =>
      intro s k he hp
      rw [mt_seq]
      exact iha s _ he hp
  | group i r ih =>
      intro s k he hp
      rw [mt_group_run]
      exact ih s _ he hp
  | bol m =>
      intro s k he hp
      simp only [Re.startsAtStart, Bool.not_eq_true'] at he
      subst he
      simp only [mt, Bool.false_eq_true, false_and, or_false]
      rw [if_neg hp]
  | lit w => intro s k he; cases he
  | cls c => intro s k he; cases he
  | alt a b _ _ => intro s k he; cases he
  | star c => intro s k he; cases he
  | lazyStar c => intro s k he; cases he
  | opt r _ => intro s k he; cases he
  | eol m => intro s k he; cases he

theorem searchFrom_startsAtStart (re : Re) (he : re.startsAtStart = true) :
    ∀ (s : List Char) (p : Char), searchFrom re (some p) s = none := by
  intro s
  induction s with
  | nil =>
      intro p
      have h := mt_startsAtStart re ⟨some p, [], []⟩ some he (by simp)
      simp only [searchFrom, h]
  | cons x xs ih =>
      intro p
      have h := mt_startsAtStart re ⟨some p, x :: xs, []⟩ some he (by simp)
      simp only [searchFrom, h, ih x]

/-- A pattern between `^` and `$` matches only the whole text. -/
theorem FindStringSubmatch_anchored (re : Re) (s : List Char) (h1 : re.startsAtStart = true)
    (h2 : re.endsAtEnd = true) (h : FindStringSubmatch re s ≠ []) : re.Lang s := by
  unfold FindStringSubmatch at h
  cases hs : searchFrom re none s with
  | none => rw [hs] at h; exact absurd rfl h
  | some r =>
      obtain ⟨whole, st⟩ := r
      have hm : mt re ⟨none, s, []⟩ some = some st := by
        cases s with
        | nil =>
            simp only [searchFrom] at hs
            cases hq : mt re ⟨none, [], []⟩ some with
            | none => rw [hq] at hs; cases hs
            | some st1 =>
                rw [hq] at hs
                simp only [Option.some.injEq, Prod.mk.injEq] at hs
                rw [hs.2]
        | cons x xs =>
            simp only [searchFrom] at hs
            cases hq : mt re ⟨none, x :: xs, []⟩ some with
            | none =>
                rw [hq] at hs
                simp only [searchFrom_startsAtStart re h1 xs x] at hs
                cases hs
            | some st1 =>
                rw [hq] at hs
                simp only [Option.some.injEq, Prod.mk.injEq] at hs
                rw [hs.2]
      obtain ⟨s1, e1, w, hw, hl, _⟩ := mt_sound re _ _ _ hm
      obtain ⟨s2, e2, hr⟩ := mt_endsAtEnd re _ _ _ h2 hm
      simp only [Option.some.injEq] at e1 e2
      rw [e1, ← e2, hr, List.append_nil] at hw
      simp only at hw
      rw [hw]
      exact hl

theorem FindStringSubmatch_eq_nil_of_anchored (re : Re) (s : List Char) (ch : Char)
    (h1 : re.startsAtStart = true) (h2 : re.endsAtEnd = true) (h3 : re.mayHold ch = false)
    (hs : ch ∈ s) : FindStringSubmatch re s = [] := by
  by_contra h
  have := Lang_mayHold ch re s (FindStringSubmatch_anchored re s h1 h2 h) hs
  rw [h3] at this
  cases this

end regexp

theorem Itoa_digits (i : Nat) (ch : Char) (h : isDigit ch = false) : ch ∉ Itoa i := by
  intro hc
  have := (repr_digits i).2.1 ch hc
  rw [h] at this
  cases this

/-- A text in which the residency pattern of some core is found is matched by the frequency
pattern of no core: the first holds the letter `v`, the second matches whole texts without. -/
theorem coreFrequencyRe_nomatch (unit : List Char) (i j : Nat)
    (h : FindStringSubmatch (coreResidencyRe i) unit ≠ []) :
    FindStringSubmatch (coreFrequencyRe j) unit = [] := by
  have hv : 'v' ∈ unit := by
    by_contra hn
    exact h (FindStringSubmatch_eq_nil_of_needs _ unit 'v'
      (by simp [coreResidencyRe, Re.cat, Re.needs]) hn)
  refine FindStringSubmatch_eq_nil_of_anchored _ unit 'v' rfl rfl ?_ hv
  have hi := Itoa_digits j 'v' (by decide)
  simp only [coreFrequencyRe, Re.cat, Re.mayHold, Re.plus, Bool.or_eq_false_iff,
    decide_eq_false_iff_not]
  refine ⟨trivial, by decide, ⟨by decide, by decide⟩, hi, ⟨by decide, by decide⟩, by decide,
    ⟨by decide, by decide⟩, ⟨by decide, by decide⟩, ⟨by decide, by decide⟩, by decide, trivial⟩

theorem coresAndPower_running (st : Locals) (line : List Char) :
    (coresAndPower st line).runningE = st.runningE
      ∧ (coresAndPower st line).runningP = st.runningP := by
  unfold coresAndPower
  dsimp only
  split_ifs <;> exact ⟨rfl, rfl⟩

theorem acceptMeans_runningE (st : Locals) :
    (acceptMeans st).runningE = ⟨st.eClusterActiveSum, st.eClusterCount,
      if 0 < st.eClusterCount && F64.gt st.eClusterActiveSum F64.zero
          && F64.lt st.eClusterActiveSum (F64.ofNat 100)
          && F64.ne st.eClusterActiveSum F64.zero then
        F64.toInt (F64.div st.eClusterActiveSum (F64.ofInt st.eClusterCount))
      else st.cpuMetrics.EClusterActive⟩ := by
  unfold acceptMeans Locals.runningE
  dsimp only
  split_ifs <;> rfl

theorem acceptMeans_runningP (st : Locals) :
    (acceptMeans st).runningP = ⟨st.pClusterActiveSum, st.pClusterCount,
      if 0 < st.pClusterCount && F64.gt st.pClusterActiveSum F64.zero
          && F64.lt st.pClusterActiveSum (F64.ofNat 100)
          && F64.ne st.pClusterActiveSum F64.zero then
        F64.toInt (F64.div st.pClusterActiveSum (F64.ofInt st.pClusterCount))
      else st.cpuMetrics.PClusterActive⟩ := by
  unfold acceptMeans Locals.runningP
  dsimp only
  split_ifs <;> rfl

/-- The first per-core loop adds the matched residencies to the sums and counts of their
clusters and changes nothing else. -/
theorem foldl_coreResidencyStep (unit : List Char) (l : List Nat) : ∀ st : Locals,
    l.foldl (coreResidencyStep unit) st
      = { st with
          eClusterActiveSum := ((l.filter (fun i => decide (i ≤ 3))).filterMap
            (coreResidency unit)).foldl F64.add st.eClusterActiveSum
          eClusterCount := ((l.filter (fun i => decide (i ≤ 3))).filterMap
            (coreResidency unit)).foldl (fun c _ => addInt c 1) st.eClusterCount
          pClusterActiveSum := ((l.filter (fun i => !decide (i ≤ 3))).filterMap
            (coreResidency unit)).foldl F64.add st.pClusterActiveSum
          pClusterCount := ((l.filter (fun i => !decide (i ≤ 3))).filterMap
            (coreResidency unit)).foldl (fun c _ => addInt c 1) st.pClusterCount } := by
  induction l with
  | nil => intro st; rfl
  | cons i l ih =>
      intro st
      rw [List.foldl_cons, ih]
      by_cases hm : 1 < (FindStringSubmatch (coreResidencyRe i) unit).length
      · have hc : coreResidency unit i
            = some (ParseFloat ((FindStringSubmatch (coreResidencyRe i) unit).getD 1 [])).1 := by
          unfold coreResidency
          rw [if_pos hm]
        by_cases hi : i ≤ 3
        · have hs : coreResidencyStep unit st i = { st with
              eClusterActiveSum := F64.add st.eClusterActiveSum
                (ParseFloat ((FindStringSubmatch (coreResidencyRe i) unit).getD 1 [])).1
              eClusterCount := addInt st.eClusterCount 1 } := by
            unfold coreResidencyStep
            dsimp only
            rw [if_pos hm, if_pos hi]
          rw [hs]
          simp only [List.filter_cons, hi, decide_True, Bool.not_true, Bool.false_eq_true,
            if_true, if_false, List.filterMap_cons, hc, List.foldl_cons]
        · have hs : coreResidencyStep unit st i = { st with
              pClusterActiveSum := F64.add st.pClusterActiveSum
                (ParseFloat ((FindStringSubmatch (coreResidencyRe i) unit).getD 1 [])).1
              pClusterCount := addInt st.pClusterCount 1 } := by
            unfold coreResidencyStep
            dsimp only
            rw [if_pos hm, if_neg hi]
          rw [hs]
          simp only [List.filter_cons, hi, decide_False, Bool.not_false, Bool.false_eq_true,
            if_true, if_false, List.filterMap_cons, hc, List.foldl_cons]
      · have hc : coreResidency unit i = none := by
          unfold coreResidency
          rw [if_neg hm]
        have hs : coreResidencyStep unit st i = st := by
          unfold coreResidencyStep
          dsimp only
          rw [if_neg hm]
        rw [hs]
        by_cases hi : i ≤ 3
        · simp only [List.filter_cons, hi, decide_True, Bool.not_true, Bool.false_eq_true,
            if_true, if_false, List.filterMap_cons, hc]
        · simp only [List.filter_cons, hi, decide_False, Bool.not_false, Bool.false_eq_true,
            if_true, if_false, List.filterMap_cons, hc]

theorem coreFrequencyStep_keeps (unit : List Char) (st : Locals) (i : Nat) :
    (coreFrequencyStep unit st i).eClusterActiveSum = st.eClusterActiveSum
      ∧ (coreFrequencyStep unit st i).pClusterActiveSum = st.pClusterActiveSum
      ∧ (coreFrequencyStep unit st i).cpuMetrics = st.cpuMetrics := by
  unfold coreFrequencyStep
  dsimp only
  split_ifs <;> exact ⟨rfl, rfl, rfl⟩

theorem foldl_coreFrequencyStep_keeps (unit : List Char) (l : List Nat) : ∀ st : Locals,
    (l.foldl (coreFrequencyStep unit) st).eClusterActiveSum = st.eClusterActiveSum
      ∧ (l.foldl (coreFrequencyStep unit) st).pClusterActiveSum = st.pClusterActiveSum
      ∧ (l.foldl (coreFrequencyStep unit) st).cpuMetrics = st.cpuMetrics := by
  induction l with
  | nil => intro st; exact ⟨rfl, rfl, rfl⟩
  | cons i l ih =>
      intro st
      obtain ⟨a, b, c⟩ := ih (coreFrequencyStep unit st i)
      obtain ⟨a1, b1, c1⟩ := coreFrequencyStep_keeps unit st i
      rw [List.foldl_cons]
      exact ⟨a.trans a1, b.trans b1, c.trans c1⟩

/-- One line of the workaround branch on a unit in which some per-core residency pattern is
found: the running values of both clusters advance by `Running.line`. -/
theorem workaroundLine_running (model unit : List Char) (st : Locals) (line : List Char)
    (i : Nat) (hi : FindStringSubmatch (coreResidencyRe i) unit ≠ []) :
    (workaroundLine model unit st line).runningE
        = Running.line (efficiencyResidencies model unit) st.runningE
      ∧ (workaroundLine model unit st line).runningP
        = Running.line (performanceResidencies model unit) st.runningP := by
  unfold workaroundLine
  dsimp only
  rw [foldl_const (coreFrequencyStep unit) _ _
    (fun x j => coreFrequencyStep_nomatch unit x j (coreFrequencyRe_nomatch unit i j hi)),
    (coresAndPower_running _ _).1, (coresAndPower_running _ _).2, acceptMeans_runningE,
    acceptMeans_runningP, foldl_coreResidencyStep]
  exact ⟨rfl, rfl⟩

theorem foldl_workaroundLine_running (model unit : List Char) (i : Nat)
    (hi : FindStringSubmatch (coreResidencyRe i) unit ≠ []) (lines : List (List Char)) :
    ∀ st : Locals,
    (lines.foldl (workaroundLine model unit) st).runningE
        = (Running.line (efficiencyResidencies model unit))^[lines.length] st.runningE
      ∧ (lines.foldl (workaroundLine model unit) st).runningP
        = (Running.line (performanceResidencies model unit))^[lines.length] st.runningP := by
  induction lines with
  | nil => intro st; exact ⟨rfl, rfl⟩
  | cons l ls ih =>
      intro st
      obtain ⟨a, b⟩ := ih (workaroundLine model unit st l)
      obtain ⟨a1, b1⟩ := workaroundLine_running model unit st l i hi
      rw [List.foldl_cons, List.length_cons, Function.iterate_succ_apply,
        Function.iterate_succ_apply, a, b, a1, b1]
      exact ⟨rfl, rfl⟩

theorem F64.gt_zero_zero : F64.gt F64.zero F64.zero = false := by decide

/-- One line of the workaround branch on a unit in which no per-core residency pattern is
found: both residency sums stay 0 and both summary usages stay. -/
theorem workaroundLine_idle (model unit : List Char) (st : Locals) (line : List Char)
    (hn : ∀ i, FindStringSubmatch (coreResidencyRe i) unit = [])
    (he : st.eClusterActiveSum = F64.zero) (hp : st.pClusterActiveSum = F64.zero) :
    (workaroundLine model unit st line).eClusterActiveSum = F64.zero
      ∧ (workaroundLine model unit st line).pClusterActiveSum = F64.zero
      ∧ (workaroundLine model unit st line).cpuMetrics.EClusterActive
          = st.cpuMetrics.EClusterActive
      ∧ (workaroundLine model unit st line).cpuMetrics.PClusterActive
          = st.cpuMetrics.PClusterActive := by
  unfold workaroundLine
  dsimp only
  rw [foldl_const (coreResidencyStep unit) st _
    (fun x j => coreResidencyStep_nomatch unit x j (hn j))]
  obtain ⟨a, b, c⟩ := foldl_coreFrequencyStep_keeps unit
    (List.range ((if model = "Apple M2 Max".toList then 11 else 15) + 1)) st
  generalize (List.range ((if model = "Apple M2 Max".toList then 11 else 15) + 1)).foldl
    (coreFrequencyStep unit) st = s2 at a b c
  have e1 := congrArg Running.sum (coresAndPower_running (acceptMeans s2) line).1
  have e2 := congrArg Running.usage (coresAndPower_running (acceptMeans s2) line).1
  have p1 := congrArg Running.sum (coresAndPower_running (acceptMeans s2) line).2
  have p2 := congrArg Running.usage (coresAndPower_running (acceptMeans s2) line).2
  rw [acceptMeans_runningE] at e1 e2
  rw [acceptMeans_runningP] at p1 p2
  simp only [Locals.runningE, Locals.runningP] at e1 e2 p1 p2
  rw [a, he, F64.gt_zero_zero] at e2
  rw [b, hp, F64.gt_zero_zero] at p2
  simp only [Bool.and_false, Bool.false_and, Bool.false_eq_true, if_false] at e2 p2
  rw [c] at e2 p2
  exact ⟨e1.trans (a.trans he), p1.trans (b.trans hp), e2, p2⟩

theorem foldl_workaroundLine_idle (model unit : List Char)
    (hn : ∀ i, FindStringSubmatch (coreResidencyRe i) unit = []) (lines : List (List Char)) :
    ∀ st : Locals, st.eClusterActiveSum = F64.zero → st.pClusterActiveSum = F64.zero →
    (lines.foldl (workaroundLine model unit) st).cpuMetrics.EClusterActive
        = st.cpuMetrics.EClusterActive
      ∧ (lines.foldl (workaroundLine model unit) st).cpuMetrics.PClusterActive
        = st.cpuMetrics.PClusterActive := by
  induction lines with
  | nil => intro st _ _; exact ⟨rfl, rfl⟩
  | cons l ls ih =>
      intro st he hp
      obtain ⟨a, b, c, d⟩ := workaroundLine_idle model unit st l hn he hp
      obtain ⟨e, f⟩ := ih _ a b
      rw [List.foldl_cons]
      exact ⟨e.trans c, f.trans d⟩

theorem Running.line_nil_zero (c u : Int) :
    Running.line [] ⟨F64.zero, c, u⟩ = ⟨F64.zero, c, u⟩ := by
  simp [Running.line, F64.gt_zero_zero]

theorem Running.iterate_nil_zero (n : Nat) (c u : Int) :
    (Running.line [])^[n] ⟨F64.zero, c, u⟩ = ⟨F64.zero, c, u⟩ := by
  induction n with
  | zero => rfl
  | succ k ih => rw [Function.iterate_succ_apply, Running.line_nil_zero, ih]

theorem filterMap_coreResidency_nil (unit : List Char) (l : List Nat)
    (hn : ∀ i, FindStringSubmatch (coreResidencyRe i) unit = []) :
    l.filterMap (coreResidency unit) = [] := by
  induction l with
  | nil => rfl
  | cons i l ih =>
      have : coreResidency unit i = none := by
        unfold coreResidency
        rw [hn i]
        rfl
      rw [List.filterMap_cons, this, ih]

/-- The two summary usages the workaround branch returns, for every unit: the running values
after as many steps of `Running.line` as the unit has lines. -/
theorem workaround_usages (unit : List Char) (prev : CPUMetrics) (model : List Char)
    (hm : model = "Apple M3 Max".toList ∨ model = "Apple M2 Max".toList) :
    (parseCPUMetrics unit prev model).EClusterActive
        = ((Running.line (efficiencyResidencies model unit))^[(SplitLines unit).length]
            ⟨F64.zero, 0, prev.EClusterActive⟩).usage
      ∧ (parseCPUMetrics unit prev model).PClusterActive
        = ((Running.line (performanceResidencies model unit))^[(SplitLines unit).length]
            ⟨F64.zero, 0, prev.PClusterActive⟩).usage := by
  unfold parseCPUMetrics
  dsimp only
  rw [if_pos hm]
  by_cases h : ∃ i, FindStringSubmatch (coreResidencyRe i) unit ≠ []
  · obtain ⟨i, hi⟩ := h
    obtain ⟨a, b⟩ := foldl_workaroundLine_running model unit i hi (SplitLines unit)
      (Locals.init prev)
    exact ⟨congrArg Running.usage a, congrArg Running.usage b⟩
  · have hn : ∀ i, FindStringSubmatch (coreResidencyRe i) unit = [] := by
      intro i
      by_contra hc
      exact h ⟨i, hc⟩
    obtain ⟨a, b⟩ := foldl_workaroundLine_idle model unit hn (SplitLines unit)
      (Locals.init prev) rfl rfl
    unfold efficiencyResidencies performanceResidencies
    rw [filterMap_coreResidency_nil unit _ hn, filterMap_coreResidency_nil unit _ hn,
      Running.iterate_nil_zero, Running.iterate_nil_zero]
    exact ⟨a, b⟩

theorem F64.ne_of_gt (x y : F64) (h : F64.gt x y = true) : F64.ne x y = true := by
  unfold F64.gt F64.lt at h
  unfold F64.ne
  cases hx : F64.key x <;> cases hy : F64.key y <;> simp_all
  omega

theorem foldl_count_small (rs : List F64) : ∀ c : Int, 0 ≤ c → c + rs.length ≤ maxInt →
    rs.foldl (fun c _ => addInt c 1) c = c + rs.length := by
  induction rs with
  | nil => intro c _ _; simp
  | cons r rs ih =>
      intro c h0 h1
      rw [List.length_cons] at h1
      push_cast at h1
      have e : addInt c 1 = c + 1 :=
        addInt_of_range c 1 (by unfold minInt; omega) (by omega)
      rw [List.foldl_cons, e, ih (c + 1) (by omega) (by omega), List.length_cons]
      push_cast
      omega

theorem residencies_length (model unit : List Char) :
    (efficiencyResidencies model unit).length ≤ 16
      ∧ (performanceResidencies model unit).length ≤ 16 := by
  have hr : (workaroundCores model).length ≤ 16 := by
    unfold workaroundCores
    rw [List.length_range]
    split_ifs <;> omega
  unfold efficiencyResidencies performanceResidencies
  exact ⟨le_trans (List.length_filterMap_le _ _) (le_trans (List.length_filter_le _ _) hr),
    le_trans (List.length_filterMap_le _ _) (le_trans (List.length_filter_le _ _) hr)⟩

/-- One step of `Running.line` from the start of the loop is the rule `acceptedUsage`. -/
theorem Running.line_first (rs : List F64) (old : Int) (hl : rs.length ≤ 16) :
    (Running.line rs ⟨F64.zero, 0, old⟩).usage = acceptedUsage rs old := by
  have hc : rs.foldl (fun c _ => addInt c 1) 0 = (rs.length : Int) := by
    rw [foldl_count_small rs 0 (le_refl 0) (by unfold maxInt; omega), zero_add]
  unfold Running.line acceptedUsage
  dsimp only
  rw [hc]
  by_cases hg : F64.gt (rs.foldl F64.add F64.zero) F64.zero = true
  · have hne : rs ≠ [] := by
      intro e
      rw [e, List.foldl_nil, F64.gt_zero_zero] at hg
      cases hg
    have hpos : (0 : Int) < (rs.length : Int) := by
      have := List.length_pos.mpr hne
      omega
    rw [hg, F64.ne_of_gt _ _ hg]
    simp only [hpos, decide_True, Bool.true_and, Bool.and_true, true_and]
  · rw [Bool.not_eq_true] at hg
    rw [hg]
    simp

/-- C12 (as the code behaves): for model `Apple M3 Max` or `Apple M2 Max`, every previous
snapshot and every sampling unit, the returned EClusterActive is the usage of the running values
after one step of `Running.line` per line of the unit, over the residencies of the matched
efficiency cores (indices 0..3): each step adds them to the running sum and count, and sets the
usage to the truncated quotient exactly when the running sum, not the mean, is strictly between
0 and 100. On a single-line unit the usage is the truncated mean of the matched residencies
exactly when their sum lies strictly inside (0,100), and the previous usage otherwise. Likewise
PClusterActive over the remaining core indices. -/
theorem workaround_acceptance_guard (unit : List Char) (prev : CPUMetrics) (model : List Char)
    (hm : model = "Apple M3 Max".toList ∨ model = "Apple M2 Max".toList) :
    ((parseCPUMetrics unit prev model).EClusterActive
        = ((Running.line (efficiencyResidencies model unit))^[(SplitLines unit).length]
            ⟨F64.zero, 0, prev.EClusterActive⟩).usage
      ∧ (parseCPUMetrics unit prev model).PClusterActive
        = ((Running.line (performanceResidencies model unit))^[(SplitLines unit).length]
            ⟨F64.zero, 0, prev.PClusterActive⟩).usage)
      ∧ ('\n' ∉ unit →
          (parseCPUMetrics unit prev model).EClusterActive
            = acceptedUsage (efficiencyResidencies model unit) prev.EClusterActive
          ∧ (parseCPUMetrics unit prev model).PClusterActive
            = acceptedUsage (performanceResidencies model unit) prev.PClusterActive) := by
  obtain ⟨a, b⟩ := workaround_usages unit prev model hm
  refine ⟨⟨a, b⟩, fun hn => ?_⟩
  rw [SplitLines_single unit hn] at a b
  obtain ⟨l1, l2⟩ := residencies_length model unit
  exact ⟨a.trans (Running.line_first _ _ l1), b.trans (Running.line_first _ _ l2)⟩

set_option maxRecDepth 100000 in
theorem one_core_eval :
    efficiencyResidencies "Apple M3 Max".toList "CPU 0 active residency:  30.00%".toList
        = [F64.ofDecimal "30".toList "00".toList]
      ∧ acceptedUsage [F64.ofDecimal "30".toList "00".toList] 7 = 30 := by
  decide!

set_option maxRecDepth 100000 in
theorem two_cores_eval :
    efficiencyResidencies "Apple M3 Max".toList
        "CPU 0 active residency:  60.00% CPU 1 active residency:  60.00%".toList
        = [F64.ofDecimal "60".toList "00".toList, F64.ofDecimal "60".toList "00".toList]
      ∧ acceptedUsage [F64.ofDecimal "60".toList "00".toList,
          F64.ofDecimal "60".toList "00".toList] 7 = 7 := by
  decide!

/-- Core 0 alone at 30 percent is accepted; cores 0 and 1 at 60 percent each on one line have
the sum 120 and are not, so the usage stays at the 7 percent of the previous snapshot. -/
theorem workaround_acceptance_guard_witness :
    (parseCPUMetrics "CPU 0 active residency:  30.00%".toList sevenPrev
        "Apple M3 Max".toList).EClusterActive = 30
      ∧ (parseCPUMetrics "CPU 0 active residency:  60.00% CPU 1 active residency:  60.00%".toList
        sevenPrev "Apple M3 Max".toList).EClusterActive = 7 := by
  have h1 := ((workaround_acceptance_guard "CPU 0 active residency:  30.00%".toList sevenPrev
    "Apple M3 Max".toList (Or.inl rfl)).2 (by decide)).1
  have h2 := ((workaround_acceptance_guard
    "CPU 0 active residency:  60.00% CPU 1 active residency:  60.00%".toList sevenPrev
    "Apple M3 Max".toList (Or.inl rfl)).2 (by decide)).1
  rw [one_core_eval.1] at h1
  rw [two_cores_eval.1] at h2
  exact ⟨h1.trans one_core_eval.2, h2.trans two_cores_eval.2⟩

set_option maxRecDepth 100000 in
/-- C12 as stated fails on its own test unit: cores 0..3 at 30 percent each have the mean 30,
strictly inside (0,100), and the returned EClusterActive is the previous 7, not 30. -/
theorem workaround_acceptance_guard_counterexample :
    efficiencyResidencies "Apple M3 Max".toList fourCoresUnit
        = [F64.ofNat 30, F64.ofNat 30, F64.ofNat 30, F64.ofNat 30]
      ∧ F64.div ([F64.ofNat 30, F64.ofNat 30, F64.ofNat 30, F64.ofNat 30].foldl F64.add F64.zero)
          (F64.ofNat 4) = F64.ofNat 30
      ∧ F64.gt (F64.ofNat 30) F64.zero = true ∧ F64.lt (F64.ofNat 30) (F64.ofNat 100) = true
      ∧ F64.toInt (F64.ofNat 30) = 30
      ∧ sevenPrev.EClusterActive = 7
      ∧ (parseCPUMetrics fourCoresUnit sevenPrev "Apple M3 Max".toList).EClusterActive = 7 := by
  decide!

namespace regexp

theorem searchFrom_eq_none_of_needs (re : Re) (s : List Char) (ch : Char)
    (hn : re.needs ch = true) (hs : ch ∉ s) : searchFrom re none s = none := by
  have h := FindStringSubmatch_eq_nil_of_needs re s ch hn hs
  unfold FindStringSubmatch at h
  cases hq : searchFrom re none s with
  | none => rfl
  | some r =>
      rw [hq] at h
      cases h

theorem FindAllStringSubmatch_eq_nil_of_needs (re : Re) (s : List Char) (ch : Char)
    (hn : re.needs ch = true) (hs : ch ∉ s) : FindAllStringSubmatch re s = [] := by
  unfold FindAllStringSubmatch
  rw [findAllAux, searchFrom_eq_none_of_needs re s ch hn hs]

end regexp

theorem gpuLine_idle (g : GPUMetrics) (line : List Char)
    (h1 : FindStringSubmatch re line = []) (h2 : FindAllStringSubmatch freqRe line = []) :
    gpuLine g line = g := by
  unfold gpuLine activeBlock
  rw [h1, h2]
  split_ifs <;> rfl

theorem labelled_not_mem (label ds tail : List Char) (hds : ∀ c ∈ ds, isDigit c = true)
    (ch : Char) (hch : isDigit ch = false) (h1 : ch ∉ label) (h2 : ch ∉ tail) :
    ch ∉ label ++ ds ++ tail := by
  intro h
  simp only [List.mem_append] at h
  rcases h with (h | h) | h
  · exact h1 h
  · exact digits_not_mem ds hds ch hch h
  · exact h2 h

/-- A line made of a label without `.`, `%` and line feed, decimal digits and ` MHz` leaves
the GPU snapshot as it was. -/
theorem parseGPUMetrics_integer_line (g : GPUMetrics) (label ds : List Char)
    (hds : ∀ c ∈ ds, isDigit c = true) (h1 : '.' ∉ label) (h2 : '%' ∉ label)
    (h3 : '\n' ∉ label) :
    parseGPUMetrics (label ++ ds ++ " MHz".toList) g = g := by
  unfold parseGPUMetrics
  rw [SplitLines_single _ (labelled_not_mem label ds _ hds '\n' (by decide) h3 (by decide))]
  exact gpuLine_idle g _
    (FindStringSubmatch_eq_nil_of_needs re _ '.' (by decide)
      (labelled_not_mem label ds _ hds '.' (by decide) h1 (by decide)))
    (FindAllStringSubmatch_eq_nil_of_needs freqRe _ '%' (by decide)
      (labelled_not_mem label ds _ hds '%' (by decide) h2 (by decide)))

/-- C13 (what the code does): for every previous GPU snapshot and every natural number `N`,
`parseGPUMetrics` on the unit `GPU HW active frequency: N MHz`, and on
`GPU active frequency: N MHz`, returns the previous snapshot unchanged: `re` asks for a
decimal point in the number, so the line is not matched and FreqMHz is not set to `N`. With
FreqMHz 0 before, the unit with `N = 1100` returns FreqMHz 0. -/
theorem gpu_frequency_line_ignored (prev : GPUMetrics) (N : Nat) :
    parseGPUMetrics ("GPU HW active frequency: ".toList ++ (Nat.repr N).toList ++ " MHz".toList)
        prev = prev
      ∧ parseGPUMetrics ("GPU active frequency: ".toList ++ (Nat.repr N).toList ++ " MHz".toList)
        prev = prev
      ∧ (parseGPUMetrics "GPU HW active frequency: 1100 MHz".toList GPUMetrics.zero).FreqMHz = 0
      ∧ (parseGPUMetrics "GPU active frequency: 1100 MHz".toList GPUMetrics.zero).FreqMHz
        = 0 := by
  obtain ⟨_, hd, _⟩ := repr_digits N
  refine ⟨parseGPUMetrics_integer_line prev _ _ hd (by decide) (by decide) (by decide),
    parseGPUMetrics_integer_line prev _ _ hd (by decide) (by decide) (by decide), ?_, ?_⟩
  · exact congrArg GPUMetrics.FreqMHz (parseGPUMetrics_integer_line GPUMetrics.zero
      "GPU HW active frequency: ".toList "1100".toList (by decide) (by decide) (by decide)
      (by decide))
  · exact congrArg GPUMetrics.FreqMHz (parseGPUMetrics_integer_line GPUMetrics.zero
      "GPU active frequency: ".toList "1100".toList (by decide) (by decide) (by decide)
      (by decide))

namespace regexp

theorem findAllAux_length (re : Re) : ∀ (fuel : Nat) (prev : Option Char) (s : List Char)
    (b : Bool), ∀ m ∈ findAllAux re fuel prev s b, m.length = re.numGroups + 1 := by
  intro fuel
  induction fuel with
  | zero => intro prev s b m hm; simp [findAllAux] at hm
  | succ f ih =>
      intro prev s b m hm
      rw [findAllAux] at hm
      cases hq : searchFrom re prev s with
      | none => rw [hq] at hm; simp at hm
      | some r =>
          obtain ⟨whole, st⟩ := r
          rw [hq] at hm
          dsimp only at hm
          by_cases h1 : st.rest.length = s.length
          · rw [if_pos h1] at hm
            cases s with
            | nil =>
                cases b with
                | true => simp at hm
                | false =>
                    simp only [Bool.false_eq_true, if_false, List.mem_singleton] at hm
                    rw [hm]
                    simp
            | cons x xs =>
                dsimp only at hm
                rw [List.mem_append] at hm
                rcases hm with hm | hm
                · cases b with
                  | true => simp at hm
                  | false =>
                      simp only [Bool.false_eq_true, if_false, List.mem_singleton] at hm
                      rw [hm]
                      simp
                · exact ih _ _ _ m hm
          · rw [if_neg h1, List.mem_cons] at hm
            rcases hm with hm | hm
            · rw [hm]
              simp
            · exact ih _ _ _ m hm

end regexp

/-- The loop over entries that all have three parts returns the frequency of the first entry
whose residency is above 0, and the snapshot as it was when there is none. -/
theorem histogramLoop_find (g : GPUMetrics) : ∀ ms : List (List (List Char)),
    (∀ m ∈ ms, m.length = 3) →
    histogramLoop ms g
      = match ms.find? (fun m => F64.gt (ParseFloat (m.getD 2 [])).1 F64.zero) with
        | some m => { g with FreqMHz := (Atoi (m.getD 1 [])).1 }
        | none => g := by
  intro ms
  induction ms with
  | nil => intro _; rfl
  | cons m ms ih =>
      intro h
      have hm : m.length = 3 := h m (List.mem_cons_self _ _)
      rw [histogramLoop, if_pos hm]
      dsimp only
      by_cases hg : F64.gt (ParseFloat (m.getD 2 [])).1 F64.zero = true
      · rw [if_pos hg]
        simp only [List.find?_cons, hg]
      · rw [if_neg hg]
        rw [Bool.not_eq_true] at hg
        simp only [List.find?_cons, hg]
        exact ih (fun x hx => h x (List.mem_cons_of_mem _ hx))

theorem F64.inf_gt_zero : F64.gt (F64.inf false) F64.zero = true := by decide!

theorem F64.fin_gt_zero (n : Nat) (h : 0 < n) : F64.gt (F64.fin false n) F64.zero = true := by
  unfold F64.gt F64.lt
  simp only [F64.key, F64.zero, Bool.false_eq_true, if_false, decide_eq_true_eq]
  omega

theorem F64.ofNat_zero_gt : F64.gt (F64.ofNat 0) F64.zero = false := by decide!

/-- A natural number converts to a value above 0 exactly when it is not 0. -/
theorem F64.ofNat_gt_zero (p : Nat) : F64.gt (F64.ofNat p) F64.zero = decide (0 < p) := by
  by_cases hp : 0 < p
  · rw [decide_eq_true hp]
    have hone := F64.one_pos
    have ha : 0 < p * F64.one := Nat.mul_pos hp hone
    have hv : p * F64.one / 1 = p * F64.one := Nat.div_one _
    obtain ⟨l1, _⟩ := ilog2_spec (p * F64.one) ha
    unfold F64.ofNat F64.roundUnits
    dsimp only
    rw [hv, one_mul]
    generalize p * F64.one = a at *
    have hs : 2 ^ (ilog2 a - 52) ≤ a :=
      le_trans (Nat.pow_le_pow_right (by decide) (Nat.sub_le _ _)) l1
    generalize ilog2 a - 52 = s at *
    have he : 0 < 2 ^ s := Nat.two_pow_pos s
    have hq : 1 ≤ a / 2 ^ s := (Nat.one_le_div_iff he).mpr hs
    generalize a / 2 ^ s = q at *
    generalize a % 2 ^ s = r at *
    generalize (2 : Nat) ^ s = e at *
    generalize (2 : Nat) ^ 2098 = T
    have hm : ∀ m, 1 ≤ m → F64.gt (if T ≤ m * e then F64.inf false
        else F64.fin false (m * e)) F64.zero = true := by
      intro m hm
      split_ifs
      · exact F64.inf_gt_zero
      · exact F64.fin_gt_zero _ (Nat.mul_pos (by omega) he)
    exact hm _ (by split_ifs <;> omega)
  · have : p = 0 := by omega
    subst this
    exact F64.ofNat_zero_gt

theorem entryFree_of_nodigit (g : List Char) (h : ∀ c ∈ g, isDigit c = false) :
    entryFree g := by
  intro a b e hb
  left
  intro c hc
  apply h
  rw [e]
  exact List.mem_append_right _ (List.mem_of_mem_head? hc)

theorem entryFree_of_noM (g : List Char) (hM : 'M' ∉ g)
    (hl : ∀ c ∈ g.getLast?, isDigit c = false ∧ Cls.test .space c = false) : entryFree g := by
  intro a b e hb
  right
  refine ⟨fun hc => hM (by rw [e]; exact List.mem_append_right _ hc), ?_⟩
  intro c hc
  apply hl
  rw [e, List.getLast?_append_of_ne_nil _ hb]
  exact hc

theorem entryFree_tail (x : Char) (xs : List Char) (h : entryFree (x :: xs)) :
    entryFree xs := by
  intro a b e hb
  exact h (x :: a) b (by rw [e]; rfl) hb

/-- The histogram pattern does not match where the text does not start with a digit. -/
theorem mt_freqRe_nondigit (p : Option Char) (s : List Char)
    (h : ∀ c ∈ s.head?, isDigit c = false) (k : MState → Option MState) :
    mt freqRe ⟨p, s, []⟩ k = none := by
  cases s with
  | nil => simp [freqRe, Re.cat, Re.plus, regexp.mt]
  | cons c cs =>
      have hc : Cls.test .digit c = false := h c rfl
      simp [freqRe, Re.cat, Re.plus, regexp.mt, hc]

/-- The histogram pattern does not match from inside a text without `M` that ends with a
character that is neither a digit nor a space. -/
theorem mt_freqRe_noM (p : Option Char) (b rest : List Char) (hb : b ≠ []) (hM : 'M' ∉ b)
    (hl : ∀ c ∈ b.getLast?, isDigit c = false ∧ Cls.test .space c = false) :
    mt freqRe ⟨p, b ++ rest, []⟩ some = none := by
  cases hq : mt freqRe ⟨p, b ++ rest, []⟩ some with
  | none => rfl
  | some R =>
      exfalso
      obtain ⟨s1, _, w, hw, hl1, _⟩ := mt_sound freqRe _ _ _ hq
      simp only [freqRe, Re.cat, Re.plus, Re.Lang] at hl1
      obtain ⟨v1, w1, rfl, ⟨a1, b1, rfl, ⟨x, rfl, hx⟩, hb1⟩, v2, w2, rfl, hv2, v3, w3, rfl, rfl,
        _⟩ := hl1
      have hu : ∀ c ∈ [x] ++ b1 ++ v2, isDigit c = true ∨ Cls.test .space c = true := by
        intro c hc
        simp only [List.mem_append, List.mem_singleton] at hc
        rcases hc with (rfl | hc) | hc
        · exact Or.inl hx
        · exact Or.inl (hb1 c hc)
        · exact Or.inr (hv2 c hc)
      have hlast : ∃ c, b.getLast? = some c ∧ c ∈ b :=
        ⟨b.getLast hb, List.getLast?_eq_getLast _ hb, List.getLast_mem hb⟩
      obtain ⟨c, hc1, hc2⟩ := hlast
      obtain ⟨n1, n2⟩ := hl c hc1
      have hw2 : b ++ rest = ([x] ++ b1 ++ v2) ++ ('M' :: ("Hz:".toList ++ w3 ++ s1.rest)) := by
        simp only at hw
        rw [hw]
        simp only [List.append_assoc]
        rfl
      rcases List.append_eq_append_iff.mp hw2 with ⟨a', e1, _⟩ | ⟨c', e1, e2⟩
      · have := hu c (by rw [e1]; exact List.mem_append_left _ hc2)
        rw [n1, n2] at this
        simp at this
      · cases c' with
        | nil =>
            rw [List.append_nil] at e1
            have := hu c (by rw [← e1]; exact hc2)
            rw [n1, n2] at this
            simp at this
        | cons y ys =>
            rw [List.cons_append] at e2
            have hy : y = 'M' := (List.cons.inj e2).1.symm
            exact hM (by rw [e1, hy]; simp)

theorem mt_freqRe_entryFree (p : Option Char) (x : Char) (xs rest : List Char)
    (h : entryFree (x :: xs)) : mt freqRe ⟨p, (x :: xs) ++ rest, []⟩ some = none := by
  rcases h [] (x :: xs) rfl (List.cons_ne_nil _ _) with h1 | ⟨h2, h3⟩
  · exact mt_freqRe_nondigit p _ (by simpa using h1) some
  · exact mt_freqRe_noM p (x :: xs) rest (List.cons_ne_nil _ _) h2 h3

/-- The search for a histogram entry passes over an entry-free text. -/
theorem searchFrom_freqRe_skip (g : List Char) : ∀ (prev : Option Char) (rest : List Char),
    entryFree g →
    searchFrom freqRe prev (g ++ rest) = searchFrom freqRe (lastOr prev g) rest := by
  induction g with
  | nil => intro prev rest _; rfl
  | cons x xs ih =>
      intro prev rest h
      have hm := mt_freqRe_entryFree prev x xs rest h
      rw [List.cons_append] at hm ⊢
      rw [searchFrom, hm]
      dsimp only
      rw [ih (some x) rest (entryFree_tail x xs h), lastOr_cons]

/-- On a single GPU active line `parseGPUMetrics` runs the first block and then the loop over
the successive matches of `freqRe`: the first match whose percent is above 0 gives FreqMHz. -/
theorem parseGPUMetrics_histogram (prev : GPUMetrics) (line : List Char) (hn : '\n' ∉ line)
    (hG : Contains line "GPU active".toList = true
      ∨ Contains line "GPU HW active".toList = true) :
    parseGPUMetrics line prev
      = match (FindAllStringSubmatch freqRe line).find?
            (fun m => F64.gt (ParseFloat (m.getD 2 [])).1 F64.zero) with
        | some m => { activeBlock prev line with FreqMHz := (Atoi (m.getD 1 [])).1 }
        | none => activeBlock prev line := by
  have hc : (Contains line "GPU active".toList || Contains line "GPU HW active".toList)
      = true := by
    rcases hG with h | h
    · rw [h, Bool.true_or]
    · rw [h, Bool.or_true]
  unfold parseGPUMetrics
  rw [SplitLines_single line hn, List.foldl_cons, List.foldl_nil]
  unfold gpuLine
  rw [if_pos hc]
  exact histogramLoop_find _ _ (fun m hm => findAllAux_length freqRe _ _ _ _ m hm)

/-- The first block leaves FreqMHz as it was unless `re` matches a frequency line. -/
theorem activeBlock_FreqMHz (g : GPUMetrics) (line : List Char)
    (h : (FindStringSubmatch re line).getD 2 [] ≠ "frequency".toList) :
    (activeBlock g line).FreqMHz = g.FreqMHz := by
  have hgrp := FindStringSubmatch_group re line 2 (by decide)
  unfold activeBlock
  dsimp only
  generalize (FindStringSubmatch re line).getD 2 [] = g2 at *
  generalize (FindStringSubmatch re line).getD 3 [] = g3 at *
  generalize (FindStringSubmatch re line).length = n at *
  have hcase : g2 = [] ∨ g2 = "residency".toList ∨ g2 = "frequency".toList := by
    rcases hgrp with e | e
    · exact Or.inl e
    · simp only [re, Re.cat, Re.GroupLang, Re.plus, decimalRe, Re.Lang, false_or, or_false] at e
      rcases e with ⟨h0, _⟩ | ⟨_, e⟩ | ⟨h0, _⟩
      · exact absurd h0 (by decide)
      · exact Or.inr e
      · exact absurd h0 (by decide)
  split_ifs with h1 h2 h3
  · rfl
  · exfalso
    rcases hcase with e | e | e
    · rw [e] at h3
      exact absurd h3 (by decide)
    · rw [e] at h3
      exact absurd h3 (by decide)
    · exact h e
  · rfl
  · rfl

theorem activeBlock_Active_of_loop (g : GPUMetrics) (ms : List (List (List Char))) :
    (histogramLoop ms g).Active = g.Active := by
  induction ms with
  | nil => rfl
  | cons m ms ih =>
      rw [histogramLoop]
      dsimp only
      split_ifs
      · rfl
      · exact ih
      · exact ih

/-- A line whose name is one of the three excluded names changes neither the list nor the
process ids seen. -/
theorem processLine_excluded (acc : List ProcessMetrics × List Int) (line : List Char)
    (h : (FindStringSubmatch dataRegex line).getD 1 [] = "mactop".toList
      ∨ (FindStringSubmatch dataRegex line).getD 1 [] = "main".toList
      ∨ (FindStringSubmatch dataRegex line).getD 1 [] = "powermetrics".toList) :
    processLine acc line = acc := by
  unfold processLine
  dsimp only
  rw [if_pos h]
  split_ifs <;> rfl

theorem processLine_name (acc : List ProcessMetrics × List Int) (line : List Char) :
    ∀ p ∈ (processLine acc line).1, p ∈ acc.1
      ∨ (p.Name ≠ "mactop".toList ∧ p.Name ≠ "main".toList
        ∧ p.Name ≠ "powermetrics".toList) := by
  unfold processLine
  dsimp only
  split_ifs with h1 h2 h3
  · intro p hp; exact Or.inl hp
  · intro p hp; exact Or.inl hp
  · intro p hp
    rcases List.mem_append.mp hp with hp | hp
    · exact Or.inl hp
    · rw [List.mem_singleton.mp hp]
      right
      simp only [not_or] at h2
      exact h2
  · intro p hp; exact Or.inl hp

theorem foldl_processLine_name (lines : List (List Char)) :
    ∀ acc : List ProcessMetrics × List Int,
      (∀ p ∈ acc.1, p.Name ≠ "mactop".toList ∧ p.Name ≠ "main".toList
        ∧ p.Name ≠ "powermetrics".toList) →
      ∀ p ∈ (lines.foldl processLine acc).1, p.Name ≠ "mactop".toList
        ∧ p.Name ≠ "main".toList ∧ p.Name ≠ "powermetrics".toList := by
  induction lines with
  | nil => intro acc h; exact h
  | cons l ls ih =>
      intro acc h
      rw [List.foldl_cons]
      apply ih
      intro p hp
      rcases processLine_name acc l p hp with hq | hq
      · exact h p hq
      · exact hq

/-- C15: for every sampling unit, `parseProcessMetrics` started from the empty list returns no
record whose name is `mactop`, `main` or `powermetrics`; a line with such a name leaves the
list and the set of seen process ids as they were, so a unit that starts with such a line gives
the same result as the unit without that line, from every previous list: a later line with the
same process id and another name is still recorded. -/
theorem self_exclusion (unit : List Char) :
    (∀ p ∈ parseProcessMetrics unit [], p.Name ≠ "mactop".toList ∧ p.Name ≠ "main".toList
        ∧ p.Name ≠ "powermetrics".toList)
      ∧ (∀ (acc : List ProcessMetrics × List Int) (line : List Char),
          ((FindStringSubmatch dataRegex line).getD 1 [] = "mactop".toList
            ∨ (FindStringSubmatch dataRegex line).getD 1 [] = "main".toList
            ∨ (FindStringSubmatch dataRegex line).getD 1 [] = "powermetrics".toList) →
          processLine acc line = acc)
      ∧ (∀ (line : List Char) (prev : List ProcessMetrics), '\n' ∉ line →
          ((FindStringSubmatch dataRegex line).getD 1 [] = "mactop".toList
            ∨ (FindStringSubmatch dataRegex line).getD 1 [] = "main".toList
            ∨ (FindStringSubmatch dataRegex line).getD 1 [] = "powermetrics".toList) →
          parseProcessMetrics (line ++ '\n' :: unit) prev = parseProcessMetrics unit prev) := by
  refine ⟨?_, fun acc line h => processLine_excluded acc line h, ?_⟩
  · intro p hp
    unfold parseProcessMetrics at hp
    dsimp only at hp
    exact foldl_processLine_name (SplitLines unit) ([], []) (by simp) p
      ((sort.Slice_perm _ _).mem_iff.mp hp)
  · intro line prev hn h
    unfold parseProcessMetrics
    dsimp only
    rw [SplitLines_append_nl line unit hn, List.foldl_cons, processLine_excluded _ line h]

set_option maxRecDepth 100000 in
theorem selfUnit_eval :
    (FindStringSubmatch dataRegex "mactop 123 5.0 1.0 ".toList).getD 1 [] = "mactop".toList
      ∧ parseProcessMetrics "foo 123 2.5 1.0 ".toList []
        = [⟨123, "foo".toList, F64.ofDecimal "2".toList "5".toList⟩] := by
  decide!

/-- The process id 123 appears first on a line of `mactop` and then on a line of `foo`: the
first line is skipped without marking 123 as seen, and the record of `foo` is returned. -/
theorem self_exclusion_witness :
    parseProcessMetrics selfUnit []
      = [⟨123, "foo".toList, F64.ofDecimal "2".toList "5".toList⟩] := by
  have h := (self_exclusion "foo 123 2.5 1.0 ".toList).2.2 "mactop 123 5.0 1.0 ".toList []
    (by decide) (Or.inl selfUnit_eval.1)
  exact h.trans selfUnit_eval.2

theorem standardLine_idle (st : Locals) (line : List Char) (h : noCPUPattern line) :
    standardLine st line = st := by
  obtain ⟨h1, h2, h3, h4, h5, h6, h7⟩ := h
  unfold standardLine
  rw [residencyStep_nomatch st line h1, frequencyStep_nomatch st line h2]
  unfold coresAndPower
  rw [h3, h4, h5, h6, h7]
  rfl

theorem foldl_standardLine_idle (lines : List (List Char)) (st : Locals)
    (h : ∀ line ∈ lines, noCPUPattern line) : lines.foldl standardLine st = st := by
  induction lines with
  | nil => rfl
  | cons l ls ih =>
      rw [List.foldl_cons, standardLine_idle st l (h l (List.mem_cons_self _ _))]
      exact ih (fun x hx => h x (List.mem_cons_of_mem _ hx))

/-- The statements after the loop, run on the local variables as they are before the loop. -/
theorem aggregate_init (prev : CPUMetrics) :
    aggregate (Locals.init prev)
      = afterMiss prev := by
  cases prev
  unfold aggregate Locals.init afterMiss
  dsimp only
  rw [if_neg (lt_irrefl (0 : Int))]
  split_ifs <;> rfl

/-- C16 (as the code behaves): on a standard model, for every previous snapshot and every
sampling unit in which no line shows a recognized CPU pattern, `parseCPUMetrics` returns the
previous snapshot with the six sub-cluster usages and frequencies and the four power fields as
they were, with empty ECores and PCores, and with the four summary fields recomputed by the
aggregation rules from the previous values: the statements after the loop run all the same. -/
theorem parse_miss_runs_aggregation (unit : List Char) (prev : CPUMetrics) (model : List Char)
    (hm : model ≠ "Apple M3 Max".toList ∧ model ≠ "Apple M2 Max".toList)
    (h : ∀ line ∈ SplitLines unit, noCPUPattern line) :
    parseCPUMetrics unit prev model = afterMiss prev := by
  rw [parseCPUMetrics_standard unit prev model hm, foldl_standardLine_idle _ _ h,
    aggregate_init]

set_option maxRecDepth 100000 in
/-- An unrelated line after a snapshot of a chip with one performance cluster: the sub-cluster
fields stay, the core lists are emptied and rule 4 adds P0 to the summary usage. -/
theorem parse_miss_runs_aggregation_witness :
    parseCPUMetrics "hello world".toList singlePPrev "Apple M1".toList
      = { singlePPrev with ECores := [], PClusterActive := 120 } := by
  have h := parse_miss_runs_aggregation "hello world".toList singlePPrev "Apple M1".toList
    (by decide) (by decide!)
  exact h.trans (by decide!)

set_option maxRecDepth 100000 in
/-- C16 as stated fails: on the empty line, which shows no CPU pattern, the returned
PClusterActive is 120 where the previous snapshot has 60, and the returned ECores is empty where
the previous snapshot has core 0. -/
theorem parse_miss_counterexample :
    (∀ line ∈ SplitLines "".toList, noCPUPattern line)
      ∧ (parseCPUMetrics "".toList singlePPrev "Apple M1".toList).PClusterActive = 120
      ∧ singlePPrev.PClusterActive = 60
      ∧ (parseCPUMetrics "".toList singlePPrev "Apple M1".toList).ECores = []
      ∧ singlePPrev.ECores = [0] := by
  decide!

theorem HasPrefix_E_not_P (c : List Char) (h : HasPrefix c "E".toList = true) :
    HasPrefix c "P".toList = false := by
  cases c with
  | nil => rfl
  | cons x xs =>
      have hx : 'E' = x := by simpa [HasPrefix] using h
      subst hx
      rfl

/-- What the residency block does to the running values of the performance clusters. -/
theorem residencyStep_perf (st : Locals) (line : List Char) :
    (residencyStep st line).pClusterActiveTotal
        = (match lineResidency "P".toList line with
          | some v => addInt st.pClusterActiveTotal v
          | none => st.pClusterActiveTotal)
      ∧ (residencyStep st line).pClusterCount
        = (match lineResidency "P".toList line with
          | some _ => addInt st.pClusterCount 1
          | none => st.pClusterCount)
      ∧ (residencyStep st line).cpuMetrics.PClusterActive
        = (match lineResidency "P".toList line with
          | some v => divInt (addInt st.pClusterActiveTotal v) (addInt st.pClusterCount 1)
          | none => st.cpuMetrics.PClusterActive) := by
  unfold residencyStep lineResidency
  dsimp only
  by_cases hm : FindStringSubmatch residencyRe line ≠ []
  · rw [if_pos hm]
    by_cases he : HasPrefix ((FindStringSubmatch residencyRe line).getD 1 []) "E".toList = true
    · have hp := HasPrefix_E_not_P _ he
      rw [if_pos he, if_neg (fun h => absurd h.2 (by rw [hp]; decide))]
      exact ⟨rfl, rfl, setClusterActive_PClusterActive _ _ _⟩
    · rw [if_neg he]
      by_cases hp : HasPrefix ((FindStringSubmatch residencyRe line).getD 1 []) "P".toList = true
      · rw [if_pos hp, if_pos ⟨hm, hp⟩]
        exact ⟨rfl, rfl, rfl⟩
      · rw [if_neg hp, if_neg (fun h => hp h.2)]
        exact ⟨rfl, rfl, setClusterActive_PClusterActive _ _ _⟩
  · rw [if_neg hm, if_neg (fun h => hm h.1)]
    exact ⟨rfl, rfl, rfl⟩

theorem standardLine_perf (st : Locals) (line : List Char) :
    (standardLine st line).pClusterActiveTotal
        = (match lineResidency "P".toList line with
          | some v => addInt st.pClusterActiveTotal v
          | none => st.pClusterActiveTotal)
      ∧ (standardLine st line).pClusterCount
        = (match lineResidency "P".toList line with
          | some _ => addInt st.pClusterCount 1
          | none => st.pClusterCount)
      ∧ (standardLine st line).cpuMetrics.PClusterActive
        = (match lineResidency "P".toList line with
          | some v => divInt (addInt st.pClusterActiveTotal v) (addInt st.pClusterCount 1)
          | none => st.cpuMetrics.PClusterActive) := by
  obtain ⟨a, b, c⟩ := residencyStep_perf st line
  have hu := standardLine_usage st line
  exact ⟨(congrArg UsageView.pTotal hu).trans a, (congrArg UsageView.pCount hu).trans b,
    (congrArg UsageView.P hu).trans c⟩

/-- After the loop of the standard branch the performance total and counter are those of the
performance-cluster lines of the unit, and the summary performance usage is their quotient, or
the value before the loop when there is no such line. -/
theorem foldl_standardLine_perf (lines : List (List Char)) : ∀ st : Locals,
    (lines.foldl standardLine st).pClusterActiveTotal
        = (lines.filterMap (lineResidency "P".toList)).foldl addInt st.pClusterActiveTotal
      ∧ (lines.foldl standardLine st).pClusterCount
        = (lines.filterMap (lineResidency "P".toList)).foldl (fun c _ => addInt c 1)
            st.pClusterCount
      ∧ (lines.foldl standardLine st).cpuMetrics.PClusterActive
        = (if lines.filterMap (lineResidency "P".toList) = [] then st.cpuMetrics.PClusterActive
          else divInt
            ((lines.filterMap (lineResidency "P".toList)).foldl addInt st.pClusterActiveTotal)
            ((lines.filterMap (lineResidency "P".toList)).foldl (fun c _ => addInt c 1)
              st.pClusterCount)) := by
  induction lines with
  | nil => intro st; exact ⟨rfl, rfl, rfl⟩
  | cons l ls ih =>
      intro st
      obtain ⟨a, b, c⟩ := ih (standardLine st l)
      obtain ⟨a1, b1, c1⟩ := standardLine_perf st l
      rw [List.foldl_cons, a, b, c, a1, b1, c1, List.filterMap_cons]
      cases hl : lineResidency "P".toList l with
      | none => exact ⟨rfl, rfl, rfl⟩
      | some v =>
          refine ⟨rfl, rfl, ?_⟩
          dsimp only
          rw [if_neg (List.cons_ne_nil _ _)]
          by_cases hn : ls.filterMap (lineResidency "P".toList) = []
          · rw [if_pos hn, hn]
            rfl
          · rw [if_neg hn]
            rfl

/-- C17: on a standard model, for every previous snapshot and every sampling unit, when P3 and
P1 are both 0 in the returned snapshot the returned PClusterActive is Go's `v + P0ClusterActive`
with the returned P0 usage, where `v` is the previous PClusterActive when the unit holds no
performance-cluster residency line, and otherwise the integer mean of the residencies on those
lines (their sum divided by their number); for values within [0,100] the 64-bit sum is the
exact sum. The value is added, not averaged. -/
theorem single_perf_cluster_rule (unit : List Char) (prev : CPUMetrics) (model : List Char)
    (hm : model ≠ "Apple M3 Max".toList ∧ model ≠ "Apple M2 Max".toList) :
    let r := parseCPUMetrics unit prev model
    r.P3ClusterActive = 0 → r.P1ClusterActive = 0 →
      (clusterResidencies "P".toList unit = [] →
          r.PClusterActive = addInt prev.PClusterActive r.P0ClusterActive
            ∧ ((0 ≤ prev.PClusterActive ∧ prev.PClusterActive ≤ 100)
                ∧ (0 ≤ r.P0ClusterActive ∧ r.P0ClusterActive ≤ 100) →
              r.PClusterActive = prev.PClusterActive + r.P0ClusterActive))
        ∧ (clusterResidencies "P".toList unit ≠ [] →
            ((clusterResidencies "P".toList unit).length : Int) ≤ maxInt →
            r.PClusterActive
                = addInt (divInt ((clusterResidencies "P".toList unit).foldl addInt 0)
                    ((clusterResidencies "P".toList unit).length : Int)) r.P0ClusterActive) := by
  intro r h3 h1
  have hr : r = aggregate ((SplitLines unit).foldl standardLine (Locals.init prev)) :=
    parseCPUMetrics_standard unit prev model hm
  obtain ⟨ht, hc, hp⟩ := foldl_standardLine_perf (SplitLines unit) (Locals.init prev)
  change _ = (clusterResidencies "P".toList unit).foldl addInt 0 at ht
  change _ = (clusterResidencies "P".toList unit).foldl (fun c _ => addInt c 1) 0 at hc
  change _ = (if clusterResidencies "P".toList unit = [] then prev.PClusterActive
    else divInt ((clusterResidencies "P".toList unit).foldl addInt 0)
      ((clusterResidencies "P".toList unit).foldl (fun c _ => addInt c 1) 0)) at hp
  generalize (SplitLines unit).foldl standardLine (Locals.init prev) = st at hr ht hc hp
  rw [hr] at h3 h1 ⊢
  rw [aggregate_P3ClusterActive] at h3
  rw [aggregate_P1ClusterActive] at h1
  simp only [aggregate_P0ClusterActive, aggregate_PClusterActive]
  rw [if_neg (not_not.mpr h3), if_neg (not_not.mpr h1), hp]
  refine ⟨fun hnil => ?_, fun hne hlen => ?_⟩
  · rw [if_pos hnil]
    refine ⟨rfl, ?_⟩
    rintro ⟨⟨a0, b0⟩, ⟨a1, b1⟩⟩
    exact addInt_of_range _ _ (by unfold minInt; omega) (by unfold maxInt; omega)
  · rw [if_neg hne, foldl_count _ 0 (le_refl 0) (by simpa using hlen), zero_add]

set_option maxRecDepth 100000 in
theorem p0Unit_eval :
    clusterResidencies "P".toList p0Unit = [60]
      ∧ (parseCPUMetrics p0Unit CPUMetrics.zero "Apple M1".toList).P3ClusterActive = 0
      ∧ (parseCPUMetrics p0Unit CPUMetrics.zero "Apple M1".toList).P1ClusterActive = 0
      ∧ (parseCPUMetrics p0Unit CPUMetrics.zero "Apple M1".toList).P0ClusterActive = 60 := by
  decide!

set_option maxRecDepth 100000 in
theorem helloUnit_eval :
    clusterResidencies "P".toList "hello world".toList = []
      ∧ (parseCPUMetrics "hello world".toList singlePPrev "Apple M1".toList).P3ClusterActive = 0
      ∧ (parseCPUMetrics "hello world".toList singlePPrev "Apple M1".toList).P1ClusterActive = 0
      ∧ (parseCPUMetrics "hello world".toList singlePPrev "Apple M1".toList).P0ClusterActive
        = 60 := by
  decide!

/-- The line of P0 at 60 percent on the zero snapshot gives the mean 60 plus the P0 usage 60;
an unrelated line after a snapshot with PClusterActive 60 and P0 at 60 gives 60 + 60. -/
theorem single_perf_cluster_rule_witness :
    (parseCPUMetrics p0Unit CPUMetrics.zero "Apple M1".toList).PClusterActive = 120
      ∧ (parseCPUMetrics "hello world".toList singlePPrev "Apple M1".toList).PClusterActive
        = 120 := by
  obtain ⟨e, e3, e1, e0⟩ := p0Unit_eval
  obtain ⟨f, f3, f1, f0⟩ := helloUnit_eval
  have h := (single_perf_cluster_rule p0Unit CPUMetrics.zero "Apple M1".toList (by decide)
    e3 e1).2 (by rw [e]; decide) (by rw [e]; decide)
  have g := ((single_perf_cluster_rule "hello world".toList singlePPrev "Apple M1".toList
    (by decide) f3 f1).1 f).1
  rw [e, e0] at h
  rw [f0] at g
  exact ⟨h.trans (by decide), g.trans (by decide)⟩

/-- The loop body only appends to the list and does not read it. -/
theorem processLine_append (prev a : List ProcessMetrics) (s : List Int) (line : List Char) :
    processLine (prev ++ a, s) line
      = (prev ++ (processLine (a, s) line).1, (processLine (a, s) line).2) := by
  unfold processLine
  dsimp only
  split_ifs <;> simp

theorem foldl_processLine_append (prev : List ProcessMetrics) (lines : List (List Char)) :
    ∀ (a : List ProcessMetrics) (s : List Int),
    lines.foldl processLine (prev ++ a, s)
      = (prev ++ (lines.foldl processLine (a, s)).1, (lines.foldl processLine (a, s)).2) := by
  induction lines with
  | nil => intro a s; rfl
  | cons l ls ih =>
      intro a s
      rw [List.foldl_cons, List.foldl_cons, processLine_append, ih]

theorem processLine_nomatch (acc : List ProcessMetrics × List Int) (line : List Char)
    (h : FindStringSubmatch dataRegex line = []) : processLine acc line = acc := by
  unfold processLine
  dsimp only
  rw [h]
  rfl

theorem foldl_processLine_nomatch (lines : List (List Char))
    (h : ∀ line ∈ lines, FindStringSubmatch dataRegex line = [])
    (acc : List ProcessMetrics × List Int) : lines.foldl processLine acc = acc := by
  induction lines with
  | nil => rfl
  | cons l ls ih =>
      rw [List.foldl_cons, processLine_nomatch acc l (h l (List.mem_cons_self _ _))]
      exact ih (fun x hx => h x (List.mem_cons_of_mem _ hx))

/-- C18: for every previous process list and every sampling unit, the list returned by
`parseProcessMetrics` is a permutation of the previous list followed by the records extracted
from the unit; every record of the previous list is in the output, the output is never shorter
than the previous list, and a unit in which `dataRegex` matches no line returns a permutation
of the previous list. -/
theorem process_list_accumulates (unit : List Char) (prev : List ProcessMetrics) :
    (parseProcessMetrics unit prev).Perm (prev ++ newRecords unit)
      ∧ (∀ p ∈ prev, p ∈ parseProcessMetrics unit prev)
      ∧ prev.length ≤ (parseProcessMetrics unit prev).length
      ∧ (∀ p : ProcessMetrics, prev.count p ≤ (parseProcessMetrics unit prev).count p)
      ∧ ((∀ line ∈ SplitLines unit, FindStringSubmatch dataRegex line = []) →
          (parseProcessMetrics unit prev).Perm prev) := by
  have hf := foldl_processLine_append prev (SplitLines unit) [] []
  rw [List.append_nil] at hf
  have hp : (parseProcessMetrics unit prev).Perm (prev ++ newRecords unit) := by
    unfold parseProcessMetrics newRecords
    dsimp only
    rw [hf]
    exact sort.Slice_perm _ _
  refine ⟨hp, ?_, ?_, ?_, ?_⟩
  · intro p h
    exact hp.mem_iff.mpr (List.mem_append_left _ h)
  · rw [hp.length_eq, List.length_append]
    exact Nat.le_add_right _ _
  · intro p
    rw [hp.count_eq, List.count_append]
    exact Nat.le_add_right _ _
  · intro h
    have hn : newRecords unit = [] := by
      unfold newRecords
      rw [foldl_processLine_nomatch (SplitLines unit) h]
    rw [hn, List.append_nil] at hp
    exact hp

set_option maxRecDepth 100000 in
theorem fooUnit_eval :
    newRecords "foo 7 50.5 1.0 ".toList
        = [⟨7, "foo".toList, F64.ofDecimal "50".toList "5".toList⟩]
      ∧ parseProcessMetrics "foo 7 50.5 1.0 ".toList safariList
        = [⟨7, "foo".toList, F64.ofDecimal "50".toList "5".toList⟩,
            ⟨123, "Safari".toList, F64.ofDecimal "4".toList "5".toList⟩]
      ∧ ∀ line ∈ SplitLines "hello world".toList, FindStringSubmatch dataRegex line = [] := by
  decide!

/-- After the record of Safari, the unit with the line of `foo` returns both records, `foo`
first; a unit without a process line returns the record of Safari. -/
theorem process_list_accumulates_witness :
    (parseProcessMetrics "foo 7 50.5 1.0 ".toList safariList).Perm
        (safariList ++ [⟨7, "foo".toList, F64.ofDecimal "50".toList "5".toList⟩])
      ∧ (parseProcessMetrics "hello world".toList safariList).Perm safariList := by
  have h := (process_list_accumulates "foo 7 50.5 1.0 ".toList safariList).1
  rw [fooUnit_eval.1] at h
  exact ⟨h, (process_list_accumulates "hello world".toList safariList).2.2.2.2
    fooUnit_eval.2.2⟩

set_option maxRecDepth 100000 in
/-- C9 as stated fails, on the zero snapshot of an Apple M1. The percentage
99.99999999999999999 has the integer part 99, but its nearest float64 is 100.0 and the unit
returns EClusterActive = 100; the frequency 99999999999999999999 is more than a Go `int` holds
and the unit returns EClusterFreqMHz = `2^63 - 1`. -/
theorem two_cluster_profile_counterexample :
    CPUMetrics.zero.E1ClusterActive = 0
      ∧ (parseCPUMetrics ("E0-Cluster HW active residency:  99.99999999999999999%\n"
          ++ "E0-Cluster HW active frequency: 1000 MHz").toList CPUMetrics.zero
          "Apple M1".toList).EClusterActive = 100
      ∧ (parseCPUMetrics ("E0-Cluster HW active residency:  99.99999999999999999%\n"
          ++ "E0-Cluster HW active frequency: 1000 MHz").toList CPUMetrics.zero
          "Apple M1".toList).EClusterActive ≠ (digitsVal 0 "99".toList : Int)
      ∧ (parseCPUMetrics ("E0-Cluster HW active residency:  10.00%\n"
          ++ "E0-Cluster HW active frequency: 99999999999999999999 MHz").toList CPUMetrics.zero
          "Apple M1".toList).EClusterFreqMHz = maxInt
      ∧ (parseCPUMetrics ("E0-Cluster HW active residency:  10.00%\n"
          ++ "E0-Cluster HW active frequency: 99999999999999999999 MHz").toList CPUMetrics.zero
          "Apple M1".toList).EClusterFreqMHz
            ≠ (digitsVal 0 "99999999999999999999".toList : Int) := by
  decide!

set_option maxRecDepth 100000 in
/-- The summary efficiency frequency is a running sum (source lines 298-300): with a second
efficiency frequency line and no E1 residency, the unit with E0 at 1000 MHz and E1 at 1200 MHz
returns EClusterFreqMHz = 2200, where the comment at source line 363 speaks of an average
(1100). -/
theorem eff_frequency_running_sum :
    (parseCPUMetrics ("E0-Cluster HW active residency:  10.00%\n"
        ++ "E0-Cluster HW active frequency: 1000 MHz\n"
        ++ "E1-Cluster HW active frequency: 1200 MHz").toList CPUMetrics.zero
        "Apple M1".toList).EClusterFreqMHz = 2200 := by
  decide!

/-- Rounding in the normal range is accurate to half a unit in the last place: the result is
finite and its distance to `a / b` is at most `a / b / 2^53`. -/
theorem roundUnits_near (neg : Bool) (a b : Nat) (hb : 0 < b) (hlo : 2 ^ 52 * b ≤ a)
    (hhi : a < 2 ^ 2097 * b) :
    ∃ n, F64.roundUnits neg a b = F64.fin neg n
      ∧ (n * b - a) * 2 ^ 53 ≤ a ∧ (a - n * b) * 2 ^ 53 ≤ a := by
  have hlo2 : 2 ^ 52 ≤ a / b := (Nat.le_div_iff_mul_le hb).mpr hlo
  have hhi2 : a / b < 2 ^ 2097 := (Nat.div_lt_iff_lt_mul hb).mpr hhi
  have hv : 0 < a / b := lt_of_lt_of_le (Nat.two_pow_pos 52) hlo2
  obtain ⟨l1, l2⟩ := ilog2_spec (a / b) hv
  have hL52 : 52 ≤ ilog2 (a / b) := by
    by_contra hc
    have : 2 ^ (ilog2 (a / b) + 1) ≤ 2 ^ 52 := Nat.pow_le_pow_right (by decide) (by omega)
    omega
  have hL : ilog2 (a / b) + 1 ≤ 2097 := by
    by_contra hc
    have : 2 ^ 2097 ≤ 2 ^ ilog2 (a / b) := Nat.pow_le_pow_right (by decide) (by omega)
    omega
  unfold F64.roundUnits
  dsimp only
  generalize hs : ilog2 (a / b) - 52 = s
  have hLs : ilog2 (a / b) = s + 52 := by omega
  rw [hLs] at l1 l2 hL
  have he : 0 < 2 ^ s := Nat.two_pow_pos s
  have e1 : 2 ^ (s + 52) = 2 ^ s * 2 ^ 52 := pow_add 2 s 52
  have e2 : 2 ^ (s + 52 + 1) = 2 ^ s * 2 ^ 53 := pow_add 2 s 53
  rw [e1] at l1
  rw [e2] at l2
  have hT : 2 ^ s * 2 ^ 53 ≤ 2 ^ 2097 := by
    rw [← pow_add]
    exact Nat.pow_le_pow_right (by decide) (by omega)
  have hT2 : (2 : Nat) ^ 2097 < 2 ^ 2098 := Nat.pow_lt_pow_right (by decide) (by decide)
  generalize hq : a / (b * 2 ^ s) = q
  generalize hr : a % (b * 2 ^ s) = r
  have hdq : b * 2 ^ s * q + r = a := by
    rw [← hq, ← hr]
    exact Nat.div_add_mod a _
  have hrd : r < b * 2 ^ s := by
    rw [← hr]
    exact Nat.mod_lt _ (Nat.mul_pos hb he)
  have hvb : a / b * b ≤ a := Nat.div_mul_le_self a b
  have hvb2 : a < (a / b + 1) * b := by
    have h1 := Nat.div_add_mod a b
    have h2 := Nat.mod_lt a hb
    have e : (a / b + 1) * b = b * (a / b) + b := by ring
    omega
  generalize a / b = v at *
  generalize (2 : Nat) ^ 2097 = T7 at *
  generalize (2 : Nat) ^ 2098 = T at *
  generalize (2 : Nat) ^ s = e at *
  have h52 : (2 : Nat) ^ 52 = 4503599627370496 := by norm_num
  have h53 : (2 : Nat) ^ 53 = 9007199254740992 := by norm_num
  rw [h52] at l1
  rw [h53] at l2 hT ⊢
  have hd52 : b * e * 4503599627370496 ≤ a := by
    have h1 := Nat.mul_le_mul_right b l1
    have e3 : e * 4503599627370496 * b = b * e * 4503599627370496 := by ring
    omega
  have hd53 : a < b * e * 9007199254740992 := by
    have h1 : (v + 1) * b ≤ e * 9007199254740992 * b := Nat.mul_le_mul_right b (by omega)
    have e3 : e * 9007199254740992 * b = b * e * 9007199254740992 := by ring
    omega
  have hq53 : q < 9007199254740992 := by
    by_contra hc
    have h1 := Nat.mul_le_mul_left (b * e) (show 9007199254740992 ≤ q by omega)
    omega
  have hM : ∀ m, m = (if 2 * r < b * e then q
      else if b * e < 2 * r then q + 1 else if q % 2 = 0 then q else q + 1) →
      (m = q ∧ 2 * r ≤ b * e) ∨ (m = q + 1 ∧ b * e ≤ 2 * r) := by
    intro m hm
    split_ifs at hm <;> omega
  have hm := hM _ rfl
  generalize (if 2 * r < b * e then q
      else if b * e < 2 * r then q + 1 else if q % 2 = 0 then q else q + 1) = m at hm ⊢
  have hn : m * e < T := by
    have h1 : m * e ≤ 9007199254740992 * e := Nat.mul_le_mul_right e (by omega)
    have e4 : 9007199254740992 * e = e * 9007199254740992 := by ring
    omega
  rw [if_neg (by omega)]
  refine ⟨m * e, rfl, ?_, ?_⟩
  · rcases hm with ⟨hmq, h⟩ | ⟨hmq, h⟩
    · have e5 : q * e * b = b * e * q := by ring
      rw [hmq, e5]
      omega
    · have e5 : (q + 1) * e * b = b * e * q + b * e := by ring
      rw [hmq, e5]
      omega
  · rcases hm with ⟨hmq, h⟩ | ⟨hmq, h⟩
    · have e5 : q * e * b = b * e * q := by ring
      rw [hmq, e5]
      omega
    · have e5 : (q + 1) * e * b = b * e * q + b * e := by ring
      rw [hmq, e5]
      omega

/-- A natural number below `2^53` converts to binary64 without rounding. -/
theorem F64.ofNat_exact (N : Nat) (h : N < 2 ^ 53) :
    F64.ofNat N = F64.fin false (N * F64.one) := by
  have hone : F64.one = 2 ^ 1074 := rfl
  have hop := F64.one_pos
  unfold F64.ofNat F64.roundUnits
  dsimp only
  rw [Nat.div_one, one_mul]
  have hsL : ilog2 (N * F64.one) - 52 ≤ 1074 := by
    by_cases h0 : N * F64.one = 0
    · rw [h0, ilog2_zero]
      omega
    · obtain ⟨l1, _⟩ := ilog2_spec _ (Nat.pos_of_ne_zero h0)
      by_contra hc
      have h5 : (2 : Nat) ^ 1127 ≤ 2 ^ ilog2 (N * F64.one) :=
        Nat.pow_le_pow_right (by decide) (by omega)
      have h6 : N * F64.one < 2 ^ 53 * F64.one := Nat.mul_lt_mul_of_pos_right h hop
      have h7 : (2 : Nat) ^ 53 * F64.one = 2 ^ 1127 := by rw [hone, ← pow_add]
      omega
  generalize ilog2 (N * F64.one) - 52 = s at hsL ⊢
  obtain ⟨g, hg⟩ : ∃ g, F64.one = g * 2 ^ s :=
    ⟨2 ^ (1074 - s), by rw [← pow_add, Nat.sub_add_cancel hsL]; rfl⟩
  have he : 0 < 2 ^ s := Nat.two_pow_pos s
  have hbig : N * F64.one < 2 ^ 2098 := by
    have h6 : N * F64.one < 2 ^ 53 * F64.one := Nat.mul_lt_mul_of_pos_right h hop
    have h7 : (2 : Nat) ^ 53 * F64.one = 2 ^ 1127 := by rw [hone, ← pow_add]
    have h8 : (2 : Nat) ^ 1127 ≤ 2 ^ 2098 := Nat.pow_le_pow_right (by decide) (by decide)
    omega
  have ea : N * F64.one = N * g * 2 ^ s := by rw [hg]; ring
  rw [ea] at hbig ⊢
  rw [Nat.mul_div_cancel _ he, Nat.mul_mod_left, Nat.mul_zero, if_pos he, if_neg (by omega)]

/-- The quotient by 1000 of a natural number below `2^53`, as `parseCPUMetrics` computes it: a
finite value `m * 2^(-1074)` at distance at most `N / 1000 / 2^53` of `N / 1000`. -/
theorem watts_near (N : Nat) (h : N < 2 ^ 53) :
    ∃ m, F64.div (F64.ofNat N) (F64.ofNat 1000) = F64.fin false m
      ∧ (1000 * m - N * F64.one) * 2 ^ 53 ≤ N * F64.one
      ∧ (N * F64.one - 1000 * m) * 2 ^ 53 ≤ N * F64.one := by
  have hone : F64.one = 2 ^ 1074 := rfl
  have hop := F64.one_pos
  rw [F64.ofNat_exact N h, F64.ofNat_exact 1000 (by norm_num)]
  simp only [F64.div]
  have hy : ¬ 1000 * F64.one = 0 := by omega
  rw [if_neg hy]
  by_cases h0 : N = 0
  · subst h0
    refine ⟨0, ?_, by simp, by simp⟩
    simp
  · have hx : ¬ N * F64.one = 0 := by
      intro hc
      rcases Nat.mul_eq_zero.mp hc with hc | hc <;> omega
    rw [if_neg hx]
    have hlo : 2 ^ 52 * (1000 * F64.one) ≤ N * F64.one * F64.one := by
      have h1 : 2 ^ 52 * 1000 ≤ F64.one := by
        rw [hone]
        calc 2 ^ 52 * 1000 ≤ 2 ^ 52 * 2 ^ 10 := Nat.mul_le_mul_left _ (by norm_num)
          _ = 2 ^ 62 := by rw [← pow_add]
          _ ≤ 2 ^ 1074 := Nat.pow_le_pow_right (by decide) (by decide)
      have h2 : F64.one ≤ N * F64.one := Nat.le_mul_of_pos_left _ (by omega)
      calc 2 ^ 52 * (1000 * F64.one) = 2 ^ 52 * 1000 * F64.one := by ring
        _ ≤ N * F64.one * F64.one := Nat.mul_le_mul_right _ (le_trans h1 h2)
    have hhi : N * F64.one * F64.one < 2 ^ 2097 * (1000 * F64.one) := by
      have h1 : N * F64.one < 2 ^ 2097 := by
        have h6 : N * F64.one < 2 ^ 53 * F64.one := Nat.mul_lt_mul_of_pos_right h hop
        have h7 : (2 : Nat) ^ 53 * F64.one = 2 ^ 1127 := by rw [hone, ← pow_add]
        have h8 : (2 : Nat) ^ 1127 ≤ 2 ^ 2097 :=
          Nat.pow_le_pow_right (by decide) (by decide)
        omega
      calc N * F64.one * F64.one < 2 ^ 2097 * F64.one := Nat.mul_lt_mul_of_pos_right h1 hop
        _ ≤ 2 ^ 2097 * (1000 * F64.one) := Nat.mul_le_mul_left _ (by omega)
    obtain ⟨n, hn, b1, b2⟩ := roundUnits_near (xor false false) _ _ (by omega) hlo hhi
    refine ⟨n, hn, ?_, ?_⟩
    · generalize F64.one = U at *
      have e : n * (1000 * U) - N * U * U = (1000 * n - N * U) * U := by
        rw [Nat.sub_mul, show n * (1000 * U) = 1000 * n * U by ring]
      rw [e] at b1
      have e2 : (1000 * n - N * U) * U * 2 ^ 53 = (1000 * n - N * U) * 2 ^ 53 * U := by ring
      rw [e2] at b1
      exact Nat.le_of_mul_le_mul_right b1 hop
    · generalize F64.one = U at *
      have e : N * U * U - n * (1000 * U) = (N * U - 1000 * n) * U := by
        rw [Nat.sub_mul, show n * (1000 * U) = 1000 * n * U by ring]
      rw [e] at b2
      have e2 : (N * U - 1000 * n) * U * 2 ^ 53 = (N * U - 1000 * n) * 2 ^ 53 * U := by ring
      rw [e2] at b2
      exact Nat.le_of_mul_le_mul_right b2 hop

/-- C5: on every model and for every natural number `N`, a unit made of one power record with
the reading `N mW` returns the float64 quotient `float64(N) / 1000` in the field of the record:
`CPU Power` in CPUW, `ANE Power` in ANEW, `GPU Power` in GPUW,
`Combined Power (CPU + GPU + ANE)` in PackageW. For `N` below `2^53` that quotient is the
finite value `m * 2^(-1074)` with `|1000 * m - N * 2^1074| * 2^53 <= N * 2^1074`: the field is
`N / 1000` up to the rounding of one float64 division, a relative error of at most `2^(-53)`. -/
theorem power_unit_conversion (prev : CPUMetrics) (model : List Char) (N : Nat) :
    ((parseCPUMetrics ("CPU Power: ".toList ++ (Nat.repr N).toList ++ " mW".toList) prev
        model).CPUW = F64.div (F64.ofNat N) (F64.ofNat 1000)
      ∧ (parseCPUMetrics ("ANE Power: ".toList ++ (Nat.repr N).toList ++ " mW".toList) prev
        model).ANEW = F64.div (F64.ofNat N) (F64.ofNat 1000)
      ∧ (parseCPUMetrics ("GPU Power: ".toList ++ (Nat.repr N).toList ++ " mW".toList) prev
        model).GPUW = F64.div (F64.ofNat N) (F64.ofNat 1000)
      ∧ (parseCPUMetrics ("Combined Power (CPU + GPU + ANE): ".toList ++ (Nat.repr N).toList
        ++ " mW".toList) prev model).PackageW = F64.div (F64.ofNat N) (F64.ofNat 1000))
      ∧ (N < 2 ^ 53 → ∃ m : Nat,
          (1000 * m - N * F64.one) * 2 ^ 53 ≤ N * F64.one
          ∧ (N * F64.one - 1000 * m) * 2 ^ 53 ≤ N * F64.one
          ∧ (parseCPUMetrics ("CPU Power: ".toList ++ (Nat.repr N).toList ++ " mW".toList) prev
            model).CPUW = F64.fin false m
          ∧ (parseCPUMetrics ("ANE Power: ".toList ++ (Nat.repr N).toList ++ " mW".toList) prev
            model).ANEW = F64.fin false m
          ∧ (parseCPUMetrics ("GPU Power: ".toList ++ (Nat.repr N).toList ++ " mW".toList) prev
            model).GPUW = F64.fin false m
          ∧ (parseCPUMetrics ("Combined Power (CPU + GPU + ANE): ".toList
            ++ (Nat.repr N).toList ++ " mW".toList) prev model).PackageW = F64.fin false m) := by
  obtain ⟨hne, hd, hv⟩ := repr_digits N
  have hw := milliwattsToWatts_digits _ hne hd
  rw [hv] at hw
  have h := parseCPUMetrics_power (Nat.repr N).toList prev model hne
    (fun c hc => readingChar_digit c (hd c hc))
  rw [hw] at h
  refine ⟨h, fun hN => ?_⟩
  obtain ⟨m, hm, b1, b2⟩ := watts_near N hN
  rw [hm] at h
  exact ⟨m, b1, b2, h⟩

/-- The example of the specification, on the zero snapshot of an Apple M1: 2500 mW gives 2.5
watts, which is `5 * 2^1073` units of `2^(-1074)`, in each of the four power fields, and 2.5 is
exactly 2500 / 1000. -/
theorem power_unit_conversion_witness :
    (2500 : Nat) < 2 ^ 53
      ∧ (parseCPUMetrics "CPU Power: 2500 mW".toList CPUMetrics.zero "Apple M1".toList).CPUW
        = F64.fin false (5 * 2 ^ 1073)
      ∧ (parseCPUMetrics "ANE Power: 2500 mW".toList CPUMetrics.zero "Apple M1".toList).ANEW
        = F64.fin false (5 * 2 ^ 1073)
      ∧ (parseCPUMetrics "GPU Power: 2500 mW".toList CPUMetrics.zero "Apple M1".toList).GPUW
        = F64.fin false (5 * 2 ^ 1073)
      ∧ (parseCPUMetrics "Combined Power (CPU + GPU + ANE): 2500 mW".toList CPUMetrics.zero
        "Apple M1".toList).PackageW = F64.fin false (5 * 2 ^ 1073)
      ∧ 1000 * (5 * 2 ^ 1073) = 2500 * F64.one := by
  have hN : (2500 : Nat) < 2 ^ 53 := by norm_num
  obtain ⟨h1, h2⟩ := power_unit_conversion CPUMetrics.zero "Apple M1".toList 2500
  obtain ⟨m, _, _, c, a, g, p⟩ := h2 hN
  rw [watts_2500] at h1
  refine ⟨hN, h1.1, h1.2.1, h1.2.2.1, h1.2.2.2, ?_⟩
  have hone : F64.one = 2 ^ 1073 * 2 := pow_succ 2 1073
  rw [hone]
  generalize (2 : Nat) ^ 1073 = P
  omega

/-- Two ways of cutting a text into a run of a class and a rest that does not start with a
character of the class agree. -/
theorem run_unique (P : Char → Bool) : ∀ (X Y A B : List Char),
    (∀ c ∈ X, P c = true) → (∀ c ∈ Y, P c = true) →
    (∀ c ∈ A.head?, P c = false) → (∀ c ∈ B.head?, P c = false) →
    X ++ A = Y ++ B → X = Y ∧ A = B := by
  intro X
  induction X with
  | nil =>
      intro Y A B _ hY hA _ h
      cases Y with
      | nil => exact ⟨rfl, h⟩
      | cons y ys =>
          exfalso
          rw [List.nil_append, List.cons_append] at h
          have h1 := hA y (by rw [h]; rfl)
          rw [hY y (List.mem_cons_self _ _)] at h1
          cases h1
  | cons x xs ih =>
      intro Y A B hX hY hA hB h
      cases Y with
      | nil =>
          exfalso
          rw [List.nil_append, List.cons_append] at h
          have h1 := hB x (by rw [← h]; rfl)
          rw [hX x (List.mem_cons_self _ _)] at h1
          cases h1
      | cons y ys =>
          rw [List.cons_append, List.cons_append] at h
          obtain ⟨e1, e2⟩ := List.cons.inj h
          obtain ⟨i1, i2⟩ := ih ys A B (fun c hc => hX c (List.mem_cons_of_mem _ hc))
            (fun c hc => hY c (List.mem_cons_of_mem _ hc)) hA hB e2
          exact ⟨by rw [e1, i1], i2⟩

theorem head_cons_false (P : Char → Bool) (x : Char) (xs : List Char) (h : P x = false) :
    ∀ c ∈ (x :: xs).head?, P c = false := by
  intro c hc
  simp only [List.head?_cons, Option.mem_def, Option.some.injEq] at hc
  subst hc
  exact h

theorem space_not_digit (c : Char) (h : Cls.test .space c = true) : isDigit c = false := by
  cases hd : isDigit c with
  | false => rfl
  | true =>
      rw [digit_not_space c hd] at h
      cases h

/-- The shape of a text that `freqRe` matches at its start. -/
theorem mt_freqRe_shape (p : Option Char) (t : List Char) (R : MState)
    (h : mt freqRe ⟨p, t, []⟩ some = some R) :
    ∃ d1 sp1 sp2 d2 rest : List Char,
      t = d1 ++ (sp1 ++ ('M' :: 'H' :: 'z' :: ':' :: (sp2 ++ (d2 ++ ('%' :: rest)))))
      ∧ d1 ≠ [] ∧ (∀ c ∈ d1, isDigit c = true) ∧ (∀ c ∈ sp1, Cls.test .space c = true)
      ∧ (∀ c ∈ sp2, Cls.test .space c = true) ∧ d2 ≠ [] ∧ (∀ c ∈ d2, isDigit c = true) := by
  obtain ⟨s1, _, w, hw, hl1, _⟩ := mt_sound freqRe _ _ _ h
  simp only [freqRe, Re.cat, Re.plus, Re.Lang] at hl1
  obtain ⟨v1, w1, rfl, ⟨a1, b1, rfl, ⟨x, rfl, hx⟩, hb1⟩, v2, w2, rfl, hv2, v3, w3, rfl, rfl,
    v4, w4, rfl, hv4, v5, w5, rfl, ⟨a5, b5, rfl, ⟨y, rfl, hy⟩, hb5⟩, rfl⟩ := hl1
  refine ⟨[x] ++ b1, v2, v4, [y] ++ b5, s1.rest, ?_, by simp, ?_, hv2, hv4, by simp, ?_⟩
  · simp only at hw
    rw [hw]
    simp only [List.append_assoc]
    rfl
  · intro c hc
    rcases List.mem_append.mp hc with hc | hc
    · rw [List.mem_singleton.mp hc]
      exact hx
    · exact hb1 c hc
  · intro c hc
    rcases List.mem_append.mp hc with hc | hc
    · rw [List.mem_singleton.mp hc]
      exact hy
    · exact hb5 c hc

theorem noEntryBefore_nil (r : List Char) : noEntryBefore [] r := by
  intro a b e hb
  exfalso
  exact hb (List.append_eq_nil.mp e.symm).2

theorem noEntryBefore_append (g1 g2 r : List Char) (h1 : noEntryBefore g1 (g2 ++ r))
    (h2 : noEntryBefore g2 r) : noEntryBefore (g1 ++ g2) r := by
  intro a b e hb p
  rcases List.append_eq_append_iff.mp e with ⟨a', e1, e2⟩ | ⟨c', e1, e2⟩
  · exact h2 a' b e2 hb p
  · by_cases hc : c' = []
    · subst hc
      rw [List.nil_append] at e2
      exact h2 [] b (by rw [e2]; rfl) hb p
    · have := h1 a c' e1 hc p
      rw [e2, List.append_assoc]
      exact this

theorem noEntryBefore_nodigit (g r : List Char) (h : ∀ c ∈ g, isDigit c = false) :
    noEntryBefore g r := by
  intro a b e hb p
  apply mt_freqRe_nondigit
  intro c hc
  cases b with
  | nil => exact absurd rfl hb
  | cons x xs =>
      simp only [List.cons_append, List.head?_cons, Option.mem_def, Option.some.injEq] at hc
      subst hc
      exact h x (by rw [e]; simp)

theorem entryFree_suffix (a b : List Char) (h : entryFree (a ++ b)) : entryFree b := by
  intro a1 b1 e hb
  exact h (a ++ a1) b1 (by rw [e, List.append_assoc]) hb

theorem noEntryBefore_of_entryFree (g r : List Char) (h : entryFree g) :
    noEntryBefore g r := by
  intro a b e hb p
  cases b with
  | nil => exact absurd rfl hb
  | cons x xs =>
      rw [e] at h
      exact mt_freqRe_entryFree p x xs r (entryFree_suffix a _ h)

/-- No match starts inside a run of digits that is followed by a text which cannot continue an
entry. -/
theorem noEntryBefore_digits (D r : List Char) (hD : ∀ c ∈ D, isDigit c = true)
    (hh : ∀ c ∈ r.head?, isDigit c = false)
    (hr : ∀ sp1 sp2 d2 rest : List Char,
      r = sp1 ++ ('M' :: 'H' :: 'z' :: ':' :: (sp2 ++ (d2 ++ ('%' :: rest)))) →
      (∀ c ∈ sp1, Cls.test .space c = true) → (∀ c ∈ sp2, Cls.test .space c = true) →
      d2 ≠ [] → (∀ c ∈ d2, isDigit c = true) → False) :
    noEntryBefore D r := by
  intro a b e hb p
  cases hq : mt freqRe ⟨p, b ++ r, []⟩ some with
  | none => rfl
  | some R =>
      exfalso
      obtain ⟨d1, sp1, sp2, d2, rest, ht, _, hd1, hs1, hs2, hn2, hd2⟩ :=
        mt_freqRe_shape p _ R hq
      have hB : ∀ c ∈ (sp1 ++ ('M' :: 'H' :: 'z' :: ':' :: (sp2 ++ (d2 ++ ('%' :: rest))))).head?,
          isDigit c = false := by
        intro c hc
        cases sp1 with
        | nil =>
            simp only [List.nil_append, List.head?_cons, Option.mem_def,
              Option.some.injEq] at hc
            subst hc
            decide
        | cons z zs =>
            simp only [List.cons_append, List.head?_cons, Option.mem_def,
              Option.some.injEq] at hc
            subst hc
            exact space_not_digit _ (hs1 _ (List.mem_cons_self _ _))
      obtain ⟨_, e2⟩ := run_unique isDigit b d1 r _
        (fun c hc => hD c (by rw [e]; exact List.mem_append_right _ hc)) hd1 hh hB ht
      exact hr sp1 sp2 d2 rest e2 hs1 hs2 hn2 hd2

/-- A run of digits followed by a character that is no digit, no space of the pattern and not
`M`, or by nothing. -/
theorem noEntryBefore_digits_stop (D r : List Char) (hD : ∀ c ∈ D, isDigit c = true)
    (hh : ∀ c ∈ r.head?, isDigit c = false ∧ Cls.test .space c = false ∧ c ≠ 'M') :
    noEntryBefore D r := by
  apply noEntryBefore_digits D r hD (fun c hc => (hh c hc).1)
  intro sp1 sp2 d2 rest e hs1 _ _ _
  cases sp1 with
  | nil =>
      rw [List.nil_append] at e
      exact (hh 'M' (by rw [e]; rfl)).2.2 rfl
  | cons z zs =>
      rw [List.cons_append] at e
      have h1 := (hh z (by rw [e]; rfl)).2.1
      rw [hs1 z (List.mem_cons_self _ _)] at h1
      cases h1

/-- The frequency digits of an entry whose percent is followed by a character other than `%`
start no match. -/
theorem noEntryBefore_digits_entry (F P X : List Char) (c : Char)
    (hF : ∀ x ∈ F, isDigit x = true) (hP : ∀ x ∈ P, isDigit x = true) (hne : P ≠ [])
    (hc1 : isDigit c = false) (hc2 : c ≠ '%') :
    noEntryBefore F (' ' :: 'M' :: 'H' :: 'z' :: ':' :: ' ' :: (P ++ (c :: X))) := by
  apply noEntryBefore_digits F _ hF
  · intro z hz
    simp only [List.head?_cons, Option.mem_def, Option.some.injEq] at hz
    subst hz
    decide
  intro sp1 sp2 d2 rest e hs1 hs2 hn2 hd2
  have e1 : [' '] ++ ('M' :: 'H' :: 'z' :: ':' :: ' ' :: (P ++ (c :: X)))
      = sp1 ++ ('M' :: 'H' :: 'z' :: ':' :: (sp2 ++ (d2 ++ ('%' :: rest)))) := e
  obtain ⟨_, e2⟩ := run_unique (Cls.test .space) [' '] sp1 _ _ (by decide) hs1
    (head_cons_false _ _ _ (by decide)) (head_cons_false _ _ _ (by decide)) e1
  have e3 : [' '] ++ (P ++ (c :: X)) = sp2 ++ (d2 ++ ('%' :: rest)) := by
    injection e2 with _ e2
    injection e2 with _ e2
    injection e2 with _ e2
    injection e2 with _ e2
  have hPh : ∀ z ∈ (P ++ (c :: X)).head?, Cls.test .space z = false := by
    intro z hz
    cases P with
    | nil => exact absurd rfl hne
    | cons q qs =>
        simp only [List.cons_append, List.head?_cons, Option.mem_def, Option.some.injEq] at hz
        subst hz
        exact digit_not_space _ (hP _ (List.mem_cons_self _ _))
  have hdh : ∀ z ∈ (d2 ++ ('%' :: rest)).head?, Cls.test .space z = false := by
    intro z hz
    cases d2 with
    | nil => exact absurd rfl hn2
    | cons q qs =>
        simp only [List.cons_append, List.head?_cons, Option.mem_def, Option.some.injEq] at hz
        subst hz
        exact digit_not_space _ (hd2 _ (List.mem_cons_self _ _))
  obtain ⟨_, e4⟩ := run_unique (Cls.test .space) [' '] sp2 _ _ (by decide) hs2 hPh hdh e3
  obtain ⟨_, e5⟩ := run_unique isDigit P d2 (c :: X) ('%' :: rest) hP hd2
    (head_cons_false _ _ _ hc1) (head_cons_false _ _ _ (by decide)) e4
  exact hc2 (List.cons.inj e5).1

/-- The search for a histogram entry passes over a text in which no match starts. -/
theorem searchFrom_freqRe_pass (g : List Char) : ∀ (prev : Option Char) (r : List Char),
    noEntryBefore g r →
    searchFrom freqRe prev (g ++ r) = searchFrom freqRe (lastOr prev g) r := by
  induction g with
  | nil => intro prev r _; rfl
  | cons x xs ih =>
      intro prev r h
      have hm := h [] (x :: xs) rfl (List.cons_ne_nil _ _) prev
      rw [List.cons_append] at hm ⊢
      rw [searchFrom, hm]
      dsimp only
      rw [ih (some x) r (fun a b e hb p => h (x :: a) b (by rw [e]; rfl) hb p), lastOr_cons]

/-- The histogram pattern matches, at the start of the text, an entry whose percent is written
as an integer. -/
theorem mt_freqRe_entry (e : HistEntry) (he : e.frac = none) (p : Option Char)
    (rest : List Char) :
    mt freqRe ⟨p, e.text ++ rest, []⟩ some
      = some ⟨some '%', rest, [(2, (Nat.repr e.percent).toList), (1, (Nat.repr e.freq).toList)]⟩ := by
  obtain ⟨f1, f2, _⟩ := repr_digits e.freq
  obtain ⟨p1, p2, _⟩ := repr_digits e.percent
  have ht : e.text ++ rest = (Nat.repr e.freq).toList ++ (' ' :: ("MHz:".toList ++
      (' ' :: ((Nat.repr e.percent).toList ++ ("%".toList ++ rest))))) := by
    unfold HistEntry.text HistEntry.fracText
    rw [he]
    simp only [List.append_assoc, List.append_nil]
    rfl
  rw [ht]
  unfold freqRe
  simp only [Re.cat]
  rw [mt_seq]
  apply mt_group_plus_run 1 .digit _ _ _ _ _ _ f1 f2 (stopsAt_cons _ _ _ (by decide))
  rw [mt_seq]
  apply mt_star_one _ _ _ _ _ _ _ (by decide) (stopsAt_lit _ "MHz:".toList _ (by decide))
  rw [mt_seq, mt_lit_append, mt_seq]
  apply mt_star_one _ _ _ _ _ _ _ (by decide)
    (stopsAt_append _ _ _ p1 (fun x hx => digit_not_space x (p2 x hx)))
  rw [mt_seq]
  apply mt_group_plus_run 2 .digit _ _ _ _ _ _ p1 p2 (stopsAt_lit _ "%".toList _ (by decide))
  rw [mt_lit_append]
  rfl

/-- No match of the histogram pattern starts inside an entry whose percent is written with a
decimal point, whatever follows the entry: after the digits of the percent the pattern wants
`%` and finds the point. -/
theorem noEntryBefore_decimal (e : HistEntry) (fp : List Char) (he : e.frac = some fp)
    (hfp : ∀ c ∈ fp, isDigit c = true) (r : List Char) : noEntryBefore e.text r := by
  obtain ⟨_, f2, _⟩ := repr_digits e.freq
  obtain ⟨p1, p2, _⟩ := repr_digits e.percent
  have ht : e.text = (Nat.repr e.freq).toList ++ (" MHz: ".toList ++
      ((Nat.repr e.percent).toList ++ (['.'] ++ (fp ++ ['%'])))) := by
    unfold HistEntry.text HistEntry.fracText
    rw [he]
    simp only [List.append_assoc]
    rfl
  rw [ht]
  apply noEntryBefore_append
  · have e1 : " MHz: ".toList ++ ((Nat.repr e.percent).toList ++ (['.'] ++ (fp ++ ['%']))) ++ r
        = ' ' :: 'M' :: 'H' :: 'z' :: ':' :: ' ' :: ((Nat.repr e.percent).toList
          ++ ('.' :: (fp ++ '%' :: r))) := by
      simp only [List.append_assoc]
      rfl
    rw [e1]
    exact noEntryBefore_digits_entry _ _ _ '.' f2 p2 p1 (by decide) (by decide)
  apply noEntryBefore_append
  · exact noEntryBefore_nodigit _ _ (by decide)
  apply noEntryBefore_append
  · apply noEntryBefore_digits_stop _ _ p2
    exact fun c hc => by
      simp only [List.append_assoc, List.singleton_append, List.cons_append, List.head?_cons,
        Option.mem_def, Option.some.injEq] at hc
      subst hc
      decide
  apply noEntryBefore_append
  · exact noEntryBefore_nodigit _ _ (by decide)
  apply noEntryBefore_append
  · apply noEntryBefore_digits_stop _ _ hfp
    exact fun c hc => by
      simp only [List.singleton_append, List.cons_append, List.head?_cons, Option.mem_def,
        Option.some.injEq] at hc
      subst hc
      decide
  · exact noEntryBefore_nodigit _ _ (by decide)

theorem HistEntry.text_length (e : HistEntry) : 0 < e.text.length := by
  unfold HistEntry.text
  simp only [List.length_append]
  have : 0 < "%".toList.length := by decide
  omega

theorem histText_length (es : List HistEntry) : es.length ≤ (histText es).length := by
  induction es with
  | nil => exact le_refl _
  | cons e es ih =>
      rw [histText, List.length_append, List.length_append, List.length_cons]
      have := e.text_length
      omega

/-- The successive matches of the histogram pattern in a text without match followed by a
histogram whose gaps have no digit are the entries whose percent is written as an integer, in
the order of the text; the entries with a decimal point are passed over. -/
theorem findAllAux_hist : ∀ (es : List HistEntry) (fuel : Nat) (prev : Option Char)
    (g0 : List Char) (b : Bool), es.length < fuel → (∀ r, noEntryBefore g0 r) →
    (∀ e ∈ es, ∀ c ∈ e.gap, isDigit c = false) →
    (∀ e ∈ es, ∀ fp, e.frac = some fp → ∀ c ∈ fp, isDigit c = true) →
    findAllAux freqRe fuel prev (g0 ++ histText es) b
      = (es.filter (fun e => e.frac.isNone)).map
          (fun e => [e.text, (Nat.repr e.freq).toList, (Nat.repr e.percent).toList]) := by
  intro es
  induction es with
  | nil =>
      intro fuel prev g0 b hf hg _ _
      obtain ⟨f, rfl⟩ : ∃ f, fuel = f + 1 := ⟨fuel - 1, by simp at hf; omega⟩
      rw [findAllAux, searchFrom_freqRe_pass g0 prev _ (hg _)]
      simp only [histText, searchFrom, mt_freqRe_nondigit _ [] (by simp) some, List.filter_nil,
        List.map_nil]
  | cons e es ih =>
      intro fuel prev g0 b hf hg hgs hfs
      have hgs1 : ∀ x ∈ es, ∀ c ∈ x.gap, isDigit c = false :=
        fun x hx => hgs x (List.mem_cons_of_mem _ hx)
      have hfs1 : ∀ x ∈ es, ∀ fp, x.frac = some fp → ∀ c ∈ fp, isDigit c = true :=
        fun x hx => hfs x (List.mem_cons_of_mem _ hx)
      have hgap : ∀ r, noEntryBefore e.gap r :=
        fun r => noEntryBefore_nodigit _ r (hgs e (List.mem_cons_self _ _))
      cases he : e.frac with
      | none =>
          obtain ⟨f, rfl⟩ : ∃ f, fuel = f + 1 := ⟨fuel - 1, by simp at hf; omega⟩
          have hE : histText (e :: es) = e.text ++ (e.gap ++ histText es) := by
            rw [histText, List.append_assoc]
          have hs := searchFrom_hit freqRe (e.text ++ (e.gap ++ histText es)) (lastOr prev g0) _
            (mt_freqRe_entry e he (lastOr prev g0) (e.gap ++ histText es))
          dsimp only at hs
          rw [take_length_sub_append] at hs
          rw [findAllAux, hE, searchFrom_freqRe_pass g0 prev _ (hg _), hs]
          dsimp only
          have hl : ¬ (e.gap ++ histText es).length
              = (g0 ++ (e.text ++ (e.gap ++ histText es))).length := by
            have := e.text_length
            simp only [List.length_append]
            omega
          rw [if_neg hl, ih f (some '%') e.gap true (by simp at hf; omega) hgap hgs1 hfs1,
            List.filter_cons_of_pos (by rw [he]; rfl), List.map_cons]
          rfl
      | some fp =>
          have hE : g0 ++ histText (e :: es) = (g0 ++ (e.text ++ e.gap)) ++ histText es := by
            rw [histText]
            simp only [List.append_assoc]
          rw [hE, List.filter_cons_of_neg (by rw [he]; simp)]
          refine ih fuel prev _ b (by simp at hf; omega) (fun r => ?_) hgs1 hfs1
          apply noEntryBefore_append _ _ _ (hg _)
          exact noEntryBefore_append _ _ _
            (noEntryBefore_decimal e fp he (hfs e (List.mem_cons_self _ _) fp he) _) (hgap r)

theorem FindAllStringSubmatch_hist (pre : List Char) (es : List HistEntry)
    (hp : ∀ r, noEntryBefore pre r) (hg : ∀ e ∈ es, ∀ c ∈ e.gap, isDigit c = false)
    (hf : ∀ e ∈ es, ∀ fp, e.frac = some fp → ∀ c ∈ fp, isDigit c = true) :
    FindAllStringSubmatch freqRe (pre ++ histText es)
      = (es.filter (fun e => e.frac.isNone)).map
          (fun e => [e.text, (Nat.repr e.freq).toList, (Nat.repr e.percent).toList]) := by
  unfold FindAllStringSubmatch
  refine findAllAux_hist es _ none pre false ?_ hp hg hf
  have := histText_length es
  rw [List.length_append]
  omega

theorem histText_not_mem (es : List HistEntry) (ch : Char) (hd : isDigit ch = false)
    (h1 : ch ∉ " MHz: ".toList) (h2 : ch ≠ '%') (h3 : ch ≠ '.')
    (hg : ∀ e ∈ es, ch ∉ e.gap)
    (hf : ∀ e ∈ es, ∀ fp, e.frac = some fp → ∀ c ∈ fp, isDigit c = true) :
    ch ∉ histText es := by
  induction es with
  | nil => simp [histText]
  | cons e es ih =>
      intro h
      rw [histText] at h
      unfold HistEntry.text HistEntry.fracText at h
      simp only [List.mem_append] at h
      rcases h with (((((h | h) | h) | h) | h) | h) | h
      · exact Itoa_digits e.freq ch hd h
      · exact h1 h
      · exact Itoa_digits e.percent ch hd h
      · cases he : e.frac with
        | none =>
            rw [he] at h
            cases h
        | some fp =>
            rw [he] at h
            rcases List.mem_cons.mp h with h | h
            · exact h3 h
            · rw [hf e (List.mem_cons_self _ _) fp he ch h] at hd
              cases hd
      · exact h2 (by simpa using h)
      · exact hg e (List.mem_cons_self _ _) h
      · exact ih (fun x hx => hg x (List.mem_cons_of_mem _ hx))
          (fun x hx => hf x (List.mem_cons_of_mem _ hx)) h

theorem find?_filter_and {α : Type} (p q : α → Bool) (l : List α) :
    (l.filter p).find? q = l.find? (fun a => p a && q a) := by
  induction l with
  | nil => rfl
  | cons a l ih =>
      cases hp : p a with
      | true =>
          rw [List.filter_cons_of_pos hp]
          simp only [List.find?_cons, hp, Bool.true_and]
          cases q a with
          | true => rfl
          | false => exact ih
      | false =>
          rw [List.filter_cons_of_neg (by rw [hp]; simp)]
          simp only [List.find?_cons, hp, Bool.false_and]
          exact ih

/-- C14, amended: for every previous GPU snapshot and every single-line unit that is a GPU
active line made of a head `pre` (without `M`, not ending with a digit or a space) and
histogram entries `<freq> MHz: <percent>%`, the percent written as an integer or with a decimal
point, each entry followed by a gap without digits: the successive matches of `freqRe` are the
entries whose percent is written as an integer, in text order, and the FreqMHz returned by
`parseGPUMetrics` is the frequency of the first entry whose percent is written as an integer
and is above 0 (as `strconv.Atoi` gives it: the frequency itself when a Go `int` holds it),
whatever the later entries are; the entries with a decimal point never set it. When no entry
has an integer percent above 0 the histogram leaves FreqMHz as the first block left it, which
is the previous FreqMHz on every line that is not a frequency line of `re`. The histogram never
changes Active. -/
theorem gpu_histogram_first_active (prev : GPUMetrics) (pre : List Char) (es : List HistEntry)
    (hn : '\n' ∉ pre) (hM : 'M' ∉ pre)
    (hl : ∀ c ∈ pre.getLast?, isDigit c = false ∧ Cls.test .space c = false)
    (hg : ∀ e ∈ es, ∀ c ∈ e.gap, isDigit c = false ∧ c ≠ '\n')
    (hf : ∀ e ∈ es, ∀ fp, e.frac = some fp → ∀ c ∈ fp, isDigit c = true)
    (hG : Contains (pre ++ histText es) "GPU active".toList = true
      ∨ Contains (pre ++ histText es) "GPU HW active".toList = true) :
    FindAllStringSubmatch freqRe (pre ++ histText es)
        = (es.filter (fun e => e.frac.isNone)).map
            (fun e => [e.text, (Nat.repr e.freq).toList, (Nat.repr e.percent).toList])
      ∧ (parseGPUMetrics (pre ++ histText es) prev).FreqMHz
        = (match es.find? (fun e => e.frac.isNone && decide (0 < e.percent)) with
          | some e => min (e.freq : Int) maxInt
          | none => (activeBlock prev (pre ++ histText es)).FreqMHz)
      ∧ (parseGPUMetrics (pre ++ histText es) prev).Active
        = (activeBlock prev (pre ++ histText es)).Active
      ∧ ((FindStringSubmatch re (pre ++ histText es)).getD 2 [] ≠ "frequency".toList →
          (activeBlock prev (pre ++ histText es)).FreqMHz = prev.FreqMHz) := by
  have hline : '\n' ∉ pre ++ histText es := by
    intro h
    rw [List.mem_append] at h
    rcases h with h | h
    · exact hn h
    · exact histText_not_mem es '\n' (by decide) (by decide) (by decide) (by decide)
        (fun e he hc => (hg e he _ hc).2 rfl) hf h
  have hall := FindAllStringSubmatch_hist pre es
    (fun r => noEntryBefore_of_entryFree pre r (entryFree_of_noM pre hM hl))
    (fun e he c hc => (hg e he c hc).1) hf
  have hpos : ((fun m : List (List Char) => F64.gt (ParseFloat (m.getD 2 [])).1 F64.zero)
      ∘ (fun e : HistEntry => [e.text, (Nat.repr e.freq).toList, (Nat.repr e.percent).toList]))
      = fun e => decide (0 < e.percent) := by
    funext e
    obtain ⟨p1, p2, p3⟩ := repr_digits e.percent
    show F64.gt (ParseFloat (Nat.repr e.percent).toList).1 F64.zero = decide (0 < e.percent)
    rw [ParseFloat_digits _ p1 p2, p3, F64.ofNat_gt_zero]
  have hres := parseGPUMetrics_histogram prev (pre ++ histText es) hline hG
  rw [hall, List.find?_map, hpos, find?_filter_and] at hres
  refine ⟨hall, ?_, ?_, activeBlock_FreqMHz prev _⟩
  · rw [hres]
    cases es.find? (fun e => e.frac.isNone && decide (0 < e.percent)) with
    | none => rfl
    | some e =>
        obtain ⟨f1, f2, f3⟩ := repr_digits e.freq
        show (Atoi (Nat.repr e.freq).toList).1 = min (e.freq : Int) maxInt
        rw [Atoi_digits _ f1 f2, f3]
  · rw [hres]
    cases es.find? (fun e => e.frac.isNone && decide (0 < e.percent)) with
    | none => rfl
    | some e => rfl

set_option maxRecDepth 100000 in
/-- The line of the specification with three entries: the first has percent 0, the second gives
the frequency, the third does not override it; a line whose first entry has a decimal percent
takes the frequency of the next entry with an integer percent above 0; and a line whose
entries all have percent 0 keeps the previous 7 MHz. -/
theorem gpu_histogram_first_active_witness :
    (parseGPUMetrics
        "GPU HW active residency:  33.30% (444 MHz: 0% 612 MHz: 12% 808 MHz: 5%)".toList
        sevenMHz).FreqMHz = 612
      ∧ (parseGPUMetrics
        "GPU HW active residency:  33.30% (444 MHz: 2.6% 612 MHz: 0% 808 MHz: 5%)".toList
        sevenMHz).FreqMHz = 808
      ∧ (parseGPUMetrics "GPU HW active residency:  33.30% (444 MHz: 0% 612 MHz: 0%)".toList
        sevenMHz).FreqMHz = 7 := by
  have h1 := (gpu_histogram_first_active sevenMHz "GPU HW active residency:  33.30% (".toList
    [⟨444, 0, none, " ".toList⟩, ⟨612, 12, none, " ".toList⟩, ⟨808, 5, none, ")".toList⟩]
    (by decide) (by decide) (by decide) (by decide) (by decide) (Or.inr (by decide!))).2.1
  have h3 := (gpu_histogram_first_active sevenMHz "GPU HW active residency:  33.30% (".toList
    [⟨444, 2, some "6".toList, " ".toList⟩, ⟨612, 0, none, " ".toList⟩,
      ⟨808, 5, none, ")".toList⟩]
    (by decide) (by decide) (by decide) (by decide) (by decide) (Or.inr (by decide!))).2.1
  have h2 := (gpu_histogram_first_active sevenMHz "GPU HW active residency:  33.30% (".toList
    [⟨444, 0, none, " ".toList⟩, ⟨612, 0, none, ")".toList⟩] (by decide) (by decide)
    (by decide) (by decide) (by decide) (Or.inr (by decide!))).2
  exact ⟨h1, h3, h2.1.trans (h2.2.2 (by decide!))⟩

set_option maxRecDepth 100000 in
/-- C14 as stated fails: on a GPU active line whose first entry is `444 MHz: 2.6%`, a percent
above zero, `freqRe` does not match that entry (it wants an integer percent) and the unit
returns 808, the frequency of the next entry, not 444; when that entry is the only one the
previous 7 MHz stays. -/
theorem gpu_histogram_counterexample :
    FindAllStringSubmatch freqRe
        "GPU HW active residency:  33.30% (444 MHz: 2.6% 808 MHz: 5%)".toList
        = [["808 MHz: 5%".toList, "808".toList, "5".toList]]
      ∧ (parseGPUMetrics "GPU HW active residency:  33.30% (444 MHz: 2.6% 808 MHz: 5%)".toList
        sevenMHz).FreqMHz = 808
      ∧ (parseGPUMetrics "GPU HW active residency:  33.30% (444 MHz: 2.6% 808 MHz: 5%)".toList
        sevenMHz).FreqMHz ≠ 444
      ∧ (parseGPUMetrics "GPU HW active residency:  33.30% (444 MHz: 2.6%)".toList
        sevenMHz).FreqMHz = 7 := by
  decide!

theorem finishNumber_outOfRange (neg hex : Bool) (s : List Char) (m : Mant) (r : List Char)
    (h : (finishNumber neg hex s m r).2 = ErrKind.outOfRange) :
    (finishNumber neg hex s m r).1 = F64.inf neg := by
  revert h
  unfold finishNumber
  dsimp only
  repeat' split
  all_goals first
    | (intro h; cases h; done)
    | (intro _; assumption)

/-- On a range error `ParseFloat` returns the infinity of the sign of the text. -/
theorem ParseFloat_outOfRange (s : List Char) (h : (ParseFloat s).2 = ErrKind.outOfRange)
    (hs : s.head? ≠ some '-') : (ParseFloat s).1 = F64.inf false := by
  revert h
  unfold ParseFloat
  cases special s with
  | none =>
      intro h
      unfold parseNumber at h ⊢
      dsimp only at h ⊢
      rw [finishNumber_outOfRange _ _ _ _ _ h]
      simp [hs]
  | some r =>
      obtain ⟨v, n⟩ := r
      dsimp only
      split_ifs
      · intro h; cases h
      · intro h; cases h

theorem div_inf_1000 : F64.div (F64.inf false) (F64.ofNat 1000) = F64.inf false := by decide!

/-- The watts of a reading whose conversion fails: 0 on a syntax error, +Inf on a range error of
a reading without minus sign. -/
theorem milliwattsToWatts_failed (t : List Char) (ht : ∀ c ∈ t, readingChar c = true) :
    ((ParseFloat (TrimSuffix t "mW".toList)).2 = ErrKind.malformed →
        milliwattsToWatts t = F64.zero)
      ∧ ((ParseFloat (TrimSuffix t "mW".toList)).2 = ErrKind.outOfRange →
        milliwattsToWatts t = F64.inf false) := by
  constructor
  · intro e
    unfold milliwattsToWatts
    rw [ParseFloat_malformed _ e]
    exact div_zero_1000
  · intro e
    have hs : (TrimSuffix t "mW".toList).head? ≠ some '-' := by
      intro hc
      have h1 : '-' ∈ TrimSuffix t "mW".toList := List.mem_of_mem_head? hc
      have h2 : '-' ∈ t := by
        unfold TrimSuffix at h1
        split_ifs at h1
        · exact List.mem_of_mem_take h1
        · exact h1
      exact absurd (ht _ h2) (by decide)
    unfold milliwattsToWatts
    rw [ParseFloat_outOfRange _ e hs]
    exact div_inf_1000

theorem coresAndPower_keep (f : PowerField) (st : Locals) (line : List Char)
    (h : Contains line f.marker = false) :
    f.get (coresAndPower st line).cpuMetrics = f.get st.cpuMetrics := by
  unfold coresAndPower
  dsimp only
  cases f <;> simp only [PowerField.marker] at h <;> split_ifs <;>
    first
      | rfl
      | (exfalso; simp_all)

theorem coresAndPower_record (f : PowerField) (st : Locals) (t : List Char) (hne : t ≠ [])
    (ht : ∀ c ∈ t, readingChar c = true) :
    f.get (coresAndPower st (powerLine f.label t)).cpuMetrics = milliwattsToWatts t := by
  cases f
  · exact coresAndPower_ane st t hne ht
  · exact coresAndPower_cpu st t hne ht
  · exact coresAndPower_gpu st t hne ht
  · exact coresAndPower_combined st t hne ht

theorem setClusterActive_power (f : PowerField) (cl : List Char) (v : Int) (c : CPUMetrics) :
    f.get (setClusterActive cl v c) = f.get c := by
  cases f
  · exact setClusterActive_ANEW cl v c
  · exact setClusterActive_CPUW cl v c
  · exact setClusterActive_GPUW cl v c
  · exact setClusterActive_PackageW cl v c

theorem setClusterFreq_power (f : PowerField) (cl : List Char) (v : Int) (c : CPUMetrics) :
    f.get (setClusterFreq cl v c) = f.get c := by
  cases f
  · exact setClusterFreq_ANEW cl v c
  · exact setClusterFreq_CPUW cl v c
  · exact setClusterFreq_GPUW cl v c
  · exact setClusterFreq_PackageW cl v c

theorem residencyStep_power (f : PowerField) (st : Locals) (line : List Char) :
    f.get (residencyStep st line).cpuMetrics = f.get st.cpuMetrics := by
  unfold residencyStep
  dsimp only
  split_ifs
  · exact setClusterActive_power f _ _ _
  · exact (show f.get { setClusterActive _ _ st.cpuMetrics with PClusterActive := _ }
      = f.get (setClusterActive _ _ st.cpuMetrics) by cases f <;> rfl).trans
      (setClusterActive_power f _ _ _)
  · exact setClusterActive_power f _ _ _
  · rfl

theorem frequencyStep_power (f : PowerField) (st : Locals) (line : List Char) :
    f.get (frequencyStep st line).cpuMetrics = f.get st.cpuMetrics := by
  unfold frequencyStep
  dsimp only
  split_ifs
  · exact (show f.get { setClusterFreq _ _ st.cpuMetrics with EClusterFreqMHz := _ }
      = f.get (setClusterFreq _ _ st.cpuMetrics) by cases f <;> rfl).trans
      (setClusterFreq_power f _ _ _)
  · exact (show f.get { setClusterFreq _ _ st.cpuMetrics with PClusterFreqMHz := _ }
      = f.get (setClusterFreq _ _ st.cpuMetrics) by cases f <;> rfl).trans
      (setClusterFreq_power f _ _ _)
  · exact setClusterFreq_power f _ _ _
  · rfl

theorem standardLine_keep (f : PowerField) (st : Locals) (line : List Char)
    (h : Contains line f.marker = false) :
    f.get (standardLine st line).cpuMetrics = f.get st.cpuMetrics := by
  unfold standardLine
  rw [coresAndPower_keep f _ line h, frequencyStep_power, residencyStep_power]

theorem acceptMeans_power (f : PowerField) (st : Locals) :
    f.get (acceptMeans st).cpuMetrics = f.get st.cpuMetrics := by
  unfold acceptMeans
  dsimp only
  cases f <;> split_ifs <;> rfl

theorem foldl_coreResidencyStep_cpuMetrics (unit : List Char) (l : List Nat) :
    ∀ st : Locals, (l.foldl (coreResidencyStep unit) st).cpuMetrics = st.cpuMetrics := by
  induction l with
  | nil => intro st; rfl
  | cons i l ih =>
      intro st
      rw [List.foldl_cons, ih]
      unfold coreResidencyStep
      dsimp only
      split_ifs <;> rfl

theorem workaroundLine_keep (f : PowerField) (model unit : List Char) (st : Locals)
    (line : List Char) (h : Contains line f.marker = false) :
    f.get (workaroundLine model unit st line).cpuMetrics = f.get st.cpuMetrics := by
  unfold workaroundLine
  dsimp only
  rw [coresAndPower_keep f _ line h, acceptMeans_power,
    (foldl_coreFrequencyStep_keeps unit _ _).2.2, foldl_coreResidencyStep_cpuMetrics]

theorem foldl_power_keep (f : PowerField) (F : Locals → List Char → Locals)
    (hF : ∀ st l, Contains l f.marker = false → f.get (F st l).cpuMetrics = f.get st.cpuMetrics)
    (ls : List (List Char)) : ∀ st : Locals, (∀ l ∈ ls, Contains l f.marker = false) →
      f.get (ls.foldl F st).cpuMetrics = f.get st.cpuMetrics := by
  induction ls with
  | nil => intro st _; rfl
  | cons l ls ih =>
      intro st h
      rw [List.foldl_cons, ih _ (fun x hx => h x (List.mem_cons_of_mem _ hx)),
        hF st l (h l (List.mem_cons_self _ _))]

/-- The last record of a kind decides: in a unit whose lines are `before`, the power record
with the reading `t`, and `after`, no line of `after` holding the marker of the record, the
field of the record is the watts of `t`, on every model. -/
theorem parseCPUMetrics_last_record (f : PowerField) (prev : CPUMetrics)
    (model unit t : List Char) (before after : List (List Char))
    (hu : SplitLines unit = before ++ powerLine f.label t :: after)
    (ha : ∀ l ∈ after, Contains l f.marker = false)
    (hne : t ≠ []) (ht : ∀ c ∈ t, readingChar c = true) :
    f.get (parseCPUMetrics unit prev model) = milliwattsToWatts t := by
  unfold parseCPUMetrics
  dsimp only
  rw [hu, List.foldl_append, List.foldl_cons, List.foldl_append, List.foldl_cons]
  split_ifs
  · have e : ∀ st : Locals, f.get { st.cpuMetrics with ECores := st.eCores, PCores := st.pCores }
        = f.get st.cpuMetrics := fun st => by cases f <;> rfl
    rw [e, foldl_power_keep f _ (fun st l h => workaroundLine_keep f model unit st l h) after _ ha]
    unfold workaroundLine
    dsimp only
    exact coresAndPower_record f _ t hne ht
  · have e : ∀ st : Locals, f.get (aggregate st) = f.get st.cpuMetrics := fun st => by
      cases f
      · exact aggregate_ANEW st
      · exact aggregate_CPUW st
      · exact aggregate_GPUW st
      · exact aggregate_PackageW st
    rw [e, foldl_power_keep f _ (fun st l h => standardLine_keep f st l h) after _ ha]
    unfold standardLine
    exact coresAndPower_record f _ t hne ht

theorem capture_head (re : Re) (unit g : List Char) (i : Nat) (hi : 1 ≤ i)
    (hg : (FindStringSubmatch re unit).getD i [] = g)
    (hL : ∀ u, re.GroupLang i u → ∃ x xs, u = x :: xs ∧ Cls.test .digitDot x = true) :
    g.head? ≠ some '-' := by
  rcases FindStringSubmatch_group re unit i hi with h | h
  · rw [hg] at h
    rw [h]
    simp
  · rw [hg] at h
    obtain ⟨x, xs, e, hx⟩ := hL g h
    rw [e]
    simp only [List.head?_cons, ne_eq, Option.some.injEq]
    intro hc
    rw [hc] at hx
    exact absurd hx (by decide)

theorem plus_digitDot_head (u : List Char) (h : (Re.plus .digitDot).Lang u) :
    ∃ x xs, u = x :: xs ∧ Cls.test .digitDot x = true := by
  simp only [Re.plus, Re.Lang] at h
  obtain ⟨v, w, rfl, ⟨x, rfl, hx⟩, _⟩ := h
  exact ⟨x, w, rfl, hx⟩

theorem groupLang_out (i : Nat) (u : List Char) (h : outRegex.GroupLang i u) :
    ∃ x xs, u = x :: xs ∧ Cls.test .digitDot x = true := by
  simp only [outRegex, Re.cat, Re.GroupLang, false_or, or_false] at h
  rcases h with ⟨_, h⟩ | ⟨_, h⟩ <;> exact plus_digitDot_head u h

theorem groupLang_in (i : Nat) (u : List Char) (h : inRegex.GroupLang i u) :
    ∃ x xs, u = x :: xs ∧ Cls.test .digitDot x = true := by
  simp only [inRegex, Re.cat, Re.GroupLang, false_or, or_false] at h
  rcases h with ⟨_, h⟩ | ⟨_, h⟩ <;> exact plus_digitDot_head u h

theorem groupLang_read (i : Nat) (u : List Char) (h : readRegex.GroupLang i u) :
    ∃ x xs, u = x :: xs ∧ Cls.test .digitDot x = true := by
  simp only [readRegex, Re.cat, Re.GroupLang, false_or, or_false] at h
  rcases h with ⟨_, h⟩ | ⟨_, h⟩ <;> exact plus_digitDot_head u h

theorem groupLang_write (i : Nat) (u : List Char) (h : writeRegex.GroupLang i u) :
    ∃ x xs, u = x :: xs ∧ Cls.test .digitDot x = true := by
  simp only [writeRegex, Re.cat, Re.GroupLang, false_or, or_false] at h
  rcases h with ⟨_, h⟩ | ⟨_, h⟩ <;> exact plus_digitDot_head u h

/-- Whenever one of the four activity patterns matches the unit, both fields of the pattern take
the values `ParseFloat` returns for the captured texts, the error dropped; the captured texts
carry no sign. -/
theorem parseActivityMetrics_match (prev : NetDiskMetrics) (unit w a b : List Char) :
    (FindStringSubmatch outRegex unit = [w, a, b] →
        (parseActivityMetrics unit prev).OutPacketsPerSec = (ParseFloat a).1
        ∧ (parseActivityMetrics unit prev).OutBytesPerSec = (ParseFloat b).1
        ∧ a.head? ≠ some '-' ∧ b.head? ≠ some '-')
      ∧ (FindStringSubmatch inRegex unit = [w, a, b] →
        (parseActivityMetrics unit prev).InPacketsPerSec = (ParseFloat a).1
        ∧ (parseActivityMetrics unit prev).InBytesPerSec = (ParseFloat b).1
        ∧ a.head? ≠ some '-' ∧ b.head? ≠ some '-')
      ∧ (FindStringSubmatch readRegex unit = [w, a, b] →
        (parseActivityMetrics unit prev).ReadOpsPerSec = (ParseFloat a).1
        ∧ (parseActivityMetrics unit prev).ReadKBytesPerSec = (ParseFloat b).1
        ∧ a.head? ≠ some '-' ∧ b.head? ≠ some '-')
      ∧ (FindStringSubmatch writeRegex unit = [w, a, b] →
        (parseActivityMetrics unit prev).WriteOpsPerSec = (ParseFloat a).1
        ∧ (parseActivityMetrics unit prev).WriteKBytesPerSec = (ParseFloat b).1
        ∧ a.head? ≠ some '-' ∧ b.head? ≠ some '-') := by
  refine ⟨fun h => ⟨?_, ?_, ?_, ?_⟩, fun h => ⟨?_, ?_, ?_, ?_⟩, fun h => ⟨?_, ?_, ?_, ?_⟩,
    fun h => ⟨?_, ?_, ?_, ?_⟩⟩
  case refine_1 | refine_2 | refine_5 | refine_6 | refine_9 | refine_10 | refine_13
      | refine_14 =>
    unfold parseActivityMetrics
    simp only [h, List.length_cons, List.length_nil, List.getD_cons_succ, List.getD_cons_zero,
      Nat.reduceAdd, if_true] <;>
      first
        | rfl
        | (split_ifs <;> rfl)
  · exact capture_head outRegex unit a 1 (by decide) (by rw [h]; rfl) (groupLang_out 1)
  · exact capture_head outRegex unit b 2 (by decide) (by rw [h]; rfl) (groupLang_out 2)
  · exact capture_head inRegex unit a 1 (by decide) (by rw [h]; rfl) (groupLang_in 1)
  · exact capture_head inRegex unit b 2 (by decide) (by rw [h]; rfl) (groupLang_in 2)
  · exact capture_head readRegex unit a 1 (by decide) (by rw [h]; rfl) (groupLang_read 1)
  · exact capture_head readRegex unit b 2 (by decide) (by rw [h]; rfl) (groupLang_read 2)
  · exact capture_head writeRegex unit a 1 (by decide) (by rw [h]; rfl) (groupLang_write 1)
  · exact capture_head writeRegex unit b 2 (by decide) (by rw [h]; rfl) (groupLang_write 2)

/-- C4, amended: a conversion that fails does not keep the previous value of the field; the
field takes the value `strconv.ParseFloat` returns with the error, which is 0 on a syntax error
and +Inf on a range error (the power fields divide it by 1000, which leaves 0 and +Inf).
For every previous snapshot and every sampling unit: when `outRegex`, `inRegex`, `readRegex`
or `writeRegex` matches the unit with the captured texts `a` and `b`, a failing `a` gives 0
(syntax error) or +Inf (range error) in the first field of the pattern and a failing `b` in
the second. For every previous CPU snapshot, every model and every unit whose lines are
`before`, then a power record with the reading `t` (a non-empty text without space, `-`, `%`,
`q`, `A`, `C`, `G`), then `after`, no line of `after` holding the marker of the record: a
failing `t` gives 0 or +Inf in the power field of the record; a later record of the same kind
would set the field again. -/
theorem conversion_failure_zeroes_field (prev : NetDiskMetrics) (unit w a b : List Char)
    (prevCPU : CPUMetrics) (model cpuUnit t : List Char) (before after : List (List Char))
    (hne : t ≠ []) (ht : ∀ c ∈ t, readingChar c = true) :
    (FindStringSubmatch outRegex unit = [w, a, b] →
        ((ParseFloat a).2 = ErrKind.malformed →
          (parseActivityMetrics unit prev).OutPacketsPerSec = F64.zero)
        ∧ ((ParseFloat a).2 = ErrKind.outOfRange →
          (parseActivityMetrics unit prev).OutPacketsPerSec = F64.inf false)
        ∧ ((ParseFloat b).2 = ErrKind.malformed →
          (parseActivityMetrics unit prev).OutBytesPerSec = F64.zero)
        ∧ ((ParseFloat b).2 = ErrKind.outOfRange →
          (parseActivityMetrics unit prev).OutBytesPerSec = F64.inf false))
      ∧ (FindStringSubmatch inRegex unit = [w, a, b] →
        ((ParseFloat a).2 = ErrKind.malformed →
          (parseActivityMetrics unit prev).InPacketsPerSec = F64.zero)
        ∧ ((ParseFloat a).2 = ErrKind.outOfRange →
          (parseActivityMetrics unit prev).InPacketsPerSec = F64.inf false)
        ∧ ((ParseFloat b).2 = ErrKind.malformed →
          (parseActivityMetrics unit prev).InBytesPerSec = F64.zero)
        ∧ ((ParseFloat b).2 = ErrKind.outOfRange →
          (parseActivityMetrics unit prev).InBytesPerSec = F64.inf false))
      ∧ (FindStringSubmatch readRegex unit = [w, a, b] →
        ((ParseFloat a).2 = ErrKind.malformed →
          (parseActivityMetrics unit prev).ReadOpsPerSec = F64.zero)
        ∧ ((ParseFloat a).2 = ErrKind.outOfRange →
          (parseActivityMetrics unit prev).ReadOpsPerSec = F64.inf false)
        ∧ ((ParseFloat b).2 = ErrKind.malformed →
          (parseActivityMetrics unit prev).ReadKBytesPerSec = F64.zero)
        ∧ ((ParseFloat b).2 = ErrKind.outOfRange →
          (parseActivityMetrics unit prev).ReadKBytesPerSec = F64.inf false))
      ∧ (FindStringSubmatch writeRegex unit = [w, a, b] →
        ((ParseFloat a).2 = ErrKind.malformed →
          (parseActivityMetrics unit prev).WriteOpsPerSec = F64.zero)
        ∧ ((ParseFloat a).2 = ErrKind.outOfRange →
          (parseActivityMetrics unit prev).WriteOpsPerSec = F64.inf false)
        ∧ ((ParseFloat b).2 = ErrKind.malformed →
          (parseActivityMetrics unit prev).WriteKBytesPerSec = F64.zero)
        ∧ ((ParseFloat b).2 = ErrKind.outOfRange →
          (parseActivityMetrics unit prev).WriteKBytesPerSec = F64.inf false))
      ∧ (SplitLines cpuUnit = before ++ powerLine "CPU Power:".toList t :: after →
        (∀ l ∈ after, Contains l "CPU Power".toList = false) →
        ((ParseFloat (TrimSuffix t "mW".toList)).2 = ErrKind.malformed →
          (parseCPUMetrics cpuUnit prevCPU model).CPUW = F64.zero)
        ∧ ((ParseFloat (TrimSuffix t "mW".toList)).2 = ErrKind.outOfRange →
          (parseCPUMetrics cpuUnit prevCPU model).CPUW = F64.inf false))
      ∧ (SplitLines cpuUnit = before ++ powerLine "ANE Power:".toList t :: after →
        (∀ l ∈ after, Contains l "ANE Power".toList = false) →
        ((ParseFloat (TrimSuffix t "mW".toList)).2 = ErrKind.malformed →
          (parseCPUMetrics cpuUnit prevCPU model).ANEW = F64.zero)
        ∧ ((ParseFloat (TrimSuffix t "mW".toList)).2 = ErrKind.outOfRange →
          (parseCPUMetrics cpuUnit prevCPU model).ANEW = F64.inf false))
      ∧ (SplitLines cpuUnit = before ++ powerLine "GPU Power:".toList t :: after →
        (∀ l ∈ after, Contains l "GPU Power".toList = false) →
        ((ParseFloat (TrimSuffix t "mW".toList)).2 = ErrKind.malformed →
          (parseCPUMetrics cpuUnit prevCPU model).GPUW = F64.zero)
        ∧ ((ParseFloat (TrimSuffix t "mW".toList)).2 = ErrKind.outOfRange →
          (parseCPUMetrics cpuUnit prevCPU model).GPUW = F64.inf false))
      ∧ (SplitLines cpuUnit = before ++ powerLine "Combined Power (CPU + GPU + ANE):".toList t :: after →
        (∀ l ∈ after, Contains l "Combined Power (CPU + GPU + ANE)".toList = false) →
        ((ParseFloat (TrimSuffix t "mW".toList)).2 = ErrKind.malformed →
          (parseCPUMetrics cpuUnit prevCPU model).PackageW = F64.zero)
        ∧ ((ParseFloat (TrimSuffix t "mW".toList)).2 = ErrKind.outOfRange →
          (parseCPUMetrics cpuUnit prevCPU model).PackageW = F64.inf false)) := by
  obtain ⟨ho, hi, hr, hw⟩ := parseActivityMetrics_match prev unit w a b
  obtain ⟨m1, m2⟩ := milliwattsToWatts_failed t ht
  have hp : ∀ f : PowerField, SplitLines cpuUnit = before ++ powerLine f.label t :: after →
      (∀ l ∈ after, Contains l f.marker = false) →
      ((ParseFloat (TrimSuffix t "mW".toList)).2 = ErrKind.malformed →
          f.get (parseCPUMetrics cpuUnit prevCPU model) = F64.zero)
        ∧ ((ParseFloat (TrimSuffix t "mW".toList)).2 = ErrKind.outOfRange →
          f.get (parseCPUMetrics cpuUnit prevCPU model) = F64.inf false) := by
    intro f hu ha
    rw [parseCPUMetrics_last_record f prevCPU model cpuUnit t before after hu ha hne ht]
    exact ⟨m1, m2⟩
  have hact : ∀ x y : F64, x = (ParseFloat a).1 → y = (ParseFloat b).1 →
      a.head? ≠ some '-' → b.head? ≠ some '-' →
      ((ParseFloat a).2 = ErrKind.malformed → x = F64.zero)
        ∧ ((ParseFloat a).2 = ErrKind.outOfRange → x = F64.inf false)
        ∧ ((ParseFloat b).2 = ErrKind.malformed → y = F64.zero)
        ∧ ((ParseFloat b).2 = ErrKind.outOfRange → y = F64.inf false) := by
    intro x y hx hy ha hb
    rw [hx, hy]
    exact ⟨ParseFloat_malformed a, fun e => ParseFloat_outOfRange a e ha,
      ParseFloat_malformed b, fun e => ParseFloat_outOfRange b e hb⟩
  refine ⟨fun h => ?_, fun h => ?_, fun h => ?_, fun h => ?_, hp .cpu, hp .ane, hp .gpu,
    hp .combined⟩
  · obtain ⟨x, y, p, q⟩ := ho h
    exact hact _ _ x y p q
  · obtain ⟨x, y, p, q⟩ := hi h
    exact hact _ _ x y p q
  · obtain ⟨x, y, p, q⟩ := hr h
    exact hact _ _ x y p q
  · obtain ⟨x, y, p, q⟩ := hw h
    exact hact _ _ x y p q

set_option maxRecDepth 1000000 in
/-- The two examples of the claim, `1.2.3` in an `out:` line and `abc` in a `CPU Power`
record, the second also between two other power records: the field is 0 although it was 7 and
1 before. A range error: the number 1 followed by 400 zeros in an `out:` line gives +Inf. -/
theorem conversion_failure_zeroes_field_witness :
    (parseActivityMetrics "out: 1.2.3 packets/s, 4 bytes/s".toList busyNet).OutPacketsPerSec
        = F64.zero
      ∧ (parseCPUMetrics "CPU Power: abc mW".toList busyCPU "Apple M1".toList).CPUW
        = F64.zero
      ∧ (parseCPUMetrics "CPU Power: 5 mW\nCPU Power: abc mW\nGPU Power: 7 mW".toList busyCPU
          "Apple M3 Max".toList).CPUW = F64.zero
      ∧ (parseActivityMetrics ("out: 1".toList ++ List.replicate 400 '0'
          ++ " packets/s, 4 bytes/s".toList) busyNet).OutPacketsPerSec = F64.inf false := by
  have h1 := conversion_failure_zeroes_field busyNet "out: 1.2.3 packets/s, 4 bytes/s".toList
    "out: 1.2.3 packets/s, 4 bytes/s".toList "1.2.3".toList "4".toList busyCPU
    "Apple M1".toList "CPU Power: abc mW".toList "abc".toList [] [] (by decide) (by decide)
  have h2 := conversion_failure_zeroes_field busyNet "out: 1.2.3 packets/s, 4 bytes/s".toList
    "out: 1.2.3 packets/s, 4 bytes/s".toList "1.2.3".toList "4".toList busyCPU
    "Apple M3 Max".toList "CPU Power: 5 mW\nCPU Power: abc mW\nGPU Power: 7 mW".toList
    "abc".toList ["CPU Power: 5 mW".toList] ["GPU Power: 7 mW".toList] (by decide) (by decide)
  have h3 := conversion_failure_zeroes_field busyNet
    ("out: 1".toList ++ List.replicate 400 '0' ++ " packets/s, 4 bytes/s".toList)
    ("out: 1".toList ++ List.replicate 400 '0' ++ " packets/s, 4 bytes/s".toList)
    ('1' :: List.replicate 400 '0') "4".toList busyCPU
    "Apple M1".toList "CPU Power: abc mW".toList "abc".toList [] [] (by decide) (by decide)
  exact ⟨(h1.1 (by decide!)).1 (by decide!),
    (h1.2.2.2.2.1 (by decide!) (by decide)).1 (by decide!),
    (h2.2.2.2.2.1 (by decide!) (by decide!)).1 (by decide!),
    (h3.1 (by decide!)).2.1 (by decide!)⟩

end Mactop
